import Mathlib

/-!
# Matching engine: order book and matcher

A shallow embedding of `internal/orderbook` (order.go, level.go, orderbook.go)
and `internal/matcher` (matcher.go).

Modelling conventions

* `decimal.Decimal` is an exact decimal; the code only uses `Add`, `Sub`, `Neg`,
  `Mul`, the comparisons and `IsZero`, all of which are exact, so a decimal is
  modelled by the rational number it denotes.
* `Decimal.String()` renders the numeric value in canonical form (trailing zeros
  trimmed), so two decimals have the same string iff they are numerically equal,
  and `decimal.Zero.String()` is the literal "0".  A map keyed by price strings is
  therefore a map keyed by the price, and a `[2]string{price, volume}` pair is
  modelled by the pair of decimals whose strings it holds; the literal "0" is the
  decimal `0`.
* A Go `map` that is only read by key is a function into `Option`; the two delta
  maps of `ProcessOrder`, which are iterated, are association lists, and the order
  in which `range` visits their keys is a parameter (`RangeOrder`).
* `*Order` is an address (`Ptr`) into the arena `Orderbook.heap`; an order object
  enters the arena when `Orderbook.AddOrder` links it.  The taker handed to
  `ProcessOrder` is a freshly allocated object (`NewOrder` in `cmd/engine`), it is
  threaded by value until it rests.
* `*list.Element` of a level is identified with the `*Order` it carries.
* `*PriceLevel` is identified with the key under which the level is stored.
* `uint64` is a natural number reduced modulo `2 ^ 64`.
* Loops that Go does not bound take a fuel argument and return `none` when the
  fuel runs out.
* `Trade.ID` (a fresh uuid), `Trade.ExecutedAt`, `OrderbookDelta.Timestamp` (wall
  clock) are not modelled.
-/

namespace Engine

/-! ## order.go -/

abbrev Decimal := ℚ

abbrev Ptr := Nat

inductive Side where
  | Buy
  | Sell
deriving DecidableEq, Repr

inductive OrderType where
  | Limit
  | Market
deriving DecidableEq, Repr

structure Order where
  ID : String
  UserID : String
  Symbol : String
  Side : Side
  Typ : OrderType
  Price : Decimal
  Quantity : Decimal
  RemainingQty : Decimal
  Timestamp : Nat
deriving DecidableEq

instance : Inhabited Order :=
  ⟨⟨"", "", "", Side.Buy, OrderType.Limit, 0, 0, 0, 0⟩⟩

def Side.String (s : Side) : String :=
  if s = Side.Buy then "BUY" else "SELL"

def NewOrder (id userID symbol : String) (side : Side) (orderType : OrderType)
    (price quantity : Decimal) (now : Nat) : Order :=
  { ID := id, UserID := userID, Symbol := symbol, Side := side, Typ := orderType,
    Price := price, Quantity := quantity, RemainingQty := quantity, Timestamp := now }

def Order.IsFilled (o : Order) : Bool :=
  decide (o.RemainingQty = 0)

/-- Method `Order.Fill`: the updated order and the amount actually filled. -/
def Order.Fill (o : Order) (qty : Decimal) : Order × Decimal :=
  let qty := if qty > o.RemainingQty then o.RemainingQty else qty
  ({ o with RemainingQty := o.RemainingQty - qty }, qty)

/-! ## level.go -/

structure PriceLevel where
  Price : Decimal
  Orders : List Ptr
  Volume : Decimal
  elements : String → Option Ptr

def NewPriceLevel (price : Decimal) : PriceLevel :=
  { Price := price, Orders := [], Volume := 0, elements := fun _ => none }

def PriceLevel.AddOrder (pl : PriceLevel) (heap : Ptr → Order) (order : Ptr) : PriceLevel :=
  { pl with
    Orders := pl.Orders ++ [order]
    elements := Function.update pl.elements (heap order).ID (some order)
    Volume := pl.Volume + (heap order).RemainingQty }

def PriceLevel.RemoveOrder (pl : PriceLevel) (heap : Ptr → Order) (orderID : String) :
    PriceLevel × Option Ptr :=
  match pl.elements orderID with
  | none => (pl, none)
  | some elem =>
    ({ pl with
       Orders := pl.Orders.erase elem
       elements := Function.update pl.elements orderID none
       Volume := pl.Volume - (heap elem).RemainingQty }, some elem)

def PriceLevel.UpdateVolume (pl : PriceLevel) (delta : Decimal) : PriceLevel :=
  { pl with Volume := pl.Volume + delta }

def PriceLevel.Front (pl : PriceLevel) : Option Ptr :=
  pl.Orders.head?

def PriceLevel.IsEmpty (pl : PriceLevel) : Bool :=
  pl.Orders.length == 0

def PriceLevel.Len (pl : PriceLevel) : Nat :=
  pl.Orders.length

/-! ## orderbook.go -/

structure BookSide where
  levels : Decimal → Option PriceLevel
  sorted : List Decimal
  isDescend : Bool

def NewBookSide (isDescend : Bool) : BookSide :=
  { levels := fun _ => none, sorted := [], isDescend := isDescend }

def BookSide.findInsertIndex (bs : BookSide) (price : Decimal) : Nat :=
  bs.sorted.findIdx (fun p => if bs.isDescend then decide (price > p) else decide (price < p))

/-- Method `insertPrice`: grow the slice by one, shift the tail right, store the price at `idx`. -/
def BookSide.insertPrice (bs : BookSide) (price : Decimal) : BookSide :=
  let idx := bs.findInsertIndex price
  { bs with sorted := bs.sorted.take idx ++ price :: bs.sorted.drop idx }

/-- Method `removePrice`: drop the first entry equal to `price`. -/
def BookSide.removePrice (bs : BookSide) (price : Decimal) : BookSide :=
  { bs with sorted := bs.sorted.erase price }

def BookSide.AddOrder (bs : BookSide) (heap : Ptr → Order) (order : Ptr) : BookSide :=
  let price := (heap order).Price
  match bs.levels price with
  | some level =>
    { bs with levels := Function.update bs.levels price (some (level.AddOrder heap order)) }
  | none =>
    let bs1 := { bs with levels := Function.update bs.levels price (some (NewPriceLevel price)) }
    let bs2 := bs1.insertPrice price
    { bs2 with
      levels := Function.update bs2.levels price (some ((NewPriceLevel price).AddOrder heap order)) }

def BookSide.RemoveOrder (bs : BookSide) (heap : Ptr → Order) (price : Decimal)
    (orderID : String) : BookSide × Option Ptr :=
  match bs.levels price with
  | none => (bs, none)
  | some level =>
    let r := level.RemoveOrder heap orderID
    if r.1.IsEmpty then
      (({ bs with levels := Function.update bs.levels price none }).removePrice price, r.2)
    else
      ({ bs with levels := Function.update bs.levels price (some r.1) }, r.2)

def BookSide.Best (bs : BookSide) : Option PriceLevel :=
  match bs.sorted with
  | [] => none
  | p :: _ => bs.levels p

def BookSide.GetLevel (bs : BookSide) (price : Decimal) : Option PriceLevel :=
  bs.levels price

def BookSide.UpdateLevelVolume (bs : BookSide) (price delta : Decimal) : BookSide :=
  match bs.levels price with
  | some level =>
    { bs with levels := Function.update bs.levels price (some (level.UpdateVolume delta)) }
  | none => bs

structure Orderbook where
  Symbol : String
  Bids : BookSide
  Asks : BookSide
  Orders : String → Option Ptr
  Sequence : Nat
  heap : Ptr → Order
  next : Ptr

def NewOrderbook (symbol : String) : Orderbook :=
  { Symbol := symbol, Bids := NewBookSide true, Asks := NewBookSide false,
    Orders := fun _ => none, Sequence := 0, heap := fun _ => default, next := 0 }

/-- The side an order of side `s` rests on: `ob.Bids` for `Buy`, `ob.Asks` otherwise. -/
def Orderbook.side (ob : Orderbook) (s : Side) : BookSide :=
  if s = Side.Buy then ob.Bids else ob.Asks

def Orderbook.setSide (ob : Orderbook) (s : Side) (bs : BookSide) : Orderbook :=
  if s = Side.Buy then { ob with Bids := bs } else { ob with Asks := bs }

def Side.opposite (s : Side) : Side :=
  if s = Side.Buy then Side.Sell else Side.Buy

/-- Method `Orderbook.AddOrder`: the order object is placed in the arena at the next free
address and that address is linked into the index and into its side. -/
def Orderbook.AddOrder (ob : Orderbook) (order : Order) : Orderbook :=
  let p := ob.next
  let ob1 := { ob with heap := Function.update ob.heap p order, next := p + 1 }
  let ob2 := { ob1 with
    Orders := Function.update ob1.Orders order.ID (some p)
    Sequence := (ob1.Sequence + 1) % 2 ^ 64 }
  ob2.setSide order.Side ((ob2.side order.Side).AddOrder ob2.heap p)

def Orderbook.RemoveOrder (ob : Orderbook) (orderID : String) : Orderbook × Option Ptr :=
  match ob.Orders orderID with
  | none => (ob, none)
  | some order =>
    let ob1 := { ob with
      Orders := Function.update ob.Orders orderID none
      Sequence := (ob.Sequence + 1) % 2 ^ 64 }
    let s := (ob1.heap order).Side
    (ob1.setSide s ((ob1.side s).RemoveOrder ob1.heap (ob1.heap order).Price orderID).1,
      some order)

def Orderbook.GetOrder (ob : Orderbook) (orderID : String) : Option Ptr :=
  ob.Orders orderID

def Orderbook.BestBid (ob : Orderbook) : Option PriceLevel :=
  ob.Bids.Best

def Orderbook.BestAsk (ob : Orderbook) : Option PriceLevel :=
  ob.Asks.Best

def Orderbook.GetSequence (ob : Orderbook) : Nat :=
  ob.Sequence

/-! ## matcher.go -/

structure Trade where
  Symbol : String
  Price : Decimal
  Quantity : Decimal
  QuoteQty : Decimal
  MakerOrderID : String
  TakerOrderID : String
  MakerUserID : String
  TakerUserID : String
  IsBuyerMaker : Bool
deriving DecidableEq

structure OrderUpdate where
  OrderID : String
  RemainingQty : Decimal
  Status : String
deriving DecidableEq

structure OrderbookDelta where
  Symbol : String
  Sequence : Nat
  Bids : List (Decimal × Decimal)
  Asks : List (Decimal × Decimal)
deriving DecidableEq

structure MatchResult where
  Trades : List Trade
  OrderUpdates : List OrderUpdate
  OrderbookDelta : OrderbookDelta
deriving DecidableEq

structure Matcher where
  orderbooks : String → Option Orderbook

def NewMatcher : Matcher :=
  { orderbooks := fun _ => none }

def Matcher.GetOrCreateOrderbook (m : Matcher) (symbol : String) : Matcher × Orderbook :=
  match m.orderbooks symbol with
  | some ob => (m, ob)
  | none =>
    let ob := NewOrderbook symbol
    ({ orderbooks := Function.update m.orderbooks symbol (some ob) }, ob)

def Matcher.GetOrderbook (m : Matcher) (symbol : String) : Option Orderbook :=
  m.orderbooks symbol

/-- The order in which `range` visits the keys of the two delta maps; Go leaves it
unspecified, every visit order is a rearrangement of the keys. -/
structure RangeOrder where
  bids : List Decimal → List Decimal
  asks : List Decimal → List Decimal

/-- A `range` order that visits every key exactly once. -/
def RangeOrder.Fair (ro : RangeOrder) : Prop :=
  (∀ l, (ro.bids l).Perm l) ∧ (∀ l, (ro.asks l).Perm l)

/-- The keys in insertion order. -/
def RangeOrder.insertion : RangeOrder :=
  { bids := fun l => l, asks := fun l => l }

/-- Read of a `map[string]decimal.Decimal`: the zero value when the key is absent. -/
def deltaGet (m : List (Decimal × Decimal)) (k : Decimal) : Decimal :=
  match m.lookup k with
  | some v => v
  | none => 0

/-- Write of a `map[string]decimal.Decimal`. -/
def deltaSet : List (Decimal × Decimal) → Decimal → Decimal → List (Decimal × Decimal)
  | [], k, v => [(k, v)]
  | (k1, v1) :: m, k, v => if k1 = k then (k1, v) :: m else (k1, v1) :: deltaSet m k v

def deltaKeys (m : List (Decimal × Decimal)) : List Decimal :=
  m.map Prod.fst

/-- The `priceMatches` closure chosen from the taker's side. -/
def priceMatches (takerSide : Side) (makerPrice takerPrice : Decimal) : Bool :=
  if takerSide = Side.Buy then decide (makerPrice ≤ takerPrice)
  else decide (makerPrice ≥ takerPrice)

/-- The local state of one `ProcessOrder` call. -/
structure MatchState where
  ob : Orderbook
  order : Order
  Trades : List Trade
  OrderUpdates : List OrderUpdate
  bidDeltas : List (Decimal × Decimal)
  askDeltas : List (Decimal × Decimal)

/-- The `oppositeSide` pointer: `ob.Asks` for a Buy taker, `ob.Bids` for a Sell taker. -/
def MatchState.oppositeSide (st : MatchState) : BookSide :=
  st.ob.side st.order.Side.opposite

/-- The body of the inner loop of `ProcessOrder`, for the maker at the front of the
level stored under `key` on the opposite side. -/
def matchStep (st : MatchState) (key : Decimal) (makerOrder : Ptr) : MatchState :=
  let maker := st.ob.heap makerOrder
  let order := st.order
  let tradeQty :=
    if maker.RemainingQty < order.RemainingQty then maker.RemainingQty else order.RemainingQty
  let tradePrice := maker.Price
  let quoteQty := tradePrice * tradeQty
  let trade : Trade :=
    { Symbol := order.Symbol, Price := tradePrice, Quantity := tradeQty, QuoteQty := quoteQty,
      MakerOrderID := maker.ID, TakerOrderID := order.ID, MakerUserID := maker.UserID,
      TakerUserID := order.UserID, IsBuyerMaker := decide (maker.Side = Side.Buy) }
  let maker1 := (maker.Fill tradeQty).1
  let ob1 := { st.ob with heap := Function.update st.ob.heap makerOrder maker1 }
  let order1 := (order.Fill tradeQty).1
  let makerStatus := if maker1.IsFilled then "FILLED" else "PARTIAL"
  let ob2 :=
    if maker1.IsFilled then (ob1.RemoveOrder maker1.ID).1
    else ob1.setSide order.Side.opposite
      ((ob1.side order.Side.opposite).UpdateLevelVolume key (-tradeQty))
  let upd : OrderUpdate :=
    { OrderID := maker1.ID, RemainingQty := maker1.RemainingQty, Status := makerStatus }
  { ob := ob2
    order := order1
    Trades := st.Trades ++ [trade]
    OrderUpdates := st.OrderUpdates ++ [upd]
    bidDeltas :=
      if order.Side = Side.Buy then st.bidDeltas
      else deltaSet st.bidDeltas tradePrice (deltaGet st.bidDeltas tradePrice - tradeQty)
    askDeltas :=
      if order.Side = Side.Buy then
        deltaSet st.askDeltas tradePrice (deltaGet st.askDeltas tradePrice - tradeQty)
      else st.askDeltas }

/-- The inner loop `for !order.IsFilled() && !bestLevel.IsEmpty()`.  `key` is the key
under which `bestLevel` is stored; a level that has been unlinked from the side is
empty. -/
def innerLoop : Nat → Decimal → MatchState → Option MatchState
  | 0, _, _ => none
  | fuel + 1, key, st =>
    if st.order.IsFilled then some st
    else
      match st.oppositeSide.levels key with
      | none => some st
      | some bestLevel =>
        if bestLevel.IsEmpty then some st
        else
          match bestLevel.Front with
          | none => some st
          | some makerOrder => innerLoop fuel key (matchStep st key makerOrder)

/-- The outer loop `for !order.IsFilled()`. -/
def outerLoop : Nat → MatchState → Option MatchState
  | 0, _ => none
  | fuel + 1, st =>
    if st.order.IsFilled then some st
    else
      match st.oppositeSide.Best with
      | none => some st
      | some bestLevel =>
        if !priceMatches st.order.Side bestLevel.Price st.order.Price then some st
        else
          match innerLoop fuel (st.oppositeSide.sorted.headD 0) st with
          | none => none
          | some st1 => outerLoop fuel st1

/-- The sentinel prices of a market order (lines 71-75). -/
def marketPrice (order : Order) : Order :=
  if order.Typ = OrderType.Market ∧ order.Side = Side.Buy then
    { order with Price := 999999999 }
  else if order.Typ = OrderType.Market ∧ order.Side = Side.Sell then
    { order with Price := 0 }
  else order

/-- Lines 159-186: rest or discard the unfilled taker, append the taker's update. -/
def restTaker (st : MatchState) : MatchState :=
  let order := st.order
  let st1 : MatchState × String :=
    if !order.IsFilled then
      if order.Typ = OrderType.Limit then
        ({ st with
           ob := st.ob.AddOrder order
           bidDeltas :=
             if order.Side = Side.Buy then
               deltaSet st.bidDeltas order.Price
                 (deltaGet st.bidDeltas order.Price + order.RemainingQty)
             else st.bidDeltas
           askDeltas :=
             if order.Side = Side.Buy then st.askDeltas
             else deltaSet st.askDeltas order.Price
               (deltaGet st.askDeltas order.Price + order.RemainingQty) },
         if st.Trades.length > 0 then "PARTIAL" else "NEW")
      else
        (st, if st.Trades.length > 0 then "PARTIAL" else "CANCELLED")
    else (st, "FILLED")
  { st1.1 with
    OrderUpdates := st1.1.OrderUpdates ++
      [{ OrderID := order.ID, RemainingQty := order.RemainingQty, Status := st1.2 }] }

/-- Lines 188-204: one delta entry per key of a delta map, carrying the current
volume of the level, or "0" when the level does not exist. -/
def deltaEntries (bs : BookSide) (keys : List Decimal) : List (Decimal × Decimal) :=
  keys.map (fun price =>
    match bs.GetLevel price with
    | some level => (price, level.Volume)
    | none => (price, 0))

def buildDelta (ro : RangeOrder) (st : MatchState) : OrderbookDelta :=
  { Symbol := st.order.Symbol
    Sequence := st.ob.GetSequence
    Bids := deltaEntries st.ob.Bids (ro.bids (deltaKeys st.bidDeltas))
    Asks := deltaEntries st.ob.Asks (ro.asks (deltaKeys st.askDeltas)) }

/-- The outcome of `ProcessOrder`: the matcher after the call, the returned
`MatchResult`, and the taker object as the caller sees it afterwards. -/
structure Outcome where
  matcher : Matcher
  result : MatchResult
  order : Order

/-- The work of `ProcessOrder` on the book of the taker's symbol. -/
def processOn (fuel : Nat) (ro : RangeOrder) (ob : Orderbook) (order : Order) :
    Option (Orderbook × MatchResult × Order) :=
  let st0 : MatchState :=
    { ob := ob, order := marketPrice order, Trades := [], OrderUpdates := [],
      bidDeltas := [], askDeltas := [] }
  match outerLoop fuel st0 with
  | none => none
  | some st1 =>
    let st2 := restTaker st1
    some (st2.ob,
      { Trades := st2.Trades, OrderUpdates := st2.OrderUpdates,
        OrderbookDelta := buildDelta ro st2 },
      st2.order)

def Matcher.ProcessOrder (fuel : Nat) (ro : RangeOrder) (m : Matcher) (order : Order) :
    Option Outcome :=
  let mo := m.GetOrCreateOrderbook order.Symbol
  match processOn fuel ro mo.2 order with
  | none => none
  | some r =>
    some { matcher := { orderbooks := Function.update mo.1.orderbooks order.Symbol (some r.1) }
           result := r.2.1
           order := r.2.2 }

/-- Method `CancelOrder`: the matcher after the call, the returned order (its address and
the object it points to) and the returned delta. -/
def Matcher.CancelOrder (m : Matcher) (symbol orderID : String) :
    Matcher × Option (Ptr × Order) × Option OrderbookDelta :=
  match m.orderbooks symbol with
  | none => (m, none, none)
  | some ob =>
    match ob.RemoveOrder orderID with
    | (ob1, none) =>
      ({ orderbooks := Function.update m.orderbooks symbol (some ob1) }, none, none)
    | (ob1, some p) =>
      let order := ob1.heap p
      let entry : List (Decimal × Decimal) :=
        match (ob1.side order.Side).Best with
        | some level =>
          if level.Price = order.Price then [(order.Price, level.Volume)]
          else [(order.Price, 0)]
        | none => [(order.Price, 0)]
      ({ orderbooks := Function.update m.orderbooks symbol (some ob1) },
        some (p, order),
        some { Symbol := symbol
               Sequence := ob1.GetSequence
               Bids := if order.Side = Side.Buy then entry else []
               Asks := if order.Side = Side.Buy then [] else entry })

/-! ## Predicates on books -/

/-- The order at address `a` is queued in the level stored under `k` on side `s`. -/
def Resting (ob : Orderbook) (s : Side) (k : Decimal) (a : Ptr) : Prop :=
  ∃ L, (ob.side s).levels k = some L ∧ a ∈ L.Orders

/-- Sum of `RemainingQty` over the orders queued in a level. -/
def levelSum (heap : Ptr → Order) (L : PriceLevel) : Decimal :=
  (L.Orders.map (fun a => (heap a).RemainingQty)).sum

/-- No two queued orders share an id: no address is queued twice in a level, and two
queue entries with the same id are the same entry. -/
def UniqueIds (ob : Orderbook) : Prop :=
  (∀ s k L, (ob.side s).levels k = some L → L.Orders.Nodup) ∧
  ∀ s k a s1 k1 a1, Resting ob s k a → Resting ob s1 k1 a1 →
    (ob.heap a).ID = (ob.heap a1).ID → s = s1 ∧ k = k1 ∧ a = a1

/-- Every queued address has been allocated. -/
def Allocated (ob : Orderbook) : Prop :=
  ∀ s k a, Resting ob s k a → a < ob.next

/-- No order queued in the book of the taker's symbol carries the taker's id. -/
def FreshId (m : Matcher) (o : Order) : Prop :=
  ∀ ob, m.orderbooks o.Symbol = some ob →
    ∀ s k a, Resting ob s k a → (ob.heap a).ID ≠ o.ID

/-- States reached from the empty matcher by `ProcessOrder` and `CancelOrder`. -/
inductive Reachable : Matcher → Prop where
  | init : Reachable NewMatcher
  | submit (m : Matcher) (fuel : Nat) (ro : RangeOrder) (o : Order) (out : Outcome) :
      Reachable m → m.ProcessOrder fuel ro o = some out → Reachable out.matcher
  | cancel (m : Matcher) (symbol orderID : String) :
      Reachable m → Reachable (m.CancelOrder symbol orderID).1

/-- States reached from the empty matcher when every submitted order carries an id
that is not resting in its book at the time of the submit. -/
inductive ReachableFresh : Matcher → Prop where
  | init : ReachableFresh NewMatcher
  | submit (m : Matcher) (fuel : Nat) (ro : RangeOrder) (o : Order) (out : Outcome) :
      ReachableFresh m → FreshId m o → m.ProcessOrder fuel ro o = some out →
      ReachableFresh out.matcher
  | cancel (m : Matcher) (symbol orderID : String) :
      ReachableFresh m → ReachableFresh (m.CancelOrder symbol orderID).1

/-- The order object `o1` is `o` with possibly another `RemainingQty`. -/
def SameButQty (o o1 : Order) : Prop :=
  o1 = { o with RemainingQty := o1.RemainingQty }

/-- The book `ob1` is obtained from `ob` by unlinking queued orders and changing the
`RemainingQty` of order objects. -/
def Shrinks (ob ob1 : Orderbook) : Prop :=
  ob1.next = ob.next ∧ (∀ a, SameButQty (ob.heap a) (ob1.heap a)) ∧
  ∀ s k L1, (ob1.side s).levels k = some L1 →
    ∃ L, (ob.side s).levels k = some L ∧ L1.Orders.Sublist L.Orders

/-! ## Concrete books -/

def limitOrder (id : String) (side : Side) (price qty : Decimal) : Order :=
  NewOrder id "u1" "BTCUSDT" side OrderType.Limit price qty 0

def marketOrder (id : String) (side : Side) (qty : Decimal) : Order :=
  NewOrder id "u2" "BTCUSDT" side OrderType.Market 0 qty 0

/-- Submit with ample fuel; the matcher is unchanged if the call does not return. -/
def submit (m : Matcher) (o : Order) : Matcher :=
  match m.ProcessOrder 16 RangeOrder.insertion o with
  | some out => out.matcher
  | none => m

/-- The volume of the level at `price`, with id and remaining quantity of each order
queued in it, front first. -/
def levelView (ob : Orderbook) (s : Side) (price : Decimal) :
    Option (Decimal × List (String × Decimal)) :=
  ((ob.side s).levels price).map
    (fun L => (L.Volume, L.Orders.map (fun a => ((ob.heap a).ID, (ob.heap a).RemainingQty))))

/-- Two asks at 100, then a buy at 100 that fills the first of them. -/
def twoAsksOneFilled : Matcher :=
  submit (submit (submit NewMatcher (limitOrder "O1" Side.Sell 100 1))
    (limitOrder "O2" Side.Sell 100 1)) (limitOrder "O3" Side.Buy 100 1)

/-- A bid at 100 and two bids at 99. -/
def threeBids : Matcher :=
  submit (submit (submit NewMatcher (limitOrder "O1" Side.Buy 100 1))
    (limitOrder "O2" Side.Buy 99 1)) (limitOrder "O3" Side.Buy 99 1)

/-- One ask above the market sentinel price. -/
def highAsk : Matcher :=
  submit NewMatcher (limitOrder "O1" Side.Sell 1000000000 1)

/-- The same limit order submitted twice. -/
def sameIdTwice : Matcher :=
  submit (submit NewMatcher (limitOrder "O1" Side.Buy 100 1)) (limitOrder "O1" Side.Buy 100 1)

/-- The `tradeQty` computed by the loop body for the maker at `a`. -/
def MatchState.tradeQty (st : MatchState) (a : Ptr) : Decimal :=
  if (st.ob.heap a).RemainingQty < st.order.RemainingQty then (st.ob.heap a).RemainingQty
  else st.order.RemainingQty

/-- The maker object after `makerOrder.Fill(tradeQty)`. -/
def MatchState.filledMaker (st : MatchState) (a : Ptr) : Order :=
  ((st.ob.heap a).Fill (st.tradeQty a)).1

/-- The book after `makerOrder.Fill(tradeQty)`, before the maker is unlinked or the
level volume adjusted. -/
def MatchState.filledBook (st : MatchState) (a : Ptr) : Orderbook :=
  { st.ob with heap := Function.update st.ob.heap a (st.filledMaker a) }

/-- The book `ProcessOrder` works on for `symbol`: the stored one, or a new one. -/
def Matcher.book (m : Matcher) (symbol : String) : Orderbook :=
  (m.GetOrCreateOrderbook symbol).2

/-- Decision procedure for `Resting`. -/
def restingB (ob : Orderbook) (s : Side) (k : Decimal) (a : Ptr) : Bool :=
  match (ob.side s).levels k with
  | some L => decide (a ∈ L.Orders)
  | none => false

/-- A bid of 2 at 100. -/
def oneBid : Matcher :=
  submit NewMatcher (limitOrder "O1" Side.Buy 100 2)

/-- A bid of 2 at 100, then an ask of 1 at 100 that trades against it. -/
def bidThenAsk : Matcher :=
  submit oneBid (limitOrder "O2" Side.Sell 100 1)

/-- The `Volume` field of the level at `price` and the sum of `RemainingQty` over the
orders queued in it. -/
def volumeAndSum (ob : Orderbook) (s : Side) (price : Decimal) : Option (Decimal × Decimal) :=
  ((ob.side s).levels price).map (fun L => (L.Volume, levelSum ob.heap L))

/-! ## Structural invariants -/

/-- On side `s` the price `p` is strictly better than `q`: higher for bids, lower
for asks. -/
def better (s : Side) (p q : Decimal) : Prop :=
  if s = Side.Buy then q < p else p < q

/-- The structural invariants of one side of a book: the ordered view is strictly
best-first and lists exactly the keys of the level map; every level is stored under
its price, is not empty, and has a volume no smaller than what its orders still
hold; every queued order is allocated, has the level's price and side, has a
positive remaining quantity and is the one the level's and the book's id indexes
point to. -/
structure SideWF (ob : Orderbook) (s : Side) : Prop where
  descend : (ob.side s).isDescend = decide (s = Side.Buy)
  sorted : (ob.side s).sorted.Pairwise (better s)
  keys : ∀ k, k ∈ (ob.side s).sorted ↔ ((ob.side s).levels k).isSome = true
  level : ∀ k L, (ob.side s).levels k = some L →
    L.Price = k ∧ L.Orders ≠ [] ∧ L.Orders.Nodup ∧ levelSum ob.heap L ≤ L.Volume
  order : ∀ k L a, (ob.side s).levels k = some L → a ∈ L.Orders →
    a < ob.next ∧ (ob.heap a).Price = k ∧ (ob.heap a).Side = s ∧
    0 < (ob.heap a).RemainingQty ∧
    L.elements (ob.heap a).ID = some a ∧ ob.Orders (ob.heap a).ID = some a

/-- The structural invariants of a book. -/
def WF (ob : Orderbook) : Prop :=
  ∀ s, SideWF ob s

/-- The loop body is about to run: the taker is not filled, `k` heads the ordered
view of the opposite side, `L` is the level stored under `k`, its queue is
`a :: rest`, and `k` crosses the taker's price. -/
structure StepPre (st : MatchState) (k : Decimal) (L : PriceLevel) (a : Ptr)
    (rest : List Ptr) : Prop where
  notFilled : st.order.IsFilled = false
  head : st.oppositeSide.sorted.head? = some k
  level : st.oppositeSide.levels k = some L
  front : L.Orders = a :: rest
  cross : priceMatches st.order.Side k st.order.Price = true

/-- The trade record the loop body appends for the maker at `a`. -/
def MatchState.tradeOf (st : MatchState) (a : Ptr) : Trade :=
  { Symbol := st.order.Symbol, Price := (st.ob.heap a).Price, Quantity := st.tradeQty a,
    QuoteQty := (st.ob.heap a).Price * st.tradeQty a,
    MakerOrderID := (st.ob.heap a).ID, TakerOrderID := st.order.ID,
    MakerUserID := (st.ob.heap a).UserID, TakerUserID := st.order.UserID,
    IsBuyerMaker := decide ((st.ob.heap a).Side = Side.Buy) }

/-- The queue of the level stored under `k`, empty when there is no such level. -/
def BookSide.queue (bs : BookSide) (k : Decimal) : List Ptr :=
  match bs.levels k with
  | some L => L.Orders
  | none => []

/-- Number of orders queued on a side, counted along its ordered view. -/
def BookSide.count (bs : BookSide) : Nat :=
  (bs.sorted.map (fun k => (bs.queue k).length)).sum

/-- The level stored under the key of `L` after the loop body has run for its front
maker `a` (`rest` is the queue behind `a`): unlinked when `a` was filled and was the
last order, otherwise `L` without `a`, or `L` with its volume adjusted when `a` was
only partly filled. -/
def MatchState.levelAfter (st : MatchState) (L : PriceLevel) (a : Ptr) (rest : List Ptr) :
    Option PriceLevel :=
  if (st.filledMaker a).IsFilled then
    if rest = [] then none
    else some { L with
      Orders := rest
      elements := Function.update L.elements (st.ob.heap a).ID none
      Volume := L.Volume - (st.filledMaker a).RemainingQty }
  else some (L.UpdateVolume (-st.tradeQty a))

/-- The condition under which the outer loop leaves: the taker is filled, or the
opposite side has no level, or the best opposite price does not cross. -/
def MatchState.Done (st : MatchState) : Prop :=
  st.order.IsFilled = true ∨ st.oppositeSide.sorted = [] ∨
    ∃ k, st.oppositeSide.sorted.head? = some k ∧
      priceMatches st.order.Side k st.order.Price = false

instance (s : Side) (p q : Decimal) : Decidable (better s p q) := by
  unfold better
  infer_instance

/-- Every book of the matcher satisfies the structural invariants. -/
def MatcherWF (m : Matcher) : Prop :=
  ∀ symbol ob, m.orderbooks symbol = some ob → WF ob

/-- An ask of 1 at 100, to be submitted against `oneBid`. -/
def askO2 : Order :=
  limitOrder "O2" Side.Sell 100 1

/-- Total quantity of the trades that name `id` as maker. -/
def makerQty (trades : List Trade) (id : String) : Decimal :=
  ((trades.filter (fun t => decide (t.MakerOrderID = id))).map (fun t => t.Quantity)).sum

/-! ## Loop invariants -/

/-- Maker conservation along the cross, relative to the book `ob0` it started on. -/
def ConsInv (ob0 : Orderbook) (st : MatchState) : Prop :=
  Shrinks ob0 st.ob ∧
    (∀ s k b, Resting ob0 s k b → (ob0.heap b).RemainingQty =
      (st.ob.heap b).RemainingQty + makerQty st.Trades (ob0.heap b).ID) ∧
    ∀ s k b, Resting ob0 s k b → Resting st.ob s k b ∨ (st.ob.heap b).RemainingQty = 0

/-- Every trade so far names a maker of `ob0`, at that maker's price, which crosses
the taker's price. -/
def PriceInv (ob0 : Orderbook) (st : MatchState) : Prop :=
  Shrinks ob0 st.ob ∧ ∀ t ∈ st.Trades,
    priceMatches st.order.Side t.Price st.order.Price = true ∧
    ∃ k a, Resting ob0 st.order.Side.opposite k a ∧ t.MakerOrderID = (ob0.heap a).ID ∧
      t.Price = (ob0.heap a).Price

/-- Trades so far are in best-first price order and no linked level of the opposite
side is strictly better than an executed trade. -/
def BestFirstInv (st : MatchState) : Prop :=
  (st.Trades.map (fun t => t.Price)).Pairwise
      (fun p q => ¬ better st.order.Side.opposite q p) ∧
    ∀ t ∈ st.Trades, ∀ x ∈ st.oppositeSide.sorted,
      ¬ better st.order.Side.opposite x t.Price

/-- A property of the loop state that every run of the loop body preserves. -/
def StepInvariant (P : MatchState → Prop) : Prop :=
  ∀ st k L a rest, WF st.ob → P st → StepPre st k L a rest → P (matchStep st k a)

/-- Two bids, at 100 and at 99. -/
def twoBidLevels : Matcher :=
  submit oneBid (limitOrder "O3" Side.Buy 99 1)

/-- A sell of 3 at 99, which sweeps `twoBidLevels`. -/
def sellSweep : Order :=
  limitOrder "O4" Side.Sell 99 3

/-- Every level of the opposite side of `ob0` is a consumed front part, whose orders
are unlinked and filled, followed by the queue the level has now. -/
def FifoInv (ob0 : Orderbook) (st : MatchState) : Prop :=
  ∀ k L0, (ob0.side st.order.Side.opposite).levels k = some L0 →
    ∃ pre, L0.Orders = pre ++ st.oppositeSide.queue k ∧
      ∀ A ∈ pre, ¬ Resting st.ob st.order.Side.opposite k A ∧
        (st.ob.heap A).RemainingQty = 0

/-- Whenever a trade names `B`, every order `A` queued before `B` in the same level
of `ob0` had been filled completely by the earlier trades, and is unlinked. -/
def PriorityInv (ob0 : Orderbook) (st : MatchState) : Prop :=
  ∀ T1 t T2, st.Trades = T1 ++ t :: T2 →
    ∀ k L0 l1 A l2 B, (ob0.side st.order.Side.opposite).levels k = some L0 →
      L0.Orders = l1 ++ A :: l2 → B ∈ l2 → t.MakerOrderID = (ob0.heap B).ID →
      makerQty T1 (ob0.heap A).ID = (ob0.heap A).RemainingQty ∧
        (st.ob.heap A).RemainingQty = 0 ∧
        ¬ Resting st.ob st.order.Side.opposite k A

/-- Two bids at 100: O1 of 2, then O5 of 1. -/
def twoBidsOneLevel : Matcher :=
  submit oneBid (limitOrder "O5" Side.Buy 100 1)

/-- The delta map of the side the taker crosses: `askDeltas` for a Buy taker. -/
def MatchState.oppDeltas (st : MatchState) : List (Decimal × Decimal) :=
  if st.order.Side = Side.Buy then st.askDeltas else st.bidDeltas

/-- The delta map of the taker's own side: `bidDeltas` for a Buy taker. -/
def MatchState.ownDeltas (st : MatchState) : List (Decimal × Decimal) :=
  if st.order.Side = Side.Buy then st.bidDeltas else st.askDeltas

/-- During the cross the own-side delta map is empty and the own side is untouched;
the keys of the opposite delta map are distinct and every opposite level whose price
is not among them is as it was in `ob0`. -/
def DeltaInv (ob0 : Orderbook) (st : MatchState) : Prop :=
  st.ownDeltas = [] ∧ (deltaKeys st.oppDeltas).Nodup ∧
    st.ob.side st.order.Side = ob0.side st.order.Side ∧
    ∀ p, p ∉ deltaKeys st.oppDeltas →
      st.oppositeSide.levels p = (ob0.side st.order.Side.opposite).levels p

/-- The delta list of side `s`: `Bids` for Buy, `Asks` for Sell. -/
def OrderbookDelta.side (d : OrderbookDelta) (s : Side) : List (Decimal × Decimal) :=
  if s = Side.Buy then d.Bids else d.Asks

/-- The keys of the delta map of side `s`: `bidDeltas` for Buy, `askDeltas` for Sell. -/
def MatchState.deltaKeysOf (st : MatchState) (s : Side) : List Decimal :=
  deltaKeys (if s = Side.Buy then st.bidDeltas else st.askDeltas)

/-- The `range` order used for the delta map of side `s`. -/
def RangeOrder.side (ro : RangeOrder) (s : Side) : List Decimal → List Decimal :=
  if s = Side.Buy then ro.bids else ro.asks

/-- A sell of 1 at 101, which rests above the bid of `oneBid`. -/
def askAbove : Order :=
  limitOrder "O6" Side.Sell 101 1

/-! ## Depth queries (orderbook.go) -/

/-- The helper `min` at the end of orderbook.go. -/
def minInt (a b : Int) : Int :=
  if a < b then a else b

/-- Method `BookSide.GetLevels`.  `make([][2]string, 0, c)` panics when the capacity
`c` is negative, and reading `level.Volume` panics when the level is missing; a panic
is `none`. -/
def BookSide.GetLevels (bs : BookSide) (limit : Int) : Option (List (Decimal × Decimal)) :=
  if minInt limit bs.sorted.length < 0 then none
  else
    (bs.sorted.take limit.toNat).mapM
      (fun price => (bs.levels price).map (fun level => (price, level.Volume)))

/-- Method `Orderbook.GetDepth`. -/
def Orderbook.GetDepth (ob : Orderbook) (limit : Int) :
    Option (List (Decimal × Decimal) × List (Decimal × Decimal)) :=
  match ob.Bids.GetLevels limit with
  | none => none
  | some bids =>
    match ob.Asks.GetLevels limit with
    | none => none
    | some asks => some (bids, asks)

/-- An order of 5 of which 2 are left. -/
def partlyFilled : Order :=
  { NewOrder "O1" "u1" "BTCUSDT" Side.Buy OrderType.Limit 100 5 0 with RemainingQty := 2 }

/-! ## The id indexes point at queued orders -/

/-- Every entry of the book's `Orders` index and of a level's `elements` index
points at an order that carries the id and is queued: in the level of its own side
and price for `Orders`, in the level itself for `elements`. -/
def IndexSound (ob : Orderbook) : Prop :=
  (∀ id a, ob.Orders id = some a →
    (ob.heap a).ID = id ∧ Resting ob (ob.heap a).Side (ob.heap a).Price a) ∧
  ∀ s k L id a, (ob.side s).levels k = some L → L.elements id = some a →
    (ob.heap a).ID = id ∧ a ∈ L.Orders

/-- The structural invariants of a book together with the soundness of its indexes. -/
def BookInv (ob : Orderbook) : Prop :=
  WF ob ∧ IndexSound ob

/-- Every book of the matcher satisfies `BookInv`. -/
def MatcherInv (m : Matcher) : Prop :=
  ∀ symbol ob, m.orderbooks symbol = some ob → BookInv ob

/-- A submit that meets the preconditions of `submit`: the id is not resting in the
book of the order's symbol, and the order is freshly constructed with a positive
quantity. -/
def ValidOrder (m : Matcher) (o : Order) : Prop :=
  FreshId m o ∧ 0 < o.Quantity ∧ o.RemainingQty = o.Quantity

/-- States reached from the empty matcher by valid submits and any cancels. -/
inductive ReachableValid : Matcher → Prop where
  | init : ReachableValid NewMatcher
  | submit (m : Matcher) (fuel : Nat) (ro : RangeOrder) (o : Order) (out : Outcome) :
      ReachableValid m → ValidOrder m o → m.ProcessOrder fuel ro o = some out →
      ReachableValid out.matcher
  | cancel (m : Matcher) (symbol orderID : String) :
      ReachableValid m → ReachableValid (m.CancelOrder symbol orderID).1

/-! ## Order updates and the sequence counter -/

/-- The update record the loop body appends for the maker at `a`. -/
def MatchState.updateOf (st : MatchState) (a : Ptr) : OrderUpdate :=
  { OrderID := (st.filledMaker a).ID, RemainingQty := (st.filledMaker a).RemainingQty,
    Status := if (st.filledMaker a).IsFilled then "FILLED" else "PARTIAL" }

/-- The status lines 159-186 give the taker. -/
def MatchState.takerStatus (st : MatchState) : String :=
  if !st.order.IsFilled then
    if st.order.Typ = OrderType.Limit then
      (if st.Trades.length > 0 then "PARTIAL" else "NEW")
    else
      (if st.Trades.length > 0 then "PARTIAL" else "CANCELLED")
  else "FILLED"

/-- Number of updates that report the status FILLED. -/
def fullyFilled (us : List OrderUpdate) : Nat :=
  (us.filter (fun u => decide (u.Status = "FILLED"))).length

/-- Along the cross that started at sequence `seq0` with `count0` orders on the
opposite side: every maker update with status FILLED stands for one order that left
the opposite side and for one increment of the sequence. -/
def SeqInv (seq0 count0 : Nat) (st : MatchState) : Prop :=
  fullyFilled st.OrderUpdates + st.oppositeSide.count = count0 ∧
  st.ob.Sequence =
    if fullyFilled st.OrderUpdates = 0 then seq0
    else (seq0 + fullyFilled st.OrderUpdates) % 2 ^ 64

/-- The taker of a `ProcessOrder` call is added to the book: it is a limit order
that leaves the cross with a remainder. -/
def Outcome.rests (out : Outcome) : Bool :=
  !out.order.IsFilled && decide (out.order.Typ = OrderType.Limit)

/-- The update `u` belongs to the trade `t`: it names the maker of `t`, an order
queued at `k` on the opposite side of `ob0`; its status is FILLED or PARTIAL, FILLED
exactly when it reports no remaining quantity; it reports the remaining quantity the
maker has now; and either the maker is filled and unlinked or the taker is filled. -/
def MakerUpdate (ob0 : Orderbook) (st : MatchState) (t : Trade) (u : OrderUpdate) : Prop :=
  u.OrderID = t.MakerOrderID ∧ (u.Status = "FILLED" ∨ u.Status = "PARTIAL") ∧
  (u.Status = "FILLED" ↔ u.RemainingQty = 0) ∧
  ∃ k a, Resting ob0 st.order.Side.opposite k a ∧ (ob0.heap a).ID = t.MakerOrderID ∧
    (st.ob.heap a).RemainingQty = u.RemainingQty ∧
    ((u.RemainingQty = 0 ∧ ¬ Resting st.ob st.order.Side.opposite k a) ∨
      st.order.IsFilled = true)

/-- Along the cross there is one maker update for each trade, in the same order. -/
def UpdInv (ob0 : Orderbook) (st : MatchState) : Prop :=
  Shrinks ob0 st.ob ∧ List.Forall₂ (MakerUpdate ob0 st) st.Trades st.OrderUpdates

/-! ## The ordered price view -/

/-- The ordering invariant of the side `bs` of kind `s`: the direction flag is that
of `s`, the ordered view is strictly best-first (so it has no duplicate), it lists
exactly the keys of the level map, and every level is stored under its own price. -/
def SortedView (bs : BookSide) (s : Side) : Prop :=
  bs.isDescend = decide (s = Side.Buy) ∧ bs.sorted.Pairwise (better s) ∧
  (∀ k, k ∈ bs.sorted ↔ (bs.levels k).isSome = true) ∧
  ∀ k L, bs.levels k = some L → L.Price = k

/-- Both sides of the book satisfy the ordering invariant. -/
def BookSorted (ob : Orderbook) : Prop :=
  ∀ s, SortedView (ob.side s) s

/-- The keys in the reverse of insertion order. -/
def RangeOrder.reversed : RangeOrder :=
  { bids := fun l => l.reverse, asks := fun l => l.reverse }

/-! ## Termination and crossing -/

/-- Along the cross that started with `count0` orders on the opposite side: every
trade so far removed one order from that side, except possibly the last one, which
then filled the taker and left its maker queued. -/
def TradeBound (count0 : Nat) (st : MatchState) : Prop :=
  st.Trades.length + st.oppositeSide.count = count0 ∨
    (st.order.IsFilled = true ∧ st.Trades.length + st.oppositeSide.count = count0 + 1 ∧
      0 < st.oppositeSide.count)

/-- Every bid price in the ordered view is below every ask price in the ordered
view. -/
def AllBelow (ob : Orderbook) : Prop :=
  ∀ p ∈ ob.Bids.sorted, ∀ q ∈ ob.Asks.sorted, p < q

/-- The book is not crossed: a side is empty, or the best bid price is below the
best ask price. -/
def Uncrossed (ob : Orderbook) : Prop :=
  ob.Bids.sorted = [] ∨ ob.Asks.sorted = [] ∨
    ∃ b a, ob.BestBid = some b ∧ ob.BestAsk = some a ∧ b.Price < a.Price

/-! ## Inputs outside the preconditions -/

/-- A buy of -2 at 100: a quantity the command parser accepts. -/
def negativeBuy : Order :=
  limitOrder "N1" Side.Buy 100 (-2)

/-- The book after the single submit of `negativeBuy`. -/
def negativeBid : Matcher :=
  submit NewMatcher negativeBuy

/-- The order O1 submitted twice at 100, then the id O1 cancelled: the second order
is unlinked and the first stays queued with no entry in `Orders`. -/
def staleMaker : Matcher :=
  (sameIdTwice.CancelOrder "BTCUSDT" "O1").1

/-- A sell of 1 at 100. -/
def sellOne : Order :=
  limitOrder "T1" Side.Sell 100 1

/-- The id, remaining quantity and status of each update. -/
def updateView (us : List OrderUpdate) : List (String × Decimal × String) :=
  us.map (fun u => (u.OrderID, u.RemainingQty, u.Status))

/-! # Theorems -/

/-! ## Sides of a book -/

theorem side_setSide (ob : Orderbook) (s s1 : Side) (bs : BookSide) :
    (ob.setSide s bs).side s1 = if s1 = s then bs else ob.side s1 := by
  cases s <;> cases s1 <;> simp [Orderbook.setSide, Orderbook.side]

@[simp] theorem heap_setSide (ob : Orderbook) (s : Side) (bs : BookSide) :
    (ob.setSide s bs).heap = ob.heap := by
  cases s <;> simp [Orderbook.setSide]

@[simp] theorem next_setSide (ob : Orderbook) (s : Side) (bs : BookSide) :
    (ob.setSide s bs).next = ob.next := by
  cases s <;> simp [Orderbook.setSide]

@[simp] theorem Orders_setSide (ob : Orderbook) (s : Side) (bs : BookSide) :
    (ob.setSide s bs).Orders = ob.Orders := by
  cases s <;> simp [Orderbook.setSide]

@[simp] theorem Sequence_setSide (ob : Orderbook) (s : Side) (bs : BookSide) :
    (ob.setSide s bs).Sequence = ob.Sequence := by
  cases s <;> simp [Orderbook.setSide]

@[simp] theorem Symbol_setSide (ob : Orderbook) (s : Side) (bs : BookSide) :
    (ob.setSide s bs).Symbol = ob.Symbol := by
  cases s <;> simp [Orderbook.setSide]

theorem side_congr (ob ob1 : Orderbook) (hB : ob1.Bids = ob.Bids) (hA : ob1.Asks = ob.Asks)
    (s : Side) : ob1.side s = ob.side s := by
  cases s <;> simp [Orderbook.side, hB, hA]

/-! ## Removal only unlinks -/

theorem level_removeOrder_sublist (pl : PriceLevel) (heap : Ptr → Order) (id : String) :
    (pl.RemoveOrder heap id).1.Orders.Sublist pl.Orders := by
  unfold PriceLevel.RemoveOrder
  cases pl.elements id with
  | none => exact List.Sublist.refl _
  | some e => exact List.erase_sublist _ _

theorem bookSide_removeOrder_levels (bs : BookSide) (heap : Ptr → Order) (price : Decimal)
    (id : String) (k : Decimal) :
    (bs.RemoveOrder heap price id).1.levels k =
      if k = price then
        match bs.levels price with
        | none => none
        | some L => if (L.RemoveOrder heap id).1.IsEmpty then none
                    else some (L.RemoveOrder heap id).1
      else bs.levels k := by
  unfold BookSide.RemoveOrder
  cases hL : bs.levels price with
  | none =>
    by_cases hk : k = price
    · simp [hk, hL]
    · simp [hk]
  | some L =>
    by_cases hE : (L.RemoveOrder heap id).1.IsEmpty = true
    · by_cases hk : k = price
      · simp [hE, hk, BookSide.removePrice]
      · simp [hE, hk, BookSide.removePrice, Function.update_noteq hk]
    · by_cases hk : k = price
      · simp [hE, hk]
      · simp [hE, hk, Function.update_noteq hk]

theorem bookSide_removeOrder_shrinks (bs : BookSide) (heap : Ptr → Order) (price : Decimal)
    (id : String) (k : Decimal) (L1 : PriceLevel)
    (h : (bs.RemoveOrder heap price id).1.levels k = some L1) :
    ∃ L, bs.levels k = some L ∧ L1.Orders.Sublist L.Orders := by
  rw [bookSide_removeOrder_levels] at h
  by_cases hk : k = price
  · subst hk
    rw [if_pos rfl] at h
    cases hL : bs.levels k with
    | none => simp [hL] at h
    | some L =>
      simp only [hL] at h
      by_cases hE : (L.RemoveOrder heap id).1.IsEmpty = true
      · simp [hE] at h
      · simp only [hE] at h
        refine ⟨L, rfl, ?_⟩
        have : L1 = (L.RemoveOrder heap id).1 := by simpa using h.symm
        rw [this]
        exact level_removeOrder_sublist _ _ _
  · rw [if_neg hk] at h
    exact ⟨L1, h, List.Sublist.refl _⟩

theorem bookSide_updateLevelVolume_levels (bs : BookSide) (price delta : Decimal) (k : Decimal) :
    (bs.UpdateLevelVolume price delta).levels k =
      if k = price then (bs.levels price).map (fun L => L.UpdateVolume delta)
      else bs.levels k := by
  unfold BookSide.UpdateLevelVolume
  cases hL : bs.levels price with
  | none =>
    by_cases hk : k = price
    · simp [hk, hL]
    · simp [hk]
  | some L =>
    by_cases hk : k = price
    · subst hk
      simp [hL]
    · simp [hk, Function.update_noteq hk]

theorem sameButQty_refl (o : Order) : SameButQty o o := rfl

theorem sameButQty_trans {o o1 o2 : Order} (h1 : SameButQty o o1) (h2 : SameButQty o1 o2) :
    SameButQty o o2 := by
  unfold SameButQty at *
  rw [h2, h1]

theorem sameButQty_ID {o o1 : Order} (h : SameButQty o o1) : o1.ID = o.ID := by
  unfold SameButQty at h
  rw [h]

theorem sameButQty_Price {o o1 : Order} (h : SameButQty o o1) : o1.Price = o.Price := by
  unfold SameButQty at h
  rw [h]

theorem sameButQty_Side {o o1 : Order} (h : SameButQty o o1) : o1.Side = o.Side := by
  unfold SameButQty at h
  rw [h]

theorem sameButQty_Typ {o o1 : Order} (h : SameButQty o o1) : o1.Typ = o.Typ := by
  unfold SameButQty at h
  rw [h]

theorem sameButQty_fill (o : Order) (q : Decimal) : SameButQty o (o.Fill q).1 := by
  simp [SameButQty, Order.Fill]

theorem shrinks_refl (ob : Orderbook) : Shrinks ob ob :=
  ⟨rfl, fun _ => sameButQty_refl _, fun _ _ L1 h => ⟨L1, h, List.Sublist.refl _⟩⟩

theorem shrinks_ID {ob ob1 : Orderbook} (h : Shrinks ob ob1) (a : Ptr) :
    (ob1.heap a).ID = (ob.heap a).ID :=
  sameButQty_ID (h.2.1 a)

theorem shrinks_trans {ob ob1 ob2 : Orderbook} (h1 : Shrinks ob ob1) (h2 : Shrinks ob1 ob2) :
    Shrinks ob ob2 := by
  refine ⟨h2.1.trans h1.1, fun a => sameButQty_trans (h1.2.1 a) (h2.2.1 a), ?_⟩
  intro s k L2 hL2
  obtain ⟨L1, hL1, hs1⟩ := h2.2.2 s k L2 hL2
  obtain ⟨L, hL, hs⟩ := h1.2.2 s k L1 hL1
  exact ⟨L, hL, hs1.trans hs⟩

theorem orderbook_removeOrder_shrinks (ob : Orderbook) (id : String) :
    Shrinks ob (ob.RemoveOrder id).1 := by
  unfold Orderbook.RemoveOrder
  cases hO : ob.Orders id with
  | none => exact shrinks_refl ob
  | some p =>
    refine ⟨by simp, fun a => by simp [sameButQty_refl], ?_⟩
    intro s k L1 hL1
    simp only [side_setSide] at hL1
    split at hL1
    · rename_i hs
      subst hs
      obtain ⟨L, hL, hsub⟩ := bookSide_removeOrder_shrinks _ _ _ _ _ _ hL1
      exact ⟨L, by simpa [Orderbook.side] using hL, hsub⟩
    · exact ⟨L1, by simpa [Orderbook.side] using hL1, List.Sublist.refl _⟩

/-- All fields of a taker but `RemainingQty` are those of `o`. -/
theorem fill_fields (o : Order) (q : Decimal) :
    (o.Fill q).1 = { o with RemainingQty := (o.Fill q).1.RemainingQty } := by
  simp [Order.Fill]

@[simp] theorem fill_ID (o : Order) (q : Decimal) : (o.Fill q).1.ID = o.ID := rfl
@[simp] theorem fill_Side (o : Order) (q : Decimal) : (o.Fill q).1.Side = o.Side := rfl
@[simp] theorem fill_Price (o : Order) (q : Decimal) : (o.Fill q).1.Price = o.Price := rfl
@[simp] theorem fill_Typ (o : Order) (q : Decimal) : (o.Fill q).1.Typ = o.Typ := rfl
@[simp] theorem fill_Symbol (o : Order) (q : Decimal) : (o.Fill q).1.Symbol = o.Symbol := rfl
@[simp] theorem fill_Quantity (o : Order) (q : Decimal) :
    (o.Fill q).1.Quantity = o.Quantity := rfl
@[simp] theorem fill_UserID (o : Order) (q : Decimal) : (o.Fill q).1.UserID = o.UserID := rfl

theorem shrinks_heap_update (ob : Orderbook) (a : Ptr) (o : Order)
    (h : SameButQty (ob.heap a) o) :
    Shrinks ob { ob with heap := Function.update ob.heap a o } := by
  refine ⟨rfl, ?_, fun s k L1 hL1 => ⟨L1, ?_, List.Sublist.refl _⟩⟩
  · intro b
    by_cases hb : b = a
    · subst hb
      simpa using h
    · simp [Function.update_noteq hb, sameButQty_refl]
  · cases s <;> simpa [Orderbook.side] using hL1

theorem shrinks_updateVolume (ob : Orderbook) (s : Side) (key delta : Decimal) :
    Shrinks ob (ob.setSide s ((ob.side s).UpdateLevelVolume key delta)) := by
  refine ⟨by simp, fun a => by simp [sameButQty_refl], ?_⟩
  intro s1 k L1 hL1
  rw [side_setSide] at hL1
  split at hL1
  · rename_i hs
    subst hs
    rw [bookSide_updateLevelVolume_levels] at hL1
    split at hL1
    · rename_i hk
      subst hk
      cases hL : (ob.side s1).levels k with
      | none => simp [hL] at hL1
      | some L =>
        refine ⟨L, rfl, ?_⟩
        simp only [hL, Option.map_some', Option.some.injEq] at hL1
        rw [← hL1]
        exact List.Sublist.refl _
    · exact ⟨L1, hL1, List.Sublist.refl _⟩
  · exact ⟨L1, hL1, List.Sublist.refl _⟩

theorem matchStep_ob (st : MatchState) (key : Decimal) (a : Ptr) :
    (matchStep st key a).ob =
      if (st.filledMaker a).IsFilled then ((st.filledBook a).RemoveOrder (st.filledMaker a).ID).1
      else (st.filledBook a).setSide st.order.Side.opposite
        (((st.filledBook a).side st.order.Side.opposite).UpdateLevelVolume key (-st.tradeQty a)) :=
  rfl

theorem matchStep_order (st : MatchState) (key : Decimal) (a : Ptr) :
    (matchStep st key a).order = (st.order.Fill (st.tradeQty a)).1 :=
  rfl

theorem filledMaker_ID (st : MatchState) (a : Ptr) : (st.filledMaker a).ID = (st.ob.heap a).ID :=
  rfl

theorem matchStep_shrinks (st : MatchState) (key : Decimal) (a : Ptr) :
    Shrinks st.ob (matchStep st key a).ob := by
  have h1 : Shrinks st.ob (st.filledBook a) :=
    shrinks_heap_update _ _ _ (sameButQty_fill _ _)
  rw [matchStep_ob]
  split
  · exact shrinks_trans h1 (orderbook_removeOrder_shrinks _ _)
  · exact shrinks_trans h1 (shrinks_updateVolume _ _ _ _)

theorem matchStep_sameButQty (st : MatchState) (key : Decimal) (a : Ptr) :
    SameButQty st.order (matchStep st key a).order := by
  simp [SameButQty, matchStep, Order.Fill]

theorem innerLoop_shrinks : ∀ (fuel : Nat) (key : Decimal) (st r : MatchState),
    innerLoop fuel key st = some r → Shrinks st.ob r.ob ∧ SameButQty st.order r.order := by
  intro fuel
  induction fuel with
  | zero => intro key st r h; simp [innerLoop] at h
  | succ n ih =>
    intro key st r h
    unfold innerLoop at h
    split at h
    · cases h; exact ⟨shrinks_refl _, sameButQty_refl _⟩
    · split at h
      · cases h; exact ⟨shrinks_refl _, sameButQty_refl _⟩
      · split at h
        · cases h; exact ⟨shrinks_refl _, sameButQty_refl _⟩
        · split at h
          · cases h; exact ⟨shrinks_refl _, sameButQty_refl _⟩
          · rename_i a _
            obtain ⟨h1, h2⟩ := ih key _ r h
            exact ⟨shrinks_trans (matchStep_shrinks st key a) h1,
              sameButQty_trans (matchStep_sameButQty st key a) h2⟩

theorem outerLoop_shrinks : ∀ (fuel : Nat) (st r : MatchState),
    outerLoop fuel st = some r → Shrinks st.ob r.ob ∧ SameButQty st.order r.order := by
  intro fuel
  induction fuel with
  | zero => intro st r h; simp [outerLoop] at h
  | succ n ih =>
    intro st r h
    unfold outerLoop at h
    split at h
    · cases h; exact ⟨shrinks_refl _, sameButQty_refl _⟩
    · split at h
      · cases h; exact ⟨shrinks_refl _, sameButQty_refl _⟩
      · split at h
        · cases h; exact ⟨shrinks_refl _, sameButQty_refl _⟩
        · split at h
          · cases h
          · rename_i st1 hin
            obtain ⟨h1, h2⟩ := innerLoop_shrinks n _ st st1 hin
            obtain ⟨h3, h4⟩ := ih st1 r h
            exact ⟨shrinks_trans h1 h3, sameButQty_trans h2 h4⟩

/-! ## Linking an order -/

@[simp] theorem addOrder_heap (ob : Orderbook) (o : Order) :
    (ob.AddOrder o).heap = Function.update ob.heap ob.next o := by
  simp [Orderbook.AddOrder]

@[simp] theorem addOrder_next (ob : Orderbook) (o : Order) :
    (ob.AddOrder o).next = ob.next + 1 := by
  simp [Orderbook.AddOrder]

@[simp] theorem addOrder_Orders (ob : Orderbook) (o : Order) :
    (ob.AddOrder o).Orders = Function.update ob.Orders o.ID (some ob.next) := by
  simp [Orderbook.AddOrder]

@[simp] theorem addOrder_Sequence (ob : Orderbook) (o : Order) :
    (ob.AddOrder o).Sequence = (ob.Sequence + 1) % 2 ^ 64 := by
  simp [Orderbook.AddOrder]

theorem bookSide_addOrder_levels (bs : BookSide) (heap : Ptr → Order) (p : Ptr) (k : Decimal) :
    (bs.AddOrder heap p).levels k =
      if k = (heap p).Price then
        some (((bs.levels k).getD (NewPriceLevel k)).AddOrder heap p)
      else bs.levels k := by
  unfold BookSide.AddOrder
  cases hL : bs.levels (heap p).Price with
  | some L =>
    by_cases hk : k = (heap p).Price
    · subst hk
      simp [hL]
    · simp [hL, hk, Function.update_noteq hk]
  | none =>
    by_cases hk : k = (heap p).Price
    · subst hk
      simp [hL, BookSide.insertPrice]
    · simp [hL, hk, Function.update_noteq hk, BookSide.insertPrice]

theorem orderbook_addOrder_levels (ob : Orderbook) (o : Order) (s : Side) (k : Decimal) :
    ((ob.AddOrder o).side s).levels k =
      if s = o.Side ∧ k = o.Price then
        some ((((ob.side s).levels k).getD (NewPriceLevel k)).AddOrder
          (Function.update ob.heap ob.next o) ob.next)
      else (ob.side s).levels k := by
  unfold Orderbook.AddOrder
  simp only [side_setSide]
  by_cases hs : s = o.Side
  · simp only [hs, if_true, true_and, bookSide_addOrder_levels, Function.update_same,
      Orderbook.side]
  · simp only [hs, if_false, false_and, Orderbook.side]

theorem Resting_AddOrder (ob : Orderbook) (o : Order) (s : Side) (k : Decimal) (a : Ptr)
    (h : Resting (ob.AddOrder o) s k a) :
    Resting ob s k a ∨ (s = o.Side ∧ k = o.Price ∧ a = ob.next) := by
  obtain ⟨L1, hL1, ha⟩ := h
  rw [orderbook_addOrder_levels] at hL1
  split at hL1
  · rename_i hsk
    simp only [Option.some.injEq] at hL1
    subst hL1
    simp only [PriceLevel.AddOrder, List.mem_append, List.mem_singleton] at ha
    rcases ha with ha | ha
    · left
      cases hL : (ob.side s).levels k with
      | none => simp [hL, NewPriceLevel] at ha
      | some L =>
        rw [hL] at ha
        exact ⟨L, hL, by simpa using ha⟩
    · right
      exact ⟨hsk.1, hsk.2, ha⟩
  · exact Or.inl ⟨L1, hL1, ha⟩

theorem Allocated_AddOrder (ob : Orderbook) (o : Order) (h : Allocated ob) :
    Allocated (ob.AddOrder o) := by
  intro s k a ha
  rcases Resting_AddOrder ob o s k a ha with h1 | ⟨_, _, h1⟩
  · have := h s k a h1
    simp only [addOrder_next]
    exact Nat.lt_succ_of_lt this
  · simp [h1]

theorem UniqueIds_AddOrder (ob : Orderbook) (o : Order) (hU : UniqueIds ob) (hA : Allocated ob)
    (hfresh : ∀ s k a, Resting ob s k a → (ob.heap a).ID ≠ o.ID) :
    UniqueIds (ob.AddOrder o) := by
  have hheap : ∀ s k a, Resting ob s k a → (ob.AddOrder o).heap a = ob.heap a := by
    intro s k a ha
    have := hA s k a ha
    rw [addOrder_heap, Function.update_noteq (Nat.ne_of_lt this)]
  constructor
  · intro s k L1 hL1
    rw [orderbook_addOrder_levels] at hL1
    split at hL1
    · simp only [Option.some.injEq] at hL1
      subst hL1
      cases hL : (ob.side s).levels k with
      | none => simp [NewPriceLevel, PriceLevel.AddOrder]
      | some L =>
        simp only [Option.getD_some, PriceLevel.AddOrder]
        refine List.Nodup.append (hU.1 s k L hL) (List.nodup_singleton _) ?_
        intro a ha hb
        simp only [List.mem_singleton] at hb
        have := hA s k a ⟨L, hL, ha⟩
        exact absurd hb (Nat.ne_of_lt this)
    · exact hU.1 s k L1 hL1
  · intro s k a s1 k1 a1 ha ha1 hid
    rcases Resting_AddOrder ob o s k a ha with h1 | ⟨e1, e2, e3⟩
    · rcases Resting_AddOrder ob o s1 k1 a1 ha1 with h2 | ⟨f1, f2, f3⟩
      · rw [hheap s k a h1, hheap s1 k1 a1 h2] at hid
        exact hU.2 s k a s1 k1 a1 h1 h2 hid
      · rw [hheap s k a h1, f3, addOrder_heap, Function.update_same] at hid
        exact absurd hid (hfresh s k a h1)
    · rcases Resting_AddOrder ob o s1 k1 a1 ha1 with h2 | ⟨f1, f2, f3⟩
      · rw [hheap s1 k1 a1 h2, e3, addOrder_heap, Function.update_same] at hid
        exact absurd hid.symm (hfresh s1 k1 a1 h2)
      · exact ⟨e1.trans f1.symm, e2.trans f2.symm, e3.trans f3.symm⟩

theorem resting_of_shrinks {ob ob1 : Orderbook} (h : Shrinks ob ob1) {s : Side} {k : Decimal}
    {a : Ptr} (ha : Resting ob1 s k a) : Resting ob s k a := by
  obtain ⟨L1, hL1, ha1⟩ := ha
  obtain ⟨L, hL, hsub⟩ := h.2.2 s k L1 hL1
  exact ⟨L, hL, hsub.subset ha1⟩

theorem uniqueIds_of_shrinks {ob ob1 : Orderbook} (h : Shrinks ob ob1) (hU : UniqueIds ob) :
    UniqueIds ob1 := by
  constructor
  · intro s k L1 hL1
    obtain ⟨L, hL, hsub⟩ := h.2.2 s k L1 hL1
    exact (hU.1 s k L hL).sublist hsub
  · intro s k a s1 k1 a1 ha ha1 hid
    rw [shrinks_ID h a, shrinks_ID h a1] at hid
    exact hU.2 s k a s1 k1 a1 (resting_of_shrinks h ha) (resting_of_shrinks h ha1) hid

theorem allocated_of_shrinks {ob ob1 : Orderbook} (h : Shrinks ob ob1) (hA : Allocated ob) :
    Allocated ob1 := by
  intro s k a ha
  rw [h.1]
  exact hA s k a (resting_of_shrinks h ha)

/-! ## The matcher's map of books -/

theorem matcher_book_eq (m : Matcher) (symbol : String) :
    m.book symbol = (m.orderbooks symbol).getD (NewOrderbook symbol) := by
  unfold Matcher.book Matcher.GetOrCreateOrderbook
  cases m.orderbooks symbol <;> rfl

theorem matcher_book_of_some {m : Matcher} {symbol : String} {ob : Orderbook}
    (h : m.orderbooks symbol = some ob) : m.book symbol = ob := by
  rw [matcher_book_eq, h]; rfl

theorem matcher_some_book {m : Matcher} {symbol : String}
    (h : (m.orderbooks symbol).isSome = true) : m.orderbooks symbol = some (m.book symbol) := by
  rw [matcher_book_eq]
  cases hb : m.orderbooks symbol with
  | none => simp [hb] at h
  | some ob => rfl

theorem restingB_iff (ob : Orderbook) (s : Side) (k : Decimal) (a : Ptr) :
    restingB ob s k a = true ↔ Resting ob s k a := by
  unfold restingB Resting
  cases (ob.side s).levels k with
  | none => simp
  | some L => simp

theorem NewOrderbook_not_resting (symbol : String) (s : Side) (k : Decimal) (a : Ptr) :
    ¬ Resting (NewOrderbook symbol) s k a := by
  rintro ⟨L, hL, _⟩
  cases s <;> simp [NewOrderbook, Orderbook.side, NewBookSide] at hL

theorem processOrder_eq {m : Matcher} {fuel : Nat} {ro : RangeOrder} {o : Order}
    {out : Outcome} (h : m.ProcessOrder fuel ro o = some out) :
    ∃ r, processOn fuel ro (m.book o.Symbol) o = some r ∧
      out.matcher.orderbooks = Function.update m.orderbooks o.Symbol (some r.1) ∧
      out.result = r.2.1 ∧ out.order = r.2.2 := by
  unfold Matcher.ProcessOrder at h
  simp only [] at h
  split at h
  · cases h
  · rename_i r hr
    cases h
    refine ⟨r, hr, ?_, rfl, rfl⟩
    simp only [Matcher.GetOrCreateOrderbook]
    cases m.orderbooks o.Symbol with
    | none => simp
    | some ob => rfl

theorem processOrder_of_processOn {m : Matcher} {fuel : Nat} {ro : RangeOrder}
    {o : Order} {r : Orderbook × MatchResult × Order}
    (h : processOn fuel ro (m.book o.Symbol) o = some r) :
    ∃ out, m.ProcessOrder fuel ro o = some out := by
  unfold Matcher.ProcessOrder
  simp only []
  unfold Matcher.book at h
  rw [h]
  exact ⟨_, rfl⟩

theorem cancelOrder_books (m : Matcher) (symbol orderID : String) (symbol1 : String)
    (ob1 : Orderbook) (h : (m.CancelOrder symbol orderID).1.orderbooks symbol1 = some ob1) :
    ∃ ob, m.orderbooks symbol1 = some ob ∧ Shrinks ob ob1 := by
  unfold Matcher.CancelOrder at h
  cases hb : m.orderbooks symbol with
  | none =>
    simp only [hb] at h
    exact ⟨ob1, h, shrinks_refl _⟩
  | some ob =>
    simp only [hb] at h
    have key : (Function.update m.orderbooks symbol (some (ob.RemoveOrder orderID).1)) symbol1
        = some ob1 := by
      rcases hr : ob.RemoveOrder orderID with ⟨ob2, _ | p⟩ <;> simpa [hr] using h
    by_cases hs : symbol1 = symbol
    · subst hs
      rw [Function.update_same] at key
      cases key
      exact ⟨ob, hb, orderbook_removeOrder_shrinks ob orderID⟩
    · rw [Function.update_noteq hs] at key
      exact ⟨ob1, key, shrinks_refl _⟩

/-! ## The taker after the cross -/

theorem marketPrice_sameButPrice (o : Order) :
    marketPrice o = { o with Price := (marketPrice o).Price } := by
  unfold marketPrice
  split
  · rfl
  · split <;> rfl

@[simp] theorem marketPrice_ID (o : Order) : (marketPrice o).ID = o.ID := by
  rw [marketPrice_sameButPrice]

@[simp] theorem marketPrice_Side (o : Order) : (marketPrice o).Side = o.Side := by
  rw [marketPrice_sameButPrice]

@[simp] theorem marketPrice_Typ (o : Order) : (marketPrice o).Typ = o.Typ := by
  rw [marketPrice_sameButPrice]

@[simp] theorem marketPrice_RemainingQty (o : Order) :
    (marketPrice o).RemainingQty = o.RemainingQty := by
  rw [marketPrice_sameButPrice]

@[simp] theorem marketPrice_Quantity (o : Order) : (marketPrice o).Quantity = o.Quantity := by
  rw [marketPrice_sameButPrice]

@[simp] theorem marketPrice_Symbol (o : Order) : (marketPrice o).Symbol = o.Symbol := by
  rw [marketPrice_sameButPrice]

theorem restTaker_ob (st : MatchState) :
    (restTaker st).ob =
      if st.order.IsFilled = false ∧ st.order.Typ = OrderType.Limit then st.ob.AddOrder st.order
      else st.ob := by
  unfold restTaker
  by_cases h1 : st.order.IsFilled = true
  · simp [h1]
  · by_cases h2 : st.order.Typ = OrderType.Limit
    · simp [h1, h2]
    · simp [h1, h2]

@[simp] theorem restTaker_order (st : MatchState) : (restTaker st).order = st.order := by
  unfold restTaker
  by_cases h1 : st.order.IsFilled = true
  · simp [h1]
  · by_cases h2 : st.order.Typ = OrderType.Limit
    · simp [h1, h2]
    · simp [h1, h2]

@[simp] theorem restTaker_Trades (st : MatchState) : (restTaker st).Trades = st.Trades := by
  unfold restTaker
  by_cases h1 : st.order.IsFilled = true
  · simp [h1]
  · by_cases h2 : st.order.Typ = OrderType.Limit
    · simp [h1, h2]
    · simp [h1, h2]

/-- The state in which the cross starts. -/
theorem processOn_eq {fuel : Nat} {ro : RangeOrder} {ob : Orderbook} {o : Order}
    {r : Orderbook × MatchResult × Order} (h : processOn fuel ro ob o = some r) :
    ∃ st1, outerLoop fuel ⟨ob, marketPrice o, [], [], [], []⟩ = some st1 ∧
      r = ((restTaker st1).ob,
        { Trades := st1.Trades, OrderUpdates := (restTaker st1).OrderUpdates,
          OrderbookDelta := buildDelta ro (restTaker st1) }, st1.order) := by
  unfold processOn at h
  simp only [] at h
  split at h
  · cases h
  · rename_i st1 hst
    cases h
    exact ⟨st1, hst, by simp⟩

/-! ## Unique ids along fresh submits -/

theorem processOn_shrinks_add {fuel : Nat} {ro : RangeOrder} {ob : Orderbook} {o : Order}
    {r : Orderbook × MatchResult × Order} (h : processOn fuel ro ob o = some r) :
    ∃ ob1 o1, Shrinks ob ob1 ∧ o1.ID = o.ID ∧ (r.1 = ob1 ∨ r.1 = ob1.AddOrder o1) := by
  obtain ⟨st1, hst, hr⟩ := processOn_eq h
  obtain ⟨hs, ht⟩ := outerLoop_shrinks _ _ _ hst
  refine ⟨st1.ob, st1.order, hs, ?_, ?_⟩
  · have : st1.order.ID = (marketPrice o).ID := by
      have h2 : SameButQty (marketPrice o) st1.order := ht
      unfold SameButQty at h2
      rw [h2]
    simpa using this
  · subst hr
    simp only [restTaker_ob]
    split
    · exact Or.inr rfl
    · exact Or.inl rfl

theorem processOn_uniqueIds {fuel : Nat} {ro : RangeOrder} {ob : Orderbook} {o : Order}
    {r : Orderbook × MatchResult × Order} (h : processOn fuel ro ob o = some r)
    (hU : UniqueIds ob) (hA : Allocated ob)
    (hfresh : ∀ s k a, Resting ob s k a → (ob.heap a).ID ≠ o.ID) :
    UniqueIds r.1 ∧ Allocated r.1 := by
  obtain ⟨ob1, o1, hs, hid, hr⟩ := processOn_shrinks_add h
  have hU1 := uniqueIds_of_shrinks hs hU
  have hA1 := allocated_of_shrinks hs hA
  rcases hr with hr | hr
  · rw [hr]; exact ⟨hU1, hA1⟩
  · rw [hr]
    refine ⟨UniqueIds_AddOrder ob1 o1 hU1 hA1 ?_, Allocated_AddOrder ob1 o1 hA1⟩
    intro s k a ha
    rw [shrinks_ID hs a, hid]
    exact hfresh s k a (resting_of_shrinks hs ha)

theorem reachableFresh_good {m : Matcher} (h : ReachableFresh m) :
    ∀ symbol ob, m.orderbooks symbol = some ob → UniqueIds ob ∧ Allocated ob := by
  induction h with
  | init => intro symbol ob hb; simp [NewMatcher] at hb
  | submit m fuel ro o out _ hfresh hsub ih =>
    intro symbol ob hb
    obtain ⟨r, hr, hbooks, _, _⟩ := processOrder_eq hsub
    rw [hbooks] at hb
    by_cases hs : symbol = o.Symbol
    · subst hs
      rw [Function.update_same] at hb
      cases hb
      cases hm : m.orderbooks o.Symbol with
      | none =>
        have hbk : m.book o.Symbol = NewOrderbook o.Symbol := by
          rw [matcher_book_eq, hm]; rfl
        rw [hbk] at hr
        refine processOn_uniqueIds hr ⟨?_, ?_⟩ ?_ ?_
        · intro s k L hL
          cases s <;> simp [NewOrderbook, Orderbook.side, NewBookSide] at hL
        · intro s k a s1 k1 a1 ha
          exact absurd ha (NewOrderbook_not_resting _ _ _ _)
        · intro s k a ha
          exact absurd ha (NewOrderbook_not_resting _ _ _ _)
        · intro s k a ha
          exact absurd ha (NewOrderbook_not_resting _ _ _ _)
      | some ob0 =>
        rw [matcher_book_of_some hm] at hr
        obtain ⟨hU, hA⟩ := ih o.Symbol ob0 hm
        exact processOn_uniqueIds hr hU hA (hfresh ob0 hm)
    · rw [Function.update_noteq hs] at hb
      exact ih symbol ob hb
  | cancel m symbol orderID _ ih =>
    intro symbol1 ob1 hb
    obtain ⟨ob, hob, hs⟩ := cancelOrder_books m symbol orderID symbol1 ob1 hb
    obtain ⟨hU, hA⟩ := ih symbol1 ob hob
    exact ⟨uniqueIds_of_shrinks hs hU, allocated_of_shrinks hs hA⟩

theorem reachable_submit {m : Matcher} (h : Reachable m) (o : Order) :
    Reachable (submit m o) := by
  unfold submit
  cases hp : m.ProcessOrder 16 RangeOrder.insertion o with
  | none => exact h
  | some out => exact Reachable.submit m _ _ o out h hp

theorem reachableFresh_submit {m : Matcher} (h : ReachableFresh m) (o : Order)
    (hf : FreshId m o) : ReachableFresh (submit m o) := by
  unfold submit
  cases hp : m.ProcessOrder 16 RangeOrder.insertion o with
  | none => exact h
  | some out => exact ReachableFresh.submit m _ _ o out h hf hp

theorem reachableFresh_oneBid : ReachableFresh oneBid :=
  reachableFresh_submit ReachableFresh.init _ (fun ob hob => by simp [NewMatcher] at hob)

theorem reachableFresh_bidThenAsk : ReachableFresh bidThenAsk := by
  have hb : oneBid.orderbooks "BTCUSDT" = some (oneBid.book "BTCUSDT") :=
    matcher_some_book (by decide!)
  refine reachableFresh_submit reachableFresh_oneBid _ ?_
  intro ob hob s k a ha
  have hob1 : ob = oneBid.book "BTCUSDT" := (Option.some.inj (hb.symm.trans hob)).symm
  subst hob1
  have hlt := (reachableFresh_good reachableFresh_oneBid _ _ hob).2 s k a ha
  have hn : (oneBid.book "BTCUSDT").next = 1 := by decide!
  rw [hn] at hlt
  have ha0 : a = 0 := Nat.lt_one_iff.mp hlt
  subst ha0
  decide!

/-- C4 (as amended): along any run from the empty matcher in which every submitted
order carries an id that is not resting in its book at that moment, with any
cancels in between, no two queued orders of a book share an id. -/
theorem unique_ids_of_fresh_submits (m : Matcher) (h : ReachableFresh m) (symbol : String)
    (ob : Orderbook) (hb : m.orderbooks symbol = some ob) : UniqueIds ob :=
  (reachableFresh_good h symbol ob hb).1

/-- C4 (as stated) fails: the same limit order submitted twice leaves two queued
orders with the id "O1" at the bid level 100. -/
theorem duplicate_id_rests_twice :
    ¬ ∀ m, Reachable m → ∀ symbol ob, m.orderbooks symbol = some ob → UniqueIds ob := by
  intro hall
  have hr : Reachable sameIdTwice :=
    reachable_submit (reachable_submit Reachable.init _) _
  have hb : sameIdTwice.orderbooks "BTCUSDT" = some (sameIdTwice.book "BTCUSDT") :=
    matcher_some_book (by decide!)
  have hU := hall _ hr _ _ hb
  have h0 : Resting (sameIdTwice.book "BTCUSDT") Side.Buy 100 0 :=
    (restingB_iff _ _ _ _).1 (by decide!)
  have h1 : Resting (sameIdTwice.book "BTCUSDT") Side.Buy 100 1 :=
    (restingB_iff _ _ _ _).1 (by decide!)
  have := hU.2 _ _ _ _ _ _ h0 h1 (by decide!)
  exact absurd this.2.2 (by decide)

/-- Witness for `unique_ids_of_fresh_submits`: a bid and a crossing ask with
different ids. -/
theorem unique_ids_of_fresh_submits_witness :
    ReachableFresh bidThenAsk ∧
      bidThenAsk.orderbooks "BTCUSDT" = some (bidThenAsk.book "BTCUSDT") ∧
      UniqueIds (bidThenAsk.book "BTCUSDT") :=
  ⟨reachableFresh_bidThenAsk, matcher_some_book (by decide!),
    unique_ids_of_fresh_submits bidThenAsk reachableFresh_bidThenAsk "BTCUSDT" _
      (matcher_some_book (by decide!))⟩

/-! ## The code at three inputs -/

/-- C1 fails on the code: asks O1 and O2 of 1 at 100, then a buy of 1 at 100.  O1 is
filled and unlinked, O2 stays queued with 1 remaining, and the level keeps
`Volume` 2. -/
theorem volume_kept_after_full_fill :
    Reachable twoAsksOneFilled ∧
      levelView (twoAsksOneFilled.book "BTCUSDT") Side.Sell 100 = some (2, [("O2", 1)]) ∧
      volumeAndSum (twoAsksOneFilled.book "BTCUSDT") Side.Sell 100 = some (2, 1) :=
  ⟨reachable_submit (reachable_submit (reachable_submit Reachable.init _) _) _,
    by decide!, by decide!⟩

/-- C2 fails on the code: with bids O1 at 100 and O2, O3 at 99, cancelling O2 reports
the level 99 with volume "0" although it still holds O3 with volume 1. -/
theorem cancel_below_best_reports_zero :
    (threeBids.CancelOrder "BTCUSDT" "O2").2.2 =
        some { Symbol := "BTCUSDT", Sequence := 4, Bids := [(99, 0)], Asks := [] } ∧
      levelView ((threeBids.CancelOrder "BTCUSDT" "O2").1.book "BTCUSDT") Side.Buy 99 =
        some (1, [("O3", 1)]) :=
  ⟨by decide!, by decide!⟩

/-- C3 fails on the code: a market buy of 1 against a single ask of 1 at
1000000000 makes no trade; the taker keeps its quantity and the ask stays. -/
theorem market_buy_stops_at_sentinel :
    (highAsk.ProcessOrder 16 RangeOrder.insertion (marketOrder "M1" Side.Buy 1)).map
        (fun out => (out.result.Trades.length, out.order.RemainingQty)) = some (0, 1) ∧
      (highAsk.ProcessOrder 16 RangeOrder.insertion (marketOrder "M1" Side.Buy 1)).map
        (fun out => (out.matcher.book "BTCUSDT").Asks.sorted) = some [1000000000] ∧
      (highAsk.ProcessOrder 16 RangeOrder.insertion (marketOrder "M1" Side.Buy 1)).map
        (fun out => levelView (out.matcher.book "BTCUSDT") Side.Sell 1000000000) =
        some (some (1, [("O1", 1)])) :=
  ⟨by decide!, by decide!, by decide!⟩

/-! ## One iteration of the loop body -/

@[simp] theorem removeOrder_heap (ob : Orderbook) (id : String) :
    (ob.RemoveOrder id).1.heap = ob.heap := by
  unfold Orderbook.RemoveOrder
  cases ob.Orders id <;> simp

@[simp] theorem removeOrder_next (ob : Orderbook) (id : String) :
    (ob.RemoveOrder id).1.next = ob.next := by
  unfold Orderbook.RemoveOrder
  cases ob.Orders id <;> simp

theorem matchStep_heap (st : MatchState) (key : Decimal) (a : Ptr) :
    (matchStep st key a).ob.heap = Function.update st.ob.heap a (st.filledMaker a) := by
  rw [matchStep_ob]
  split <;> simp [MatchState.filledBook]

theorem matchStep_next (st : MatchState) (key : Decimal) (a : Ptr) :
    (matchStep st key a).ob.next = st.ob.next := by
  rw [matchStep_ob]
  split <;> simp [MatchState.filledBook]

theorem matchStep_Trades (st : MatchState) (key : Decimal) (a : Ptr) :
    (matchStep st key a).Trades = st.Trades ++ [st.tradeOf a] :=
  rfl

theorem matchStep_bidDeltas (st : MatchState) (key : Decimal) (a : Ptr) :
    (matchStep st key a).bidDeltas =
      if st.order.Side = Side.Buy then st.bidDeltas
      else deltaSet st.bidDeltas (st.ob.heap a).Price
        (deltaGet st.bidDeltas (st.ob.heap a).Price - st.tradeQty a) :=
  rfl

theorem matchStep_askDeltas (st : MatchState) (key : Decimal) (a : Ptr) :
    (matchStep st key a).askDeltas =
      if st.order.Side = Side.Buy then
        deltaSet st.askDeltas (st.ob.heap a).Price
          (deltaGet st.askDeltas (st.ob.heap a).Price - st.tradeQty a)
      else st.askDeltas :=
  rfl

theorem tradeQty_le_maker (st : MatchState) (a : Ptr) :
    st.tradeQty a ≤ (st.ob.heap a).RemainingQty := by
  unfold MatchState.tradeQty
  split
  · exact le_refl _
  · rename_i h; exact not_lt.mp h

theorem tradeQty_le_taker (st : MatchState) (a : Ptr) :
    st.tradeQty a ≤ st.order.RemainingQty := by
  unfold MatchState.tradeQty
  split
  · rename_i h; exact le_of_lt h
  · exact le_refl _

theorem fill_rem_of_le (o : Order) (q : Decimal) (h : q ≤ o.RemainingQty) :
    (o.Fill q).1.RemainingQty = o.RemainingQty - q := by
  simp [Order.Fill, not_lt.mpr h]

theorem filledMaker_rem (st : MatchState) (a : Ptr) :
    (st.filledMaker a).RemainingQty = (st.ob.heap a).RemainingQty - st.tradeQty a :=
  fill_rem_of_le _ _ (tradeQty_le_maker st a)

theorem matchStep_order_rem (st : MatchState) (key : Decimal) (a : Ptr) :
    (matchStep st key a).order.RemainingQty = st.order.RemainingQty - st.tradeQty a := by
  rw [matchStep_order]
  exact fill_rem_of_le _ _ (tradeQty_le_taker st a)

theorem isFilled_iff (o : Order) : o.IsFilled = true ↔ o.RemainingQty = 0 := by
  simp [Order.IsFilled]

theorem isFilled_false_iff (o : Order) : o.IsFilled = false ↔ o.RemainingQty ≠ 0 := by
  simp [Order.IsFilled]

/-- The maker is filled by the step iff it holds no more than the taker still wants. -/
theorem filledMaker_isFilled_iff (st : MatchState) (a : Ptr) :
    (st.filledMaker a).IsFilled = true ↔
      (st.ob.heap a).RemainingQty ≤ st.order.RemainingQty := by
  rw [isFilled_iff, filledMaker_rem]
  unfold MatchState.tradeQty
  split
  · rename_i h
    simp [le_of_lt h]
  · rename_i h
    constructor
    · intro h1
      have : (st.ob.heap a).RemainingQty = st.order.RemainingQty := by linarith
      exact le_of_eq this
    · intro h1
      have := not_lt.mp h
      linarith

theorem tradeQty_of_filled (st : MatchState) (a : Ptr)
    (h : (st.filledMaker a).IsFilled = true) :
    st.tradeQty a = (st.ob.heap a).RemainingQty := by
  have := (isFilled_iff _).1 h
  rw [filledMaker_rem] at this
  linarith

theorem tradeQty_of_not_filled (st : MatchState) (a : Ptr)
    (h : (st.filledMaker a).IsFilled = false) :
    st.tradeQty a = st.order.RemainingQty ∧
      st.order.RemainingQty < (st.ob.heap a).RemainingQty := by
  have h1 : ¬ (st.ob.heap a).RemainingQty ≤ st.order.RemainingQty := by
    rw [← filledMaker_isFilled_iff, h]; simp
  have h2 := not_le.mp h1
  refine ⟨?_, h2⟩
  unfold MatchState.tradeQty
  rw [if_neg (not_lt.mpr (le_of_lt h2))]

/-- After a step that leaves the maker unfilled the taker is filled. -/
theorem matchStep_taker_filled (st : MatchState) (key : Decimal) (a : Ptr)
    (h : (st.filledMaker a).IsFilled = false) :
    (matchStep st key a).order.IsFilled = true := by
  rw [isFilled_iff, matchStep_order_rem, (tradeQty_of_not_filled st a h).1]
  simp

theorem stepPre_maker {st : MatchState} {k : Decimal} {L : PriceLevel} {a : Ptr}
    {rest : List Ptr} (hwf : WF st.ob) (h : StepPre st k L a rest) :
    a < st.ob.next ∧ (st.ob.heap a).Price = k ∧
      (st.ob.heap a).Side = st.order.Side.opposite ∧ 0 < (st.ob.heap a).RemainingQty ∧
      L.elements (st.ob.heap a).ID = some a ∧ st.ob.Orders (st.ob.heap a).ID = some a :=
  (hwf _).order k L a h.level (by rw [h.front]; simp)

theorem removeOrder_of_index (ob : Orderbook) (id : String) (a : Ptr)
    (h : ob.Orders id = some a) (s : Side) :
    (ob.RemoveOrder id).1.side s =
      if s = (ob.heap a).Side then
        ((ob.side (ob.heap a).Side).RemoveOrder ob.heap (ob.heap a).Price id).1
      else ob.side s := by
  unfold Orderbook.RemoveOrder
  simp only [h, side_setSide]
  split
  · simp [Orderbook.side]
  · simp [Orderbook.side]

theorem removeOrder_Orders_of_index (ob : Orderbook) (id : String) (a : Ptr)
    (h : ob.Orders id = some a) :
    (ob.RemoveOrder id).1.Orders = Function.update ob.Orders id none ∧
      (ob.RemoveOrder id).1.Sequence = (ob.Sequence + 1) % 2 ^ 64 := by
  unfold Orderbook.RemoveOrder
  simp [h]

theorem bookSide_removeOrder_front (bs : BookSide) (heap : Ptr → Order) (k : Decimal)
    (id : String) (L : PriceLevel) (a : Ptr) (rest : List Ptr)
    (hL : bs.levels k = some L) (hel : L.elements id = some a) (hfront : L.Orders = a :: rest) :
    (bs.RemoveOrder heap k id).1 =
      if rest = [] then
        { levels := Function.update bs.levels k none, sorted := bs.sorted.erase k,
          isDescend := bs.isDescend }
      else
        { levels := Function.update bs.levels k (some { L with
            Orders := rest
            elements := Function.update L.elements id none
            Volume := L.Volume - (heap a).RemainingQty }),
          sorted := bs.sorted, isDescend := bs.isDescend } := by
  unfold BookSide.RemoveOrder
  simp only [hL, PriceLevel.RemoveOrder, hel, hfront, List.erase_cons_head, PriceLevel.IsEmpty,
    BookSide.removePrice]
  by_cases hr : rest = []
  · simp [hr]
  · have : (rest.length == 0) = false := by
      simp [hr]
    simp [hr, this]

theorem filledBook_side (st : MatchState) (a : Ptr) (s : Side) :
    (st.filledBook a).side s = st.ob.side s := by
  cases s <;> rfl

theorem filledBook_heap_self (st : MatchState) (a : Ptr) :
    (st.filledBook a).heap a = st.filledMaker a := by
  simp [MatchState.filledBook]

/-- The sides of the book after a step that fills the maker. -/
theorem matchStep_side_full {st : MatchState} {k : Decimal} {L : PriceLevel} {a : Ptr}
    {rest : List Ptr} (hwf : WF st.ob) (h : StepPre st k L a rest)
    (hfill : (st.filledMaker a).IsFilled = true) (s : Side) :
    (matchStep st k a).ob.side s =
      if s = st.order.Side.opposite then
        ((st.ob.side st.order.Side.opposite).RemoveOrder (st.filledBook a).heap k
          (st.ob.heap a).ID).1
      else st.ob.side s := by
  obtain ⟨_, hp, hs, _, _, hidx⟩ := stepPre_maker hwf h
  rw [matchStep_ob, if_pos hfill]
  have hidx1 : (st.filledBook a).Orders (st.filledMaker a).ID = some a := hidx
  rw [removeOrder_of_index _ _ a hidx1 s, filledBook_heap_self]
  have e1 : (st.filledMaker a).Side = st.order.Side.opposite := hs
  have e2 : (st.filledMaker a).Price = k := hp
  rw [e1, e2, filledBook_side, filledBook_side]
  rfl

/-- The sides of the book after a step that leaves the maker unfilled. -/
theorem matchStep_side_unfilled (st : MatchState) (k : Decimal) (a : Ptr)
    (hfill : (st.filledMaker a).IsFilled = false) (s : Side) :
    (matchStep st k a).ob.side s =
      if s = st.order.Side.opposite then
        (st.ob.side st.order.Side.opposite).UpdateLevelVolume k (-st.tradeQty a)
      else st.ob.side s := by
  rw [matchStep_ob, hfill]
  simp only [Bool.false_eq_true, if_false, side_setSide, filledBook_side]

theorem matchStep_Orders {st : MatchState} {k : Decimal} {L : PriceLevel} {a : Ptr}
    {rest : List Ptr} (hwf : WF st.ob) (h : StepPre st k L a rest) :
    (matchStep st k a).ob.Orders =
      if (st.filledMaker a).IsFilled then Function.update st.ob.Orders (st.ob.heap a).ID none
      else st.ob.Orders := by
  obtain ⟨_, _, _, _, _, hidx⟩ := stepPre_maker hwf h
  rw [matchStep_ob]
  split
  · have hidx1 : (st.filledBook a).Orders (st.filledMaker a).ID = some a := hidx
    rw [(removeOrder_Orders_of_index _ _ a hidx1).1]
    rfl
  · simp [MatchState.filledBook]

/-- The level map of the opposite side after a step. -/
theorem matchStep_levels {st : MatchState} {k : Decimal} {L : PriceLevel} {a : Ptr}
    {rest : List Ptr} (hwf : WF st.ob) (h : StepPre st k L a rest) (k1 : Decimal) :
    ((matchStep st k a).ob.side st.order.Side.opposite).levels k1 =
      if k1 = k then st.levelAfter L a rest
      else (st.ob.side st.order.Side.opposite).levels k1 := by
  obtain ⟨_, _, _, _, hel, _⟩ := stepPre_maker hwf h
  have hL : (st.ob.side st.order.Side.opposite).levels k = some L := h.level
  unfold MatchState.levelAfter
  by_cases hfill : (st.filledMaker a).IsFilled = true
  · rw [matchStep_side_full hwf h hfill, if_pos rfl,
      bookSide_removeOrder_front _ _ _ _ L a rest hL hel h.front, if_pos hfill,
      filledBook_heap_self]
    by_cases hr : rest = []
    · by_cases hk : k1 = k
      · simp [hr, hk]
      · simp [hr, hk, Function.update_noteq hk]
    · by_cases hk : k1 = k
      · simp [hr, hk]
      · simp [hr, hk, Function.update_noteq hk]
  · have hfill1 : (st.filledMaker a).IsFilled = false := by simpa using hfill
    rw [matchStep_side_unfilled st k a hfill1, if_pos rfl, bookSide_updateLevelVolume_levels,
      hfill1]
    by_cases hk : k1 = k
    · simp [hk, hL]
    · simp [hk]

theorem head_erase {l : List Decimal} {k : Decimal} (h : l.head? = some k) :
    l.erase k = l.tail := by
  cases l with
  | nil => simp at h
  | cons x xs =>
    simp only [List.head?_cons, Option.some.injEq] at h
    subst h
    simp

/-- The ordered view of the opposite side after a step. -/
theorem matchStep_sorted {st : MatchState} {k : Decimal} {L : PriceLevel} {a : Ptr}
    {rest : List Ptr} (hwf : WF st.ob) (h : StepPre st k L a rest) :
    ((matchStep st k a).ob.side st.order.Side.opposite).sorted =
      if (st.filledMaker a).IsFilled = true ∧ rest = [] then
        (st.ob.side st.order.Side.opposite).sorted.tail
      else (st.ob.side st.order.Side.opposite).sorted := by
  obtain ⟨_, _, _, _, hel, _⟩ := stepPre_maker hwf h
  have hL : (st.ob.side st.order.Side.opposite).levels k = some L := h.level
  have hh : (st.ob.side st.order.Side.opposite).sorted.head? = some k := h.head
  by_cases hfill : (st.filledMaker a).IsFilled = true
  · rw [matchStep_side_full hwf h hfill, if_pos rfl,
      bookSide_removeOrder_front _ _ _ _ L a rest hL hel h.front]
    by_cases hr : rest = []
    · simp [hr, hfill, head_erase hh]
    · simp [hr]
  · have hfill1 : (st.filledMaker a).IsFilled = false := by simpa using hfill
    rw [matchStep_side_unfilled st k a hfill1, if_pos rfl]
    simp only [hfill1, Bool.false_eq_true, false_and, if_false]
    unfold BookSide.UpdateLevelVolume
    rw [hL]

theorem matchStep_isDescend {st : MatchState} {k : Decimal} {L : PriceLevel} {a : Ptr}
    {rest : List Ptr} (hwf : WF st.ob) (h : StepPre st k L a rest) :
    ((matchStep st k a).ob.side st.order.Side.opposite).isDescend =
      (st.ob.side st.order.Side.opposite).isDescend := by
  obtain ⟨_, _, _, _, hel, _⟩ := stepPre_maker hwf h
  have hL : (st.ob.side st.order.Side.opposite).levels k = some L := h.level
  by_cases hfill : (st.filledMaker a).IsFilled = true
  · rw [matchStep_side_full hwf h hfill, if_pos rfl,
      bookSide_removeOrder_front _ _ _ _ L a rest hL hel h.front]
    split <;> rfl
  · have hfill1 : (st.filledMaker a).IsFilled = false := by simpa using hfill
    rw [matchStep_side_unfilled st k a hfill1, if_pos rfl]
    unfold BookSide.UpdateLevelVolume
    rw [hL]

/-- The taker's own side is not touched by a step. -/
theorem matchStep_ownSide {st : MatchState} {k : Decimal} {L : PriceLevel} {a : Ptr}
    {rest : List Ptr} (hwf : WF st.ob) (h : StepPre st k L a rest) (s : Side)
    (hs : s ≠ st.order.Side.opposite) :
    (matchStep st k a).ob.side s = st.ob.side s := by
  by_cases hfill : (st.filledMaker a).IsFilled = true
  · rw [matchStep_side_full hwf h hfill, if_neg hs]
  · have hfill1 : (st.filledMaker a).IsFilled = false := by simpa using hfill
    rw [matchStep_side_unfilled st k a hfill1, if_neg hs]

/-! ## The invariants survive a step -/

theorem better_irrefl (s : Side) (p : Decimal) : ¬ better s p p := by
  unfold better
  split <;> exact lt_irrefl _

theorem better_asymm (s : Side) {p q : Decimal} (h : better s p q) : ¬ better s q p := by
  unfold better at *
  split at h
  · rename_i hs; rw [if_pos hs]; exact not_lt.mpr (le_of_lt h)
  · rename_i hs; rw [if_neg hs]; exact not_lt.mpr (le_of_lt h)

theorem levelSum_congr (heap heap1 : Ptr → Order) (L L1 : PriceLevel)
    (hO : L1.Orders = L.Orders) (h : ∀ b ∈ L.Orders, heap1 b = heap b) :
    levelSum heap1 L1 = levelSum heap L := by
  unfold levelSum
  rw [hO]
  congr 1
  apply List.map_congr_left
  intro b hb
  rw [h b hb]

theorem wf_sorted_cons {ob : Orderbook} {s : Side} (hwf : WF ob) {k : Decimal}
    (h : (ob.side s).sorted.head? = some k) :
    (ob.side s).sorted = k :: (ob.side s).sorted.tail ∧ k ∉ (ob.side s).sorted.tail ∧
      ∀ x ∈ (ob.side s).sorted.tail, better s k x := by
  have hp := (hwf s).sorted
  cases hl : (ob.side s).sorted with
  | nil => simp [hl] at h
  | cons x xs =>
    rw [hl] at h hp
    simp only [List.head?_cons, Option.some.injEq] at h
    subst h
    rw [List.pairwise_cons] at hp
    refine ⟨rfl, ?_, hp.1⟩
    intro hx
    exact better_irrefl s _ (hp.1 _ hx)

/-- Two distinct queued orders of a well-formed book have distinct ids. -/
theorem wf_id_ne {ob : Orderbook} (hwf : WF ob) {s s1 : Side} {k k1 : Decimal}
    {L L1 : PriceLevel} {a b : Ptr} (hL : (ob.side s).levels k = some L) (ha : a ∈ L.Orders)
    (hL1 : (ob.side s1).levels k1 = some L1) (hb : b ∈ L1.Orders) (hne : b ≠ a) :
    (ob.heap b).ID ≠ (ob.heap a).ID := by
  intro hid
  have h1 := ((hwf s).order k L a hL ha).2.2.2.2.2
  have h2 := ((hwf s1).order k1 L1 b hL1 hb).2.2.2.2.2
  rw [hid, h1] at h2
  exact hne (Option.some.inj h2).symm

theorem matchStep_wf {st : MatchState} {k : Decimal} {L : PriceLevel} {a : Ptr}
    {rest : List Ptr} (hwf : WF st.ob) (h : StepPre st k L a rest) :
    WF (matchStep st k a).ob := by
  obtain ⟨halloc, hp, hs, hpos, hel, hidx⟩ := stepPre_maker hwf h
  have hL : (st.ob.side st.order.Side.opposite).levels k = some L := h.level
  have hh : (st.ob.side st.order.Side.opposite).sorted.head? = some k := h.head
  have haL : a ∈ L.Orders := by rw [h.front]; simp
  obtain ⟨hLP, hLne, hLnd, hLvol⟩ := (hwf _).level k L hL
  have hnd : a ∉ rest ∧ rest.Nodup := by
    rw [h.front] at hLnd
    exact List.nodup_cons.mp hLnd
  -- objects other than the maker are untouched
  have hheap : ∀ b, b ≠ a → (matchStep st k a).ob.heap b = st.ob.heap b := by
    intro b hb
    rw [matchStep_heap, Function.update_noteq hb]
  have hheapa : (matchStep st k a).ob.heap a = st.filledMaker a := by
    rw [matchStep_heap, Function.update_same]
  -- the index keeps every other id
  have hOrd : ∀ s1 k1 L1 b, (st.ob.side s1).levels k1 = some L1 → b ∈ L1.Orders → b ≠ a →
      (matchStep st k a).ob.Orders (st.ob.heap b).ID = some b := by
    intro s1 k1 L1 b hL1 hb hne
    rw [matchStep_Orders hwf h]
    have := ((hwf s1).order k1 L1 b hL1 hb).2.2.2.2.2
    split
    · rw [Function.update_noteq (wf_id_ne hwf hL haL hL1 hb hne)]
      exact this
    · exact this
  intro s
  by_cases hso : s = st.order.Side.opposite
  · subst hso
    obtain ⟨hsc, hnotin, _⟩ := wf_sorted_cons hwf hh
    constructor
    · rw [matchStep_isDescend hwf h]
      exact (hwf _).descend
    · rw [matchStep_sorted hwf h]
      split
      · exact ((hwf _).sorted).sublist (List.tail_sublist _)
      · exact (hwf _).sorted
    · intro k1
      rw [matchStep_sorted hwf h, matchStep_levels hwf h]
      by_cases hk : k1 = k
      · subst hk
        rw [if_pos rfl]
        unfold MatchState.levelAfter
        by_cases hfill : (st.filledMaker a).IsFilled = true
        · by_cases hr : rest = []
          · simp [hfill, hr, hnotin]
          · simp only [hfill, hr, and_false, if_false, if_true]
            rw [hsc]
            simp
        · simp only [hfill, false_and, if_false]
          rw [hsc]
          simp
      · rw [if_neg hk, ← (hwf _).keys k1]
        split
        · constructor
          · intro hm
            exact List.mem_of_mem_tail hm
          · intro hm
            rw [hsc] at hm
            rcases List.mem_cons.mp hm with e | e
            · exact absurd e hk
            · exact e
        · exact Iff.rfl
    · intro k1 L1 hL1
      rw [matchStep_levels hwf h] at hL1
      by_cases hk : k1 = k
      · subst hk
        rw [if_pos rfl] at hL1
        unfold MatchState.levelAfter at hL1
        by_cases hfill : (st.filledMaker a).IsFilled = true
        · by_cases hr : rest = []
          · simp [hfill, hr] at hL1
          · simp only [hfill, hr, if_false, if_true, Option.some.injEq] at hL1
            subst hL1
            refine ⟨hLP, hr, hnd.2, ?_⟩
            have hz : (st.filledMaker a).RemainingQty = 0 := (isFilled_iff _).1 hfill
            have e1 : levelSum st.ob.heap L =
                (st.ob.heap a).RemainingQty +
                  (rest.map (fun b => (st.ob.heap b).RemainingQty)).sum := by
              unfold levelSum
              rw [h.front]
              simp
            have e2 : (rest.map (fun b => ((matchStep st k1 a).ob.heap b).RemainingQty)).sum =
                (rest.map (fun b => (st.ob.heap b).RemainingQty)).sum := by
              congr 1
              apply List.map_congr_left
              intro b hb
              rw [hheap b (fun e => hnd.1 (e ▸ hb))]
            show (rest.map (fun b => ((matchStep st k1 a).ob.heap b).RemainingQty)).sum ≤
              L.Volume - (st.filledMaker a).RemainingQty
            rw [e2, hz]
            linarith
        · have hfill1 : (st.filledMaker a).IsFilled = false := by simpa using hfill
          simp only [hfill1, Bool.false_eq_true, if_false, Option.some.injEq] at hL1
          subst hL1
          refine ⟨hLP, hLne, hLnd, ?_⟩
          have e1 : levelSum st.ob.heap L =
              (st.ob.heap a).RemainingQty +
                (rest.map (fun b => (st.ob.heap b).RemainingQty)).sum := by
            unfold levelSum
            rw [h.front]
            simp
          have e2 : (rest.map (fun b => ((matchStep st k1 a).ob.heap b).RemainingQty)).sum =
              (rest.map (fun b => (st.ob.heap b).RemainingQty)).sum := by
            congr 1
            apply List.map_congr_left
            intro b hb
            rw [hheap b (fun e => hnd.1 (e ▸ hb))]
          have e3 : levelSum (matchStep st k1 a).ob.heap (L.UpdateVolume (-st.tradeQty a)) =
              (st.filledMaker a).RemainingQty +
                (rest.map (fun b => ((matchStep st k1 a).ob.heap b).RemainingQty)).sum := by
            unfold levelSum PriceLevel.UpdateVolume
            simp only [h.front, List.map_cons, List.sum_cons, hheapa]
          rw [e3, e2, filledMaker_rem]
          show _ ≤ L.Volume + -st.tradeQty a
          linarith
      · rw [if_neg hk] at hL1
        obtain ⟨h1, h2, h3, h4⟩ := (hwf _).level k1 L1 hL1
        refine ⟨h1, h2, h3, ?_⟩
        rw [levelSum_congr st.ob.heap _ L1 L1 rfl]
        · exact h4
        · intro b hb
          apply hheap
          intro e
          subst e
          have := ((hwf _).order k1 L1 b hL1 hb).2.1
          exact hk (this.symm.trans hp)
    · intro k1 L1 b hL1 hb
      rw [matchStep_levels hwf h] at hL1
      rw [matchStep_next]
      by_cases hk : k1 = k
      · subst hk
        rw [if_pos rfl] at hL1
        unfold MatchState.levelAfter at hL1
        by_cases hfill : (st.filledMaker a).IsFilled = true
        · by_cases hr : rest = []
          · simp [hfill, hr] at hL1
          · simp only [hfill, hr, if_false, if_true, Option.some.injEq] at hL1
            subst hL1
            have hb1 : b ∈ rest := hb
            have hne : b ≠ a := fun e => hnd.1 (e ▸ hb1)
            have hbL : b ∈ L.Orders := by rw [h.front]; exact List.mem_cons_of_mem _ hb1
            obtain ⟨o1, o2, o3, o4, o5, _⟩ := (hwf _).order k1 L b hL hbL
            rw [hheap b hne]
            refine ⟨o1, o2, o3, o4, ?_, hOrd _ _ _ _ hL hbL hne⟩
            show Function.update L.elements (st.ob.heap a).ID none (st.ob.heap b).ID = some b
            rw [Function.update_noteq (wf_id_ne hwf hL haL hL hbL hne)]
            exact o5
        · have hfill1 : (st.filledMaker a).IsFilled = false := by simpa using hfill
          simp only [hfill1, Bool.false_eq_true, if_false, Option.some.injEq] at hL1
          subst hL1
          have hbL : b ∈ L.Orders := hb
          by_cases hne : b = a
          · subst hne
            rw [hheapa]
            refine ⟨halloc, hp, hs, ?_, hel, ?_⟩
            · rw [filledMaker_rem, (tradeQty_of_not_filled st b hfill1).1]
              linarith [(tradeQty_of_not_filled st b hfill1).2]
            · rw [matchStep_Orders hwf h, hfill1]
              exact hidx
          · obtain ⟨o1, o2, o3, o4, o5, _⟩ := (hwf _).order k1 L b hL hbL
            rw [hheap b hne]
            exact ⟨o1, o2, o3, o4, o5, hOrd _ _ _ _ hL hbL hne⟩
      · rw [if_neg hk] at hL1
        have hne : b ≠ a := by
          intro e
          subst e
          have := ((hwf _).order k1 L1 b hL1 hb).2.1
          exact hk (this.symm.trans hp)
        obtain ⟨o1, o2, o3, o4, o5, _⟩ := (hwf _).order k1 L1 b hL1 hb
        rw [hheap b hne]
        exact ⟨o1, o2, o3, o4, o5, hOrd _ _ _ _ hL1 hb hne⟩
  · have hside := matchStep_ownSide hwf h s hso
    have hne : ∀ k1 L1 b, (st.ob.side s).levels k1 = some L1 → b ∈ L1.Orders → b ≠ a := by
      intro k1 L1 b hL1 hb e
      subst e
      have := ((hwf s).order k1 L1 b hL1 hb).2.2.1
      exact hso (this.symm.trans hs)
    constructor
    · rw [hside]; exact (hwf s).descend
    · rw [hside]; exact (hwf s).sorted
    · rw [hside]; exact (hwf s).keys
    · intro k1 L1 hL1
      rw [hside] at hL1
      obtain ⟨h1, h2, h3, h4⟩ := (hwf s).level k1 L1 hL1
      refine ⟨h1, h2, h3, ?_⟩
      rw [levelSum_congr st.ob.heap _ L1 L1 rfl]
      · exact h4
      · intro b hb
        exact hheap b (hne k1 L1 b hL1 hb)
    · intro k1 L1 b hL1 hb
      rw [hside] at hL1
      rw [matchStep_next]
      obtain ⟨o1, o2, o3, o4, o5, _⟩ := (hwf s).order k1 L1 b hL1 hb
      rw [hheap b (hne k1 L1 b hL1 hb)]
      exact ⟨o1, o2, o3, o4, o5, hOrd _ _ _ _ hL1 hb (hne k1 L1 b hL1 hb)⟩

/-! ## Invariants of the two loops -/

theorem matchStep_order_Side (st : MatchState) (key : Decimal) (a : Ptr) :
    (matchStep st key a).order.Side = st.order.Side :=
  rfl

theorem matchStep_order_Price (st : MatchState) (key : Decimal) (a : Ptr) :
    (matchStep st key a).order.Price = st.order.Price :=
  rfl

theorem matchStep_oppositeSide (st : MatchState) (key : Decimal) (a : Ptr) :
    (matchStep st key a).oppositeSide = (matchStep st key a).ob.side st.order.Side.opposite :=
  rfl

/-- While the level under `k` is linked it heads the ordered view, also after a step. -/
theorem matchStep_head {st : MatchState} {k : Decimal} {L : PriceLevel} {a : Ptr}
    {rest : List Ptr} (hwf : WF st.ob) (h : StepPre st k L a rest) (L1 : PriceLevel)
    (hL1 : (matchStep st k a).oppositeSide.levels k = some L1) :
    (matchStep st k a).oppositeSide.sorted.head? = some k := by
  rw [matchStep_oppositeSide] at hL1 ⊢
  rw [matchStep_levels hwf h, if_pos rfl] at hL1
  rw [matchStep_sorted hwf h]
  have hh : (st.ob.side st.order.Side.opposite).sorted.head? = some k := h.head
  split
  · rename_i hc
    simp [MatchState.levelAfter, hc.1, hc.2] at hL1
  · exact hh

theorem innerLoop_invariant (P : MatchState → Prop)
    (hstep : ∀ st k L a rest, WF st.ob → P st → StepPre st k L a rest →
      P (matchStep st k a)) :
    ∀ (fuel : Nat) (k : Decimal) (st r : MatchState), WF st.ob → P st →
      priceMatches st.order.Side k st.order.Price = true →
      (∀ L, st.oppositeSide.levels k = some L → st.oppositeSide.sorted.head? = some k) →
      innerLoop fuel k st = some r → P r ∧ WF r.ob := by
  intro fuel
  induction fuel with
  | zero => intro k st r _ _ _ _ h; simp [innerLoop] at h
  | succ n ih =>
    intro k st r hwf hP hcross hhead h
    unfold innerLoop at h
    split at h
    · cases h; exact ⟨hP, hwf⟩
    · rename_i hnf
      split at h
      · cases h; exact ⟨hP, hwf⟩
      · rename_i L hL
        split at h
        · cases h; exact ⟨hP, hwf⟩
        · split at h
          · cases h; exact ⟨hP, hwf⟩
          · rename_i a hfront
            have hne := ((hwf _).level k L hL).2.1
            obtain ⟨rest, hrest⟩ : ∃ rest, L.Orders = a :: rest := by
              unfold PriceLevel.Front at hfront
              cases hO : L.Orders with
              | nil => exact absurd hO hne
              | cons x xs =>
                rw [hO] at hfront
                simp only [List.head?_cons, Option.some.injEq] at hfront
                exact ⟨xs, by rw [hfront]⟩
            have hpre : StepPre st k L a rest :=
              ⟨by simpa using hnf, hhead L hL, hL, hrest, hcross⟩
            exact ih k _ r (matchStep_wf hwf hpre) (hstep st k L a rest hwf hP hpre)
              hcross (matchStep_head hwf hpre) h

theorem outerLoop_invariant (P : MatchState → Prop)
    (hstep : ∀ st k L a rest, WF st.ob → P st → StepPre st k L a rest →
      P (matchStep st k a)) :
    ∀ (fuel : Nat) (st r : MatchState), WF st.ob → P st →
      outerLoop fuel st = some r → P r ∧ WF r.ob ∧ r.Done := by
  intro fuel
  induction fuel with
  | zero => intro st r _ _ h; simp [outerLoop] at h
  | succ n ih =>
    intro st r hwf hP h
    unfold outerLoop at h
    split at h
    · rename_i hf
      cases h; exact ⟨hP, hwf, Or.inl hf⟩
    · split at h
      · rename_i hbest
        cases h
        refine ⟨hP, hwf, Or.inr (Or.inl ?_)⟩
        unfold BookSide.Best at hbest
        cases hs : st.oppositeSide.sorted with
        | nil => rfl
        | cons p ps =>
          rw [hs] at hbest
          have : p ∈ st.oppositeSide.sorted := by rw [hs]; simp
          have hk : (st.oppositeSide.levels p).isSome = true := ((hwf _).keys p).1 this
          simp only [] at hbest
          rw [hbest] at hk
          simp at hk
      · rename_i bestLevel hbest
        unfold BookSide.Best at hbest
        cases hs : st.oppositeSide.sorted with
        | nil => rw [hs] at hbest; simp at hbest
        | cons p ps =>
          rw [hs] at hbest
          simp only [] at hbest
          have hprice : bestLevel.Price = p := ((hwf _).level p bestLevel hbest).1
          rw [hprice] at h
          split at h
          · rename_i hc
            cases h
            refine ⟨hP, hwf, Or.inr (Or.inr ⟨p, by rw [hs]; rfl, by simpa using hc⟩)⟩
          · rename_i hc
            rw [hs] at h
            simp only [List.headD_cons] at h
            split at h
            · cases h
            · rename_i st1 hin
              have hcross : priceMatches st.order.Side p st.order.Price = true := by
                simpa using hc
              obtain ⟨hP1, hwf1⟩ := innerLoop_invariant P hstep n p st st1 hwf hP hcross
                (fun _ _ => by rw [hs]; rfl) hin
              exact ih st1 r hwf1 hP1 h

/-! ## Termination of the cross -/

theorem queue_of_level {bs : BookSide} {k : Decimal} {L : PriceLevel}
    (h : bs.levels k = some L) : bs.queue k = L.Orders := by
  simp [BookSide.queue, h]

/-- The queues of the opposite side after a step. -/
theorem matchStep_queue {st : MatchState} {k : Decimal} {L : PriceLevel} {a : Ptr}
    {rest : List Ptr} (hwf : WF st.ob) (h : StepPre st k L a rest) (k1 : Decimal) :
    (matchStep st k a).oppositeSide.queue k1 =
      if k1 = k then (if (st.filledMaker a).IsFilled then rest else a :: rest)
      else st.oppositeSide.queue k1 := by
  unfold BookSide.queue
  rw [matchStep_oppositeSide, matchStep_levels hwf h]
  by_cases hk : k1 = k
  · subst hk
    simp only [if_true]
    unfold MatchState.levelAfter
    by_cases hfill : (st.filledMaker a).IsFilled = true
    · by_cases hr : rest = []
      · simp [hfill, hr]
      · simp [hfill, hr]
    · simp [hfill, PriceLevel.UpdateVolume, h.front]
  · simp only [hk, if_false]
    rfl

theorem count_cons (bs : BookSide) (k : Decimal) (ks : List Decimal)
    (h : bs.sorted = k :: ks) :
    bs.count = (bs.queue k).length + (ks.map (fun x => (bs.queue x).length)).sum := by
  simp [BookSide.count, h]

theorem matchStep_count {st : MatchState} {k : Decimal} {L : PriceLevel} {a : Ptr}
    {rest : List Ptr} (hwf : WF st.ob) (h : StepPre st k L a rest) :
    (matchStep st k a).oppositeSide.count + (if (st.filledMaker a).IsFilled then 1 else 0) =
      st.oppositeSide.count := by
  have hh : (st.ob.side st.order.Side.opposite).sorted.head? = some k := h.head
  obtain ⟨hsc, hnotin, _⟩ := wf_sorted_cons hwf hh
  have hq : st.oppositeSide.queue k = a :: rest := by
    rw [queue_of_level h.level, h.front]
  have htail : ∀ x ∈ (st.ob.side st.order.Side.opposite).sorted.tail,
      (matchStep st k a).oppositeSide.queue x = st.oppositeSide.queue x := by
    intro x hx
    rw [matchStep_queue hwf h, if_neg]
    intro e
    exact hnotin (e ▸ hx)
  have hsum : ((st.ob.side st.order.Side.opposite).sorted.tail.map
        (fun x => ((matchStep st k a).oppositeSide.queue x).length)).sum =
      ((st.ob.side st.order.Side.opposite).sorted.tail.map
        (fun x => (st.oppositeSide.queue x).length)).sum := by
    congr 1
    apply List.map_congr_left
    intro x hx
    rw [htail x hx]
  rw [count_cons st.oppositeSide k _ hsc, hq]
  have hs1 := matchStep_sorted hwf h
  rw [← matchStep_oppositeSide] at hs1
  by_cases hfill : (st.filledMaker a).IsFilled = true
  · by_cases hr : rest = []
    · have : (matchStep st k a).oppositeSide.sorted =
          (st.ob.side st.order.Side.opposite).sorted.tail := by
        rw [hs1, if_pos ⟨hfill, hr⟩]
      simp only [BookSide.count, this, hsum, hfill, if_true, hr, List.length_cons,
        List.length_nil]
      omega
    · have : (matchStep st k a).oppositeSide.sorted =
          k :: (st.ob.side st.order.Side.opposite).sorted.tail := by
        rw [hs1, if_neg (fun hc => hr hc.2)]
        exact hsc
      rw [count_cons _ k _ this, hsum, matchStep_queue hwf h, if_pos rfl]
      simp only [hfill, if_true, List.length_cons]
      omega
  · have : (matchStep st k a).oppositeSide.sorted =
        k :: (st.ob.side st.order.Side.opposite).sorted.tail := by
      rw [hs1, if_neg (fun hc => hfill hc.1)]
      exact hsc
    have hfill1 : (st.filledMaker a).IsFilled = false := by simpa using hfill
    rw [count_cons _ k _ this, hsum, matchStep_queue hwf h, if_pos rfl]
    simp only [hfill1, Bool.false_eq_true, if_false, List.length_cons]
    omega

theorem innerLoop_filled (n : Nat) (k : Decimal) (st : MatchState)
    (h : st.order.IsFilled = true) : innerLoop (n + 1) k st = some st := by
  unfold innerLoop
  simp [h]

theorem outerLoop_filled (n : Nat) (st : MatchState)
    (h : st.order.IsFilled = true) : outerLoop (n + 1) st = some st := by
  unfold outerLoop
  simp [h]

theorem innerLoop_terminates :
    ∀ (fuel : Nat) (k : Decimal) (st : MatchState), WF st.ob →
      priceMatches st.order.Side k st.order.Price = true →
      (∀ L, st.oppositeSide.levels k = some L → st.oppositeSide.sorted.head? = some k) →
      (st.oppositeSide.queue k).length + 1 ≤ fuel →
      ∃ r, innerLoop fuel k st = some r ∧
        (r.order.IsFilled = true ∨
          r.oppositeSide.count + (st.oppositeSide.queue k).length ≤ st.oppositeSide.count) := by
  intro fuel
  induction fuel with
  | zero => intro k st _ _ _ h; omega
  | succ n ih =>
    intro k st hwf hcross hhead hfuel
    unfold innerLoop
    by_cases hf : st.order.IsFilled = true
    · exact ⟨st, by simp [hf], Or.inl hf⟩
    · simp only [hf, if_false]
      cases hL : st.oppositeSide.levels k with
      | none => exact ⟨st, rfl, Or.inr (by simp [BookSide.queue, hL])⟩
      | some L =>
        simp only []
        have hne := ((hwf _).level k L hL).2.1
        cases hO : L.Orders with
        | nil => exact absurd hO hne
        | cons a rest =>
          have hpre : StepPre st k L a rest :=
            ⟨by simpa using hf, hhead L hL, hL, hO, hcross⟩
          simp only [PriceLevel.IsEmpty, hO, List.length_cons, PriceLevel.Front,
            List.head?_cons]
          have hq : st.oppositeSide.queue k = a :: rest := by
            rw [queue_of_level hL, hO]
          rw [hq] at hfuel ⊢
          simp only [List.length_cons] at hfuel ⊢
          have hcnt := matchStep_count hwf hpre
          by_cases hfill : (st.filledMaker a).IsFilled = true
          · have hq1 : (matchStep st k a).oppositeSide.queue k = rest := by
              rw [matchStep_queue hwf hpre, if_pos rfl, if_pos hfill]
            obtain ⟨r, hr, hres⟩ := ih k (matchStep st k a) (matchStep_wf hwf hpre) hcross
              (matchStep_head hwf hpre) (by rw [hq1]; omega)
            refine ⟨r, by simpa using hr, ?_⟩
            rcases hres with hres | hres
            · exact Or.inl hres
            · right
              rw [hq1] at hres
              simp only [hfill, if_true] at hcnt
              omega
          · have hfill1 : (st.filledMaker a).IsFilled = false := by simpa using hfill
            have hfilled := matchStep_taker_filled st k a hfill1
            obtain ⟨m, hm⟩ : ∃ m, n = m + 1 := ⟨n - 1, by omega⟩
            subst hm
            exact ⟨matchStep st k a, by simpa using innerLoop_filled m k _ hfilled,
              Or.inl hfilled⟩

theorem queue_length_le_count (bs : BookSide) (k : Decimal) (h : k ∈ bs.sorted) :
    (bs.queue k).length ≤ bs.count := by
  unfold BookSide.count
  exact List.single_le_sum (by simp) _ (List.mem_map_of_mem _ h)

theorem outerLoop_terminates :
    ∀ (fuel : Nat) (st : MatchState), WF st.ob → st.oppositeSide.count + 2 ≤ fuel →
      ∃ r, outerLoop fuel st = some r := by
  intro fuel
  induction fuel with
  | zero => intro st _ h; omega
  | succ n ih =>
    intro st hwf hfuel
    unfold outerLoop
    by_cases hf : st.order.IsFilled = true
    · exact ⟨st, by simp [hf]⟩
    · simp only [hf, if_false]
      unfold BookSide.Best
      cases hs : st.oppositeSide.sorted with
      | nil => exact ⟨st, rfl⟩
      | cons p ps =>
        simp only []
        have hmem : p ∈ st.oppositeSide.sorted := by rw [hs]; simp
        cases hL : st.oppositeSide.levels p with
        | none => exact ⟨st, rfl⟩
        | some L =>
          simp only []
          have hprice : L.Price = p := ((hwf _).level p L hL).1
          rw [hprice]
          by_cases hc : priceMatches st.order.Side p st.order.Price = true
          · simp only [hc, Bool.not_true, Bool.false_eq_true, if_false, List.headD_cons]
            have hle := queue_length_le_count _ p hmem
            obtain ⟨r, hr, hres⟩ := innerLoop_terminates n p st hwf hc
              (fun _ _ => by rw [hs]; rfl) (by omega)
            rw [hr]
            simp only []
            have hwf1 := (innerLoop_invariant (fun _ => True)
              (fun _ _ _ _ _ _ _ _ => trivial) n p st r hwf trivial hc
              (fun _ _ => by rw [hs]; rfl) hr).2
            rcases hres with hres | hres
            · obtain ⟨m, hm⟩ : ∃ m, n = m + 1 := ⟨n - 1, by omega⟩
              subst hm
              exact ⟨r, outerLoop_filled m r hres⟩
            · have hlen : 1 ≤ (st.oppositeSide.queue p).length := by
                rw [queue_of_level hL]
                have hne := ((hwf _).level p L hL).2.1
                cases hO : L.Orders with
                | nil => exact absurd hO hne
                | cons _ _ => simp
              exact ih r hwf1 (by omega)
          · exact ⟨st, by simp [hc]⟩

/-! ## From the loops to `ProcessOrder` -/

theorem wf_NewOrderbook (symbol : String) : WF (NewOrderbook symbol) := by
  intro s
  constructor
  · cases s <;> simp [NewOrderbook, Orderbook.side, NewBookSide]
  · cases s <;> simp [NewOrderbook, Orderbook.side, NewBookSide]
  · intro k
    cases s <;> simp [NewOrderbook, Orderbook.side, NewBookSide]
  · intro k L hL
    cases s <;> simp [NewOrderbook, Orderbook.side, NewBookSide] at hL
  · intro k L a hL
    cases s <;> simp [NewOrderbook, Orderbook.side, NewBookSide] at hL

theorem processOn_invariant (P : MatchState → Prop)
    (hstep : ∀ st k L a rest, WF st.ob → P st → StepPre st k L a rest →
      P (matchStep st k a))
    {fuel : Nat} {ro : RangeOrder} {ob : Orderbook} {o : Order}
    {r : Orderbook × MatchResult × Order} (hwf : WF ob)
    (h0 : P ⟨ob, marketPrice o, [], [], [], []⟩) (h : processOn fuel ro ob o = some r) :
    ∃ st1, outerLoop fuel ⟨ob, marketPrice o, [], [], [], []⟩ = some st1 ∧
      P st1 ∧ WF st1.ob ∧ st1.Done ∧
      r = ((restTaker st1).ob,
        { Trades := st1.Trades, OrderUpdates := (restTaker st1).OrderUpdates,
          OrderbookDelta := buildDelta ro (restTaker st1) }, st1.order) := by
  obtain ⟨st1, hst, hr⟩ := processOn_eq h
  obtain ⟨h1, h2, h3⟩ := outerLoop_invariant P hstep fuel _ st1 hwf h0 hst
  exact ⟨st1, hst, h1, h2, h3, hr⟩

theorem processOn_terminates (ro : RangeOrder) (ob : Orderbook) (o : Order) (hwf : WF ob)
    (fuel : Nat) (hfuel : (ob.side o.Side.opposite).count + 2 ≤ fuel) :
    ∃ r, processOn fuel ro ob o = some r := by
  have hopp : (⟨ob, marketPrice o, [], [], [], []⟩ : MatchState).oppositeSide =
      ob.side o.Side.opposite := by
    simp [MatchState.oppositeSide]
  obtain ⟨st1, hst⟩ := outerLoop_terminates fuel ⟨ob, marketPrice o, [], [], [], []⟩ hwf
    (by rw [hopp]; exact hfuel)
  unfold processOn
  simp only [hst]
  exact ⟨_, rfl⟩

theorem processOrder_terminates (ro : RangeOrder) (m : Matcher) (o : Order)
    (hwf : WF (m.book o.Symbol)) (fuel : Nat)
    (hfuel : ((m.book o.Symbol).side o.Side.opposite).count + 2 ≤ fuel) :
    ∃ out, m.ProcessOrder fuel ro o = some out := by
  obtain ⟨r, hr⟩ := processOn_terminates ro (m.book o.Symbol) o hwf fuel hfuel
  exact processOrder_of_processOn hr

/-! ## Taker quantity conservation -/

theorem sum_take_le (l : List Decimal) (h : ∀ x ∈ l, 0 < x) (n : Nat) :
    (l.take n).sum ≤ l.sum := by
  induction l generalizing n with
  | nil => simp
  | cons x xs ih =>
    cases n with
    | zero =>
      simp only [List.take_zero, List.sum_nil, List.sum_cons]
      have h1 : 0 < x := h x (by simp)
      have h2 : (List.take 0 xs).sum ≤ xs.sum := ih (fun y hy => h y (by simp [hy])) 0
      simp only [List.take_zero, List.sum_nil] at h2
      linarith
    | succ n =>
      simp only [List.take_succ_cons, List.sum_cons]
      have := ih (fun y hy => h y (by simp [hy])) n
      linarith

theorem taker_conservation_step (Q : Decimal) (st : MatchState) (k : Decimal) (L : PriceLevel)
    (a : Ptr) (rest : List Ptr) (hwf : WF st.ob)
    (hP : st.order.RemainingQty + (st.Trades.map (fun t => t.Quantity)).sum = Q ∧
      0 ≤ st.order.RemainingQty ∧ ∀ t ∈ st.Trades, 0 < t.Quantity)
    (hpre : StepPre st k L a rest) :
    (matchStep st k a).order.RemainingQty +
        ((matchStep st k a).Trades.map (fun t => t.Quantity)).sum = Q ∧
      0 ≤ (matchStep st k a).order.RemainingQty ∧
      ∀ t ∈ (matchStep st k a).Trades, 0 < t.Quantity := by
  obtain ⟨h1, h2, h3⟩ := hP
  obtain ⟨_, _, _, hpos, _, _⟩ := stepPre_maker hwf hpre
  have hne : st.order.RemainingQty ≠ 0 := (isFilled_false_iff _).1 hpre.notFilled
  have htpos : 0 < st.order.RemainingQty := lt_of_le_of_ne h2 (Ne.symm hne)
  have hq : 0 < st.tradeQty a := by
    unfold MatchState.tradeQty
    split
    · exact hpos
    · exact htpos
  rw [matchStep_order_rem, matchStep_Trades]
  refine ⟨?_, ?_, ?_⟩
  · simp only [List.map_append, List.map_cons, List.map_nil, List.sum_append, List.sum_cons,
      List.sum_nil, MatchState.tradeOf]
    linarith
  · linarith [tradeQty_le_taker st a]
  · intro t ht
    rcases List.mem_append.mp ht with ht | ht
    · exact h3 t ht
    · simp only [List.mem_singleton] at ht
      subst ht
      exact hq

theorem processOn_taker_conservation {fuel : Nat} {ro : RangeOrder} {ob : Orderbook}
    {o : Order} {r : Orderbook × MatchResult × Order} (hwf : WF ob) (hq : 0 < o.Quantity)
    (hrem : o.RemainingQty = o.Quantity) (h : processOn fuel ro ob o = some r) :
    o.Quantity = r.2.2.RemainingQty + (r.2.1.Trades.map (fun t => t.Quantity)).sum ∧
      (∀ t ∈ r.2.1.Trades, 0 < t.Quantity) ∧ 0 ≤ r.2.2.RemainingQty := by
  obtain ⟨st1, _, hP, _, _, hr⟩ := processOn_invariant
    (fun st => st.order.RemainingQty + (st.Trades.map (fun t => t.Quantity)).sum = o.Quantity ∧
      0 ≤ st.order.RemainingQty ∧ ∀ t ∈ st.Trades, 0 < t.Quantity)
    (taker_conservation_step o.Quantity) hwf
    (by simp [hrem, le_of_lt hq]) h
  subst hr
  exact ⟨hP.1.symm, hP.2.2, hP.2.1⟩

/-- C5: for a fresh taker (`RemainingQty = Quantity > 0`) on a well-formed book,
`ProcessOrder` returns, and whenever it returns the taker's `Quantity` is its final
`RemainingQty` plus the quantities of the returned trades, every trade quantity is
positive, and the taker's remaining quantity is never negative: it is non-negative
at the end and no initial run of the trades exceeds `Quantity`. -/
theorem taker_quantity_conservation (m : Matcher) (ro : RangeOrder) (o : Order)
    (hwf : WF (m.book o.Symbol)) (hq : 0 < o.Quantity) (hrem : o.RemainingQty = o.Quantity) :
    (∃ out, m.ProcessOrder (((m.book o.Symbol).side o.Side.opposite).count + 2) ro o
        = some out) ∧
      ∀ fuel out, m.ProcessOrder fuel ro o = some out →
        o.Quantity = out.order.RemainingQty +
            (out.result.Trades.map (fun t => t.Quantity)).sum ∧
          (∀ t ∈ out.result.Trades, 0 < t.Quantity) ∧
          0 ≤ out.order.RemainingQty ∧
          ∀ n, ((out.result.Trades.take n).map (fun t => t.Quantity)).sum ≤ o.Quantity := by
  refine ⟨processOrder_terminates ro m o hwf _ (le_refl _), ?_⟩
  intro fuel out hout
  obtain ⟨r, hr, _, hres, hord⟩ := processOrder_eq hout
  obtain ⟨h1, h2, h3⟩ := processOn_taker_conservation hwf hq hrem hr
  rw [hres, hord]
  refine ⟨h1, h2, h3, ?_⟩
  intro n
  have := sum_take_le (r.2.1.Trades.map (fun t => t.Quantity))
    (by
      intro x hx
      obtain ⟨t, ht, rfl⟩ := List.mem_map.mp hx
      exact h2 t ht) n
  rw [← List.map_take] at this
  linarith

/-! ## Linking an order keeps the invariants -/

theorem better_trans (s : Side) {p q r : Decimal} (h1 : better s p q) (h2 : better s q r) :
    better s p r := by
  by_cases hs : s = Side.Buy
  · simp only [better, hs, if_true] at *
    exact lt_trans h2 h1
  · simp only [better, hs, if_false] at *
    exact lt_trans h1 h2

theorem better_of_not (s : Side) {p q : Decimal} (h : ¬ better s p q) (hne : p ≠ q) :
    better s q p := by
  by_cases hs : s = Side.Buy
  · simp only [better, hs, if_true] at *
    exact lt_of_le_of_ne (not_lt.mp h) hne
  · simp only [better, hs, if_false] at *
    exact lt_of_le_of_ne (not_lt.mp h) (Ne.symm hne)

theorem pairwise_insert (s : Side) (price : Decimal) (l : List Decimal)
    (hl : l.Pairwise (better s)) (hnot : price ∉ l) :
    (l.take (l.findIdx (fun p => decide (better s price p))) ++
      price :: l.drop (l.findIdx (fun p => decide (better s price p)))).Pairwise
      (better s) := by
  induction l with
  | nil => simp
  | cons x xs ih =>
    rw [List.pairwise_cons] at hl
    have hne : price ≠ x := fun e => hnot (by simp [e])
    have hnot1 : price ∉ xs := fun e => hnot (by simp [e])
    rw [List.findIdx_cons]
    by_cases hb : better s price x
    · simp only [hb, decide_True, cond_true, List.take_zero, List.drop_zero, List.nil_append]
      refine List.pairwise_cons.mpr ⟨?_, List.pairwise_cons.mpr hl⟩
      intro y hy
      rcases List.mem_cons.mp hy with e | e
      · rw [e]; exact hb
      · exact better_trans s hb (hl.1 y e)
    · simp only [hb, decide_False, cond_false, List.take_succ_cons, List.drop_succ_cons,
        List.cons_append]
      refine List.pairwise_cons.mpr ⟨?_, ih hl.2 hnot1⟩
      intro y hy
      rcases List.mem_append.mp hy with e | e
      · exact hl.1 y (List.mem_of_mem_take e)
      · rcases List.mem_cons.mp e with e1 | e1
        · rw [e1]; exact better_of_not s hb hne
        · exact hl.1 y (List.mem_of_mem_drop e1)

theorem mem_insert_at (price : Decimal) (l : List Decimal) (n : Nat) (k : Decimal) :
    k ∈ l.take n ++ price :: l.drop n ↔ k = price ∨ k ∈ l := by
  constructor
  · intro h
    rcases List.mem_append.mp h with e | e
    · exact Or.inr (List.mem_of_mem_take e)
    · rcases List.mem_cons.mp e with e1 | e1
      · exact Or.inl e1
      · exact Or.inr (List.mem_of_mem_drop e1)
  · intro h
    rcases h with e | e
    · simp [e]
    · have : k ∈ l.take n ++ l.drop n := by rw [List.take_append_drop]; exact e
      rcases List.mem_append.mp this with e1 | e1
      · exact List.mem_append.mpr (Or.inl e1)
      · exact List.mem_append.mpr (Or.inr (List.mem_cons_of_mem _ e1))

theorem findInsertIndex_eq (bs : BookSide) (s : Side) (price : Decimal)
    (h : bs.isDescend = decide (s = Side.Buy)) :
    bs.findInsertIndex price = bs.sorted.findIdx (fun p => decide (better s price p)) := by
  unfold BookSide.findInsertIndex
  congr 1
  funext p
  rw [h]
  cases s <;> simp [better]

theorem bookSide_addOrder_sorted (bs : BookSide) (heap : Ptr → Order) (p : Ptr) :
    (bs.AddOrder heap p).sorted =
      if (bs.levels (heap p).Price).isSome then bs.sorted
      else bs.sorted.take (bs.findInsertIndex (heap p).Price) ++
        (heap p).Price :: bs.sorted.drop (bs.findInsertIndex (heap p).Price) := by
  unfold BookSide.AddOrder
  cases hL : bs.levels (heap p).Price with
  | some L => simp [hL]
  | none => simp [hL, BookSide.insertPrice, BookSide.findInsertIndex]

theorem bookSide_addOrder_isDescend (bs : BookSide) (heap : Ptr → Order) (p : Ptr) :
    (bs.AddOrder heap p).isDescend = bs.isDescend := by
  unfold BookSide.AddOrder
  cases hL : bs.levels (heap p).Price with
  | some L => simp [hL]
  | none => simp [hL, BookSide.insertPrice]

theorem orderbook_addOrder_side (ob : Orderbook) (o : Order) (s : Side) :
    (ob.AddOrder o).side s =
      if s = o.Side then (ob.side s).AddOrder (Function.update ob.heap ob.next o) ob.next
      else ob.side s := by
  unfold Orderbook.AddOrder
  simp only [side_setSide]
  split
  · rename_i hs
    subst hs
    simp [Orderbook.side]
  · simp [Orderbook.side]

theorem addOrder_wf (ob : Orderbook) (o : Order) (hwf : WF ob)
    (hfresh : ∀ s k a, Resting ob s k a → (ob.heap a).ID ≠ o.ID)
    (hpos : 0 < o.RemainingQty) : WF (ob.AddOrder o) := by
  have halloc : ∀ s k L b, (ob.side s).levels k = some L → b ∈ L.Orders → b ≠ ob.next := by
    intro s k L b hL hb
    exact Nat.ne_of_lt ((hwf s).order k L b hL hb).1
  have hheap : ∀ s k L b, (ob.side s).levels k = some L → b ∈ L.Orders →
      (ob.AddOrder o).heap b = ob.heap b := by
    intro s k L b hL hb
    rw [addOrder_heap, Function.update_noteq (halloc s k L b hL hb)]
  have hOrd : ∀ s k L b, (ob.side s).levels k = some L → b ∈ L.Orders →
      (ob.AddOrder o).Orders (ob.heap b).ID = some b := by
    intro s k L b hL hb
    rw [addOrder_Orders, Function.update_noteq (hfresh s k b ⟨L, hL, hb⟩)]
    exact ((hwf s).order k L b hL hb).2.2.2.2.2
  have hsum : ∀ s k L, (ob.side s).levels k = some L →
      levelSum (ob.AddOrder o).heap L = levelSum ob.heap L := by
    intro s k L hL
    exact levelSum_congr _ _ L L rfl (fun b hb => hheap s k L b hL hb)
  intro s
  constructor
  · rw [orderbook_addOrder_side]
    split
    · rw [bookSide_addOrder_isDescend]; exact (hwf s).descend
    · exact (hwf s).descend
  · rw [orderbook_addOrder_side]
    split
    · rw [bookSide_addOrder_sorted]
      simp only [Function.update_same]
      split
      · exact (hwf s).sorted
      · rename_i hnone
        rw [findInsertIndex_eq _ s _ (hwf s).descend]
        apply pairwise_insert s _ _ (hwf s).sorted
        intro hm
        exact hnone (((hwf s).keys _).1 hm)
    · exact (hwf s).sorted
  · intro k
    rw [orderbook_addOrder_levels]
    rw [orderbook_addOrder_side]
    by_cases hs : s = o.Side
    · simp only [hs, if_true, true_and, bookSide_addOrder_sorted, Function.update_same]
      by_cases hk : k = o.Price
      · subst hk
        simp only [if_true, Option.isSome_some, iff_true]
        split
        · rename_i hsome
          rw [← hs] at hsome ⊢
          exact ((hwf s).keys _).2 hsome
        · exact (mem_insert_at _ _ _ _).2 (Or.inl rfl)
      · simp only [hk, if_false]
        rw [← hs]
        split
        · exact (hwf s).keys k
        · rw [mem_insert_at]
          constructor
          · rintro (e | e)
            · exact absurd e hk
            · exact ((hwf s).keys k).1 e
          · intro e
            exact Or.inr (((hwf s).keys k).2 e)
    · simp only [hs, if_false, false_and]
      exact (hwf s).keys k
  · intro k L1 hL1
    rw [orderbook_addOrder_levels] at hL1
    split at hL1
    · rename_i hsk
      simp only [Option.some.injEq] at hL1
      subst hL1
      cases hL : (ob.side s).levels k with
      | none =>
        refine ⟨by simp [NewPriceLevel, PriceLevel.AddOrder], by simp [PriceLevel.AddOrder],
          by simp [NewPriceLevel, PriceLevel.AddOrder], ?_⟩
        simp [levelSum, NewPriceLevel, PriceLevel.AddOrder]
      | some L =>
        obtain ⟨h1, h2, h3, h4⟩ := (hwf s).level k L hL
        simp only [Option.getD_some]
        refine ⟨h1, by simp [PriceLevel.AddOrder], ?_, ?_⟩
        · simp only [PriceLevel.AddOrder]
          refine List.Nodup.append h3 (List.nodup_singleton _) ?_
          intro b hb hb1
          simp only [List.mem_singleton] at hb1
          exact halloc s k L b hL hb hb1
        · have e1 : levelSum (ob.AddOrder o).heap
              (L.AddOrder (Function.update ob.heap ob.next o) ob.next) =
              levelSum (ob.AddOrder o).heap L + o.RemainingQty := by
            simp [levelSum, PriceLevel.AddOrder]
          rw [e1, hsum s k L hL]
          simp only [PriceLevel.AddOrder, Function.update_same]
          linarith
    · obtain ⟨h1, h2, h3, h4⟩ := (hwf s).level k L1 hL1
      exact ⟨h1, h2, h3, by rw [hsum s k L1 hL1]; exact h4⟩
  · intro k L1 b hL1 hb
    rw [orderbook_addOrder_levels] at hL1
    rw [addOrder_next]
    split at hL1
    · rename_i hsk
      simp only [Option.some.injEq] at hL1
      subst hL1
      have hmem : b ∈ (((ob.side s).levels k).getD (NewPriceLevel k)).Orders ∨ b = ob.next := by
        simpa [PriceLevel.AddOrder] using hb
      rcases hmem with hb1 | hb1
      · cases hL : (ob.side s).levels k with
        | none => simp [hL, NewPriceLevel] at hb1
        | some L =>
          rw [hL] at hb1
          simp only [Option.getD_some] at hb1 ⊢
          obtain ⟨o1, o2, o3, o4, o5, _⟩ := (hwf s).order k L b hL hb1
          rw [hheap s k L b hL hb1]
          refine ⟨Nat.lt_succ_of_lt o1, o2, o3, o4, ?_, hOrd s k L b hL hb1⟩
          simp only [PriceLevel.AddOrder, Function.update_same]
          rw [Function.update_noteq (hfresh s k b ⟨L, hL, hb1⟩)]
          exact o5
      · subst hb1
        rw [addOrder_heap, Function.update_same]
        refine ⟨Nat.lt_succ_self _, hsk.2.symm, hsk.1.symm, hpos, ?_, ?_⟩
        · simp [PriceLevel.AddOrder]
        · simp
    · obtain ⟨o1, o2, o3, o4, o5, _⟩ := (hwf s).order k L1 b hL1 hb
      rw [hheap s k L1 b hL1 hb]
      exact ⟨Nat.lt_succ_of_lt o1, o2, o3, o4, o5, hOrd s k L1 b hL1 hb⟩

/-! ## `ProcessOrder` keeps the invariants -/

theorem taker_nonneg_step (st : MatchState) (k : Decimal) (L : PriceLevel) (a : Ptr)
    (rest : List Ptr) (_hwf : WF st.ob) (_hP : 0 ≤ st.order.RemainingQty)
    (_hpre : StepPre st k L a rest) : 0 ≤ (matchStep st k a).order.RemainingQty := by
  rw [matchStep_order_rem]
  linarith [tradeQty_le_taker st a]

theorem restTaker_wf (st : MatchState) (hwf : WF st.ob) (h0 : 0 ≤ st.order.RemainingQty)
    (hfresh : ∀ s k a, Resting st.ob s k a → (st.ob.heap a).ID ≠ st.order.ID) :
    WF (restTaker st).ob := by
  rw [restTaker_ob]
  split
  · rename_i hc
    refine addOrder_wf _ _ hwf hfresh ?_
    exact lt_of_le_of_ne h0 (Ne.symm ((isFilled_false_iff _).1 hc.1))
  · exact hwf

theorem processOn_wf {fuel : Nat} {ro : RangeOrder} {ob : Orderbook} {o : Order}
    {r : Orderbook × MatchResult × Order} (hwf : WF ob) (h0 : 0 ≤ o.RemainingQty)
    (hfresh : ∀ s k a, Resting ob s k a → (ob.heap a).ID ≠ o.ID)
    (h : processOn fuel ro ob o = some r) : WF r.1 := by
  obtain ⟨st1, hst, hP, hwf1, _, hr⟩ := processOn_invariant
    (fun st => 0 ≤ st.order.RemainingQty) taker_nonneg_step hwf (by simpa using h0) h
  obtain ⟨hs, ht⟩ := outerLoop_shrinks _ _ _ hst
  subst hr
  refine restTaker_wf st1 hwf1 hP ?_
  intro s k a ha
  have hid : st1.order.ID = o.ID := by
    have := sameButQty_ID ht
    simpa using this
  rw [shrinks_ID hs a, hid]
  exact hfresh s k a (resting_of_shrinks hs ha)

theorem matcherWF_new : MatcherWF NewMatcher := by
  intro symbol ob h
  simp [NewMatcher] at h

theorem matcherWF_book {m : Matcher} (h : MatcherWF m) (symbol : String) :
    WF (m.book symbol) := by
  rw [matcher_book_eq]
  cases hb : m.orderbooks symbol with
  | none => exact wf_NewOrderbook symbol
  | some ob => exact h symbol ob hb

theorem freshId_book {m : Matcher} {o : Order} (h : FreshId m o) :
    ∀ s k a, Resting (m.book o.Symbol) s k a → ((m.book o.Symbol).heap a).ID ≠ o.ID := by
  intro s k a ha
  cases hb : m.orderbooks o.Symbol with
  | none =>
    have : m.book o.Symbol = NewOrderbook o.Symbol := by rw [matcher_book_eq, hb]; rfl
    rw [this] at ha
    exact absurd ha (NewOrderbook_not_resting _ _ _ _)
  | some ob =>
    have : m.book o.Symbol = ob := matcher_book_of_some hb
    rw [this] at ha ⊢
    exact h ob hb s k a ha

theorem processOrder_wf {m : Matcher} {fuel : Nat} {ro : RangeOrder} {o : Order}
    {out : Outcome} (hm : MatcherWF m) (hf : FreshId m o) (h0 : 0 ≤ o.RemainingQty)
    (hout : m.ProcessOrder fuel ro o = some out) : MatcherWF out.matcher := by
  obtain ⟨r, hr, hbooks, _, _⟩ := processOrder_eq hout
  intro symbol ob hb
  rw [hbooks] at hb
  by_cases hs : symbol = o.Symbol
  · subst hs
    rw [Function.update_same] at hb
    cases hb
    exact processOn_wf (matcherWF_book hm _) h0 (freshId_book hf) hr
  · rw [Function.update_noteq hs] at hb
    exact hm symbol ob hb

theorem submit_wf {m : Matcher} (hm : MatcherWF m) (o : Order) (hf : FreshId m o)
    (h0 : 0 ≤ o.RemainingQty) : MatcherWF (submit m o) := by
  unfold submit
  cases hp : m.ProcessOrder 16 RangeOrder.insertion o with
  | none => exact hm
  | some out => exact processOrder_wf hm hf h0 hp

/-- An id is fresh when none of the allocated order objects carries it. -/
theorem freshId_of_next {m : Matcher} {o : Order} (hm : MatcherWF m) (n : Nat)
    (hn : (m.book o.Symbol).next = n)
    (h : ∀ a, a < n → ((m.book o.Symbol).heap a).ID ≠ o.ID) : FreshId m o := by
  intro ob hb s k a ha
  have hbk : m.book o.Symbol = ob := matcher_book_of_some hb
  obtain ⟨L, hL, haL⟩ := ha
  have hlt := ((hm _ ob hb s).order k L a hL haL).1
  rw [← hbk] at hlt ⊢
  rw [hn] at hlt
  exact h a hlt

theorem matcherWF_oneBid : MatcherWF oneBid :=
  submit_wf matcherWF_new _ (fun ob hob => by simp [NewMatcher] at hob) (by decide!)

/-- Witness for `taker_quantity_conservation`: an ask of 1 at 100 against a resting
bid of 2 at 100. -/
theorem taker_quantity_conservation_witness :
    WF (oneBid.book askO2.Symbol) ∧ 0 < askO2.Quantity ∧
      askO2.RemainingQty = askO2.Quantity ∧
      ∃ fuel out, oneBid.ProcessOrder fuel RangeOrder.insertion askO2 = some out ∧
        askO2.Quantity = out.order.RemainingQty +
          (out.result.Trades.map (fun t => t.Quantity)).sum := by
  have hwf := matcherWF_book matcherWF_oneBid askO2.Symbol
  have h := taker_quantity_conservation oneBid RangeOrder.insertion askO2 hwf
    (by decide!) (by decide!)
  obtain ⟨out, hout⟩ := h.1
  exact ⟨hwf, by decide!, by decide!, _, out, hout, (h.2 _ out hout).1⟩

/-! ## Maker price, taker limit -/

theorem priceMatches_limit {s : Side} {p q : Decimal} (h : priceMatches s p q = true) :
    (s = Side.Buy → p ≤ q) ∧ (s = Side.Sell → q ≤ p) := by
  unfold priceMatches at h
  constructor
  · intro e
    subst e
    simpa using h
  · intro e
    subst e
    simpa using h

theorem maker_price_step (ob0 : Orderbook) (st : MatchState) (k : Decimal) (L : PriceLevel)
    (a : Ptr) (rest : List Ptr) (hwf : WF st.ob)
    (hP : Shrinks ob0 st.ob ∧ ∀ t ∈ st.Trades,
      priceMatches st.order.Side t.Price st.order.Price = true ∧
      ∃ k a, Resting ob0 st.order.Side.opposite k a ∧ t.MakerOrderID = (ob0.heap a).ID ∧
        t.Price = (ob0.heap a).Price)
    (hpre : StepPre st k L a rest) :
    Shrinks ob0 (matchStep st k a).ob ∧ ∀ t ∈ (matchStep st k a).Trades,
      priceMatches (matchStep st k a).order.Side t.Price (matchStep st k a).order.Price = true ∧
      ∃ k1 a1, Resting ob0 (matchStep st k a).order.Side.opposite k1 a1 ∧
        t.MakerOrderID = (ob0.heap a1).ID ∧ t.Price = (ob0.heap a1).Price := by
  obtain ⟨hsh, hT⟩ := hP
  obtain ⟨_, hp, _, _, _, _⟩ := stepPre_maker hwf hpre
  refine ⟨shrinks_trans hsh (matchStep_shrinks st k a), ?_⟩
  intro t ht
  rw [matchStep_Trades] at ht
  rw [matchStep_order_Side, matchStep_order_Price]
  rcases List.mem_append.mp ht with ht | ht
  · exact hT t ht
  · simp only [List.mem_singleton] at ht
    subst ht
    have hrest : Resting st.ob st.order.Side.opposite k a :=
      ⟨L, hpre.level, by rw [hpre.front]; simp⟩
    refine ⟨?_, k, a, resting_of_shrinks hsh hrest, ?_, ?_⟩
    · show priceMatches st.order.Side (st.ob.heap a).Price st.order.Price = true
      rw [hp]
      exact hpre.cross
    · exact shrinks_ID hsh a
    · exact sameButQty_Price (hsh.2.1 a)

/-- C9: on a well-formed book `ProcessOrder` returns, and every returned trade
names a maker that rested on the opposite side before the call and carries that
maker's resting price; for a limit taker that price is within the limit: at most the
taker's price for a Buy, at least the taker's price for a Sell. -/
theorem maker_price_execution (m : Matcher) (ro : RangeOrder) (o : Order)
    (hwf : WF (m.book o.Symbol)) :
    (∃ out, m.ProcessOrder (((m.book o.Symbol).side o.Side.opposite).count + 2) ro o
        = some out) ∧
      ∀ fuel out, m.ProcessOrder fuel ro o = some out →
        ∀ t ∈ out.result.Trades,
          (∃ k a, Resting (m.book o.Symbol) o.Side.opposite k a ∧
            t.MakerOrderID = ((m.book o.Symbol).heap a).ID ∧
            t.Price = ((m.book o.Symbol).heap a).Price) ∧
          (o.Typ = OrderType.Limit →
            (o.Side = Side.Buy → t.Price ≤ o.Price) ∧
            (o.Side = Side.Sell → o.Price ≤ t.Price)) := by
  refine ⟨processOrder_terminates ro m o hwf _ (le_refl _), ?_⟩
  intro fuel out hout
  obtain ⟨r, hr, _, hres, _⟩ := processOrder_eq hout
  obtain ⟨st1, hst, hP, _, _, hr1⟩ := processOn_invariant
    (fun st => Shrinks (m.book o.Symbol) st.ob ∧ ∀ t ∈ st.Trades,
      priceMatches st.order.Side t.Price st.order.Price = true ∧
      ∃ k a, Resting (m.book o.Symbol) st.order.Side.opposite k a ∧
        t.MakerOrderID = ((m.book o.Symbol).heap a).ID ∧
        t.Price = ((m.book o.Symbol).heap a).Price)
    (maker_price_step (m.book o.Symbol)) hwf
    ⟨shrinks_refl _, by simp⟩ hr
  obtain ⟨_, hsame⟩ := outerLoop_shrinks _ _ _ hst
  intro t ht
  rw [hres, hr1] at ht
  obtain ⟨hc, hmk⟩ := hP.2 t ht
  have hside : st1.order.Side = o.Side := by
    have := sameButQty_Side hsame
    simpa using this
  rw [hside] at hmk
  refine ⟨hmk, ?_⟩
  intro hlim
  have hprice : st1.order.Price = o.Price := by
    have := sameButQty_Price hsame
    rw [this]
    simp [marketPrice, hlim]
  rw [hside, hprice] at hc
  exact priceMatches_limit hc

/-- Witness for `maker_price_execution`: an ask of 1 at 100 against a resting bid of
2 at 100. -/
theorem maker_price_execution_witness :
    WF (oneBid.book askO2.Symbol) ∧
      ∃ fuel out, oneBid.ProcessOrder fuel RangeOrder.insertion askO2 = some out ∧
        ∀ t ∈ out.result.Trades, askO2.Typ = OrderType.Limit →
          (askO2.Side = Side.Buy → t.Price ≤ askO2.Price) ∧
          (askO2.Side = Side.Sell → askO2.Price ≤ t.Price) := by
  have hwf := matcherWF_book matcherWF_oneBid askO2.Symbol
  have h := maker_price_execution oneBid RangeOrder.insertion askO2 hwf
  obtain ⟨out, hout⟩ := h.1
  exact ⟨hwf, _, out, hout, fun t ht => (h.2 _ out hout t ht).2⟩

/-! ## Maker quantity conservation and frame -/

theorem makerQty_append (T : List Trade) (t : Trade) (id : String) :
    makerQty (T ++ [t]) id = makerQty T id + if t.MakerOrderID = id then t.Quantity else 0 := by
  unfold makerQty
  rw [List.filter_append, List.map_append, List.sum_append]
  by_cases h : t.MakerOrderID = id
  · simp [h]
  · simp [h]

theorem makerQty_of_not_named (T : List Trade) (id : String)
    (h : ∀ t ∈ T, t.MakerOrderID ≠ id) : makerQty T id = 0 := by
  unfold makerQty
  have : T.filter (fun t => decide (t.MakerOrderID = id)) = [] := by
    rw [List.filter_eq_nil_iff]
    intro t ht
    simpa using h t ht
  rw [this]
  simp

/-- A queued order stays queued through a step unless it is the maker and is filled. -/
theorem resting_after_step {st : MatchState} {k : Decimal} {L : PriceLevel} {a : Ptr}
    {rest : List Ptr} (hwf : WF st.ob) (h : StepPre st k L a rest) {s : Side} {k1 : Decimal}
    {b : Ptr} (hb : Resting st.ob s k1 b)
    (hne : b ≠ a ∨ (st.filledMaker a).IsFilled = false) :
    Resting (matchStep st k a).ob s k1 b := by
  obtain ⟨L1, hL1, hbL⟩ := hb
  by_cases hs : s = st.order.Side.opposite
  · subst hs
    have hL : (st.ob.side st.order.Side.opposite).levels k = some L := h.level
    by_cases hk : k1 = k
    · subst hk
      have e : L1 = L := Option.some.inj (hL1.symm.trans hL)
      subst e
      unfold Resting
      rw [matchStep_levels hwf h, if_pos rfl]
      unfold MatchState.levelAfter
      rw [h.front] at hbL
      by_cases hfill : (st.filledMaker a).IsFilled = true
      · have hba : b ≠ a := by
          rcases hne with e | e
          · exact e
          · rw [hfill] at e; cases e
        have hbr : b ∈ rest := by
          rcases List.mem_cons.mp hbL with e | e
          · exact absurd e hba
          · exact e
        have hr : rest ≠ [] := List.ne_nil_of_mem hbr
        simp only [hfill, hr, if_true, if_false]
        exact ⟨_, rfl, hbr⟩
      · simp only [hfill, if_false]
        exact ⟨_, rfl, by simpa [PriceLevel.UpdateVolume, h.front] using hbL⟩
    · refine ⟨L1, ?_, hbL⟩
      rw [matchStep_levels hwf h, if_neg hk]
      exact hL1
  · refine ⟨L1, ?_, hbL⟩
    rw [matchStep_ownSide hwf h s hs]
    exact hL1

theorem maker_conservation_step (ob0 : Orderbook) (hwf0 : WF ob0) (st : MatchState)
    (k : Decimal) (L : PriceLevel) (a : Ptr) (rest : List Ptr) (hwf : WF st.ob)
    (hP : Shrinks ob0 st.ob ∧
      (∀ s k b, Resting ob0 s k b → (ob0.heap b).RemainingQty =
        (st.ob.heap b).RemainingQty + makerQty st.Trades (ob0.heap b).ID) ∧
      ∀ s k b, Resting ob0 s k b → Resting st.ob s k b ∨ (st.ob.heap b).RemainingQty = 0)
    (hpre : StepPre st k L a rest) :
    Shrinks ob0 (matchStep st k a).ob ∧
      (∀ s k1 b, Resting ob0 s k1 b → (ob0.heap b).RemainingQty =
        ((matchStep st k a).ob.heap b).RemainingQty +
          makerQty (matchStep st k a).Trades (ob0.heap b).ID) ∧
      ∀ s k1 b, Resting ob0 s k1 b →
        Resting (matchStep st k a).ob s k1 b ∨
          ((matchStep st k a).ob.heap b).RemainingQty = 0 := by
  obtain ⟨hsh, hcons, hgone⟩ := hP
  obtain ⟨_, _, _, hpos, _, _⟩ := stepPre_maker hwf hpre
  have hrest : Resting st.ob st.order.Side.opposite k a :=
    ⟨L, hpre.level, by rw [hpre.front]; simp⟩
  obtain ⟨L0, hL0, haL0⟩ := resting_of_shrinks hsh hrest
  have hida : (st.ob.heap a).ID = (ob0.heap a).ID := shrinks_ID hsh a
  refine ⟨shrinks_trans hsh (matchStep_shrinks st k a), ?_, ?_⟩
  · intro s k1 b hb
    rw [matchStep_heap, matchStep_Trades, makerQty_append]
    have hq : (st.tradeOf a).Quantity = st.tradeQty a := rfl
    have hm : (st.tradeOf a).MakerOrderID = (ob0.heap a).ID := hida
    by_cases hba : b = a
    · subst hba
      rw [Function.update_same, filledMaker_rem, hm, if_pos rfl, hq]
      have := hcons s k1 b hb
      linarith
    · obtain ⟨Lb, hLb, hbLb⟩ := hb
      rw [Function.update_noteq hba, hm,
        if_neg (Ne.symm (wf_id_ne hwf0 hL0 haL0 hLb hbLb hba))]
      have := hcons s k1 b ⟨Lb, hLb, hbLb⟩
      linarith
  · intro s k1 b hb
    rcases hgone s k1 b hb with hr | hz
    · by_cases hc : b ≠ a ∨ (st.filledMaker a).IsFilled = false
      · exact Or.inl (resting_after_step hwf hpre hr hc)
      · right
        have hba : b = a := by
          by_contra e
          exact hc (Or.inl e)
        have hfill : (st.filledMaker a).IsFilled = true := by
          by_contra e
          exact hc (Or.inr (by simpa using e))
        subst hba
        rw [matchStep_heap, Function.update_same]
        exact (isFilled_iff _).1 hfill
    · right
      have hba : b ≠ a := by
        intro e
        subst e
        rw [hz] at hpos
        exact lt_irrefl _ hpos
      rw [matchStep_heap, Function.update_noteq hba]
      exact hz

theorem resting_addOrder_of_resting (ob : Orderbook) (o : Order) {s : Side} {k : Decimal}
    {a : Ptr} (h : Resting ob s k a) : Resting (ob.AddOrder o) s k a := by
  obtain ⟨L, hL, ha⟩ := h
  unfold Resting
  rw [orderbook_addOrder_levels]
  split
  · refine ⟨_, rfl, ?_⟩
    rw [hL]
    simp [PriceLevel.AddOrder, ha]
  · exact ⟨L, hL, ha⟩

theorem restTaker_next (st : MatchState) :
    (restTaker st).ob.next = st.ob.next ∨ (restTaker st).ob.next = st.ob.next + 1 := by
  rw [restTaker_ob]
  split
  · right; simp
  · left; rfl

/-- What `restTaker` does to an order object allocated before the call. -/
theorem restTaker_heap (st : MatchState) (a : Ptr) (h : a < st.ob.next) :
    (restTaker st).ob.heap a = st.ob.heap a := by
  rw [restTaker_ob]
  split
  · rw [addOrder_heap, Function.update_noteq (Nat.ne_of_lt h)]
  · rfl

theorem restTaker_resting (st : MatchState) {s : Side} {k : Decimal} {a : Ptr}
    (h : Resting st.ob s k a) : Resting (restTaker st).ob s k a := by
  rw [restTaker_ob]
  split
  · exact resting_addOrder_of_resting _ _ h
  · exact h

theorem restTaker_sublist (st : MatchState) (s : Side) (k : Decimal) (L1 : PriceLevel)
    (h : ((restTaker st).ob.side s).levels k = some L1) :
    L1.Orders.Sublist ((st.ob.side s).queue k ++ [st.ob.next]) := by
  rw [restTaker_ob] at h
  split at h
  · rw [orderbook_addOrder_levels] at h
    split at h
    · simp only [Option.some.injEq] at h
      subst h
      cases hL : (st.ob.side s).levels k with
      | none => simp [BookSide.queue, hL, NewPriceLevel, PriceLevel.AddOrder]
      | some L => simp [BookSide.queue, hL, PriceLevel.AddOrder]
    · rw [queue_of_level h]
      exact List.sublist_append_left _ _
  · rw [queue_of_level h]
    exact List.sublist_append_left _ _

theorem queue_sublist_of_shrinks {ob ob1 : Orderbook} (h : Shrinks ob ob1) (s : Side)
    (k : Decimal) : ((ob1.side s).queue k).Sublist ((ob.side s).queue k) := by
  cases hL1 : (ob1.side s).levels k with
  | none => simp [BookSide.queue, hL1]
  | some L1 =>
    obtain ⟨L, hL, hsub⟩ := h.2.2 s k L1 hL1
    rw [queue_of_level hL1, queue_of_level hL]
    exact hsub

/-- C6: on a well-formed book (its queued orders have pairwise distinct ids)
`ProcessOrder` returns, and for every order queued before the call: its remaining
quantity before equals its remaining quantity after plus the quantities of the
returned trades that name it as maker; it is still queued in the same level of the
same side, or its remaining quantity is zero; if no trade names it, it is still
queued there with the same remaining quantity.  The queue of every level after the
call is the queue before with some orders removed and possibly the taker appended,
so the orders that stay keep their relative places. -/
theorem maker_quantity_conservation (m : Matcher) (ro : RangeOrder) (o : Order)
    (hwf : WF (m.book o.Symbol)) :
    (∃ out, m.ProcessOrder (((m.book o.Symbol).side o.Side.opposite).count + 2) ro o
        = some out) ∧
      ∀ fuel out, m.ProcessOrder fuel ro o = some out →
        (∀ s k a, Resting (m.book o.Symbol) s k a →
          ((m.book o.Symbol).heap a).RemainingQty =
              ((out.matcher.book o.Symbol).heap a).RemainingQty +
                makerQty out.result.Trades ((m.book o.Symbol).heap a).ID ∧
            (Resting (out.matcher.book o.Symbol) s k a ∨
              ((out.matcher.book o.Symbol).heap a).RemainingQty = 0) ∧
            ((∀ t ∈ out.result.Trades, t.MakerOrderID ≠ ((m.book o.Symbol).heap a).ID) →
              Resting (out.matcher.book o.Symbol) s k a ∧
                ((out.matcher.book o.Symbol).heap a).RemainingQty =
                  ((m.book o.Symbol).heap a).RemainingQty)) ∧
        ∀ s k L1, ((out.matcher.book o.Symbol).side s).levels k = some L1 →
          L1.Orders.Sublist
            (((m.book o.Symbol).side s).queue k ++ [(m.book o.Symbol).next]) := by
  refine ⟨processOrder_terminates ro m o hwf _ (le_refl _), ?_⟩
  intro fuel out hout
  obtain ⟨r, hr, hbooks, hres, _⟩ := processOrder_eq hout
  have hbook : out.matcher.book o.Symbol = r.1 :=
    matcher_book_of_some (by rw [hbooks, Function.update_same])
  obtain ⟨st1, _, hP, _, _, hr1⟩ := processOn_invariant
    (fun st => Shrinks (m.book o.Symbol) st.ob ∧
      (∀ s k b, Resting (m.book o.Symbol) s k b → ((m.book o.Symbol).heap b).RemainingQty =
        (st.ob.heap b).RemainingQty + makerQty st.Trades ((m.book o.Symbol).heap b).ID) ∧
      ∀ s k b, Resting (m.book o.Symbol) s k b →
        Resting st.ob s k b ∨ (st.ob.heap b).RemainingQty = 0)
    (maker_conservation_step (m.book o.Symbol) hwf) hwf
    ⟨shrinks_refl _, by simp [makerQty], fun s k b hb => Or.inl hb⟩ hr
  obtain ⟨hsh, hcons, hgone⟩ := hP
  have hr2 : r.1 = (restTaker st1).ob := by rw [hr1]
  have hT : out.result.Trades = st1.Trades := by rw [hres, hr1]
  rw [hbook, hr2, hT]
  constructor
  · intro s k a ha
    obtain ⟨L, hL, haL⟩ := ha
    have halloc : a < st1.ob.next := by
      rw [hsh.1]
      exact ((hwf s).order k L a hL haL).1
    have hpos : 0 < ((m.book o.Symbol).heap a).RemainingQty :=
      ((hwf s).order k L a hL haL).2.2.2.1
    rw [restTaker_heap st1 a halloc]
    have h1 := hcons s k a ⟨L, hL, haL⟩
    have h2 : Resting (restTaker st1).ob s k a ∨ (st1.ob.heap a).RemainingQty = 0 := by
      rcases hgone s k a ⟨L, hL, haL⟩ with e | e
      · exact Or.inl (restTaker_resting st1 e)
      · exact Or.inr e
    refine ⟨h1, h2, ?_⟩
    intro hno
    have hz := makerQty_of_not_named _ _ hno
    rw [hz] at h1
    have hsame : (st1.ob.heap a).RemainingQty = ((m.book o.Symbol).heap a).RemainingQty := by
      linarith
    refine ⟨?_, hsame⟩
    rcases h2 with e | e
    · exact e
    · rw [hsame] at e
      rw [e] at hpos
      exact absurd hpos (lt_irrefl _)
  · intro s k L1 hL1
    have h1 := restTaker_sublist st1 s k L1 hL1
    rw [hsh.1] at h1
    exact h1.trans (List.Sublist.append (queue_sublist_of_shrinks hsh s k)
      (List.Sublist.refl _))

theorem stepInvariant_and {P Q : MatchState → Prop} (hP : StepInvariant P)
    (hQ : StepInvariant Q) : StepInvariant (fun st => P st ∧ Q st) :=
  fun st k L a rest hwf h hpre => ⟨hP st k L a rest hwf h.1 hpre, hQ st k L a rest hwf h.2 hpre⟩

theorem consInv_step (ob0 : Orderbook) (hwf0 : WF ob0) : StepInvariant (ConsInv ob0) :=
  fun st k L a rest hwf h hpre => maker_conservation_step ob0 hwf0 st k L a rest hwf h hpre

theorem priceInv_step (ob0 : Orderbook) : StepInvariant (PriceInv ob0) :=
  fun st k L a rest hwf h hpre => maker_price_step ob0 st k L a rest hwf h hpre

theorem consInv_init (ob : Orderbook) (o : Order) :
    ConsInv ob ⟨ob, o, [], [], [], []⟩ :=
  ⟨shrinks_refl _, by simp [makerQty], fun _ _ _ hb => Or.inl hb⟩

theorem priceInv_init (ob : Orderbook) (o : Order) :
    PriceInv ob ⟨ob, o, [], [], [], []⟩ :=
  ⟨shrinks_refl _, by simp⟩

/-- Witness for `maker_quantity_conservation`: the bid of 2 at 100 is the maker of an
ask of 1 at 100. -/
theorem maker_quantity_conservation_witness :
    WF (oneBid.book askO2.Symbol) ∧
      ∃ fuel out, oneBid.ProcessOrder fuel RangeOrder.insertion askO2 = some out ∧
        ((oneBid.book askO2.Symbol).heap 0).RemainingQty =
          ((out.matcher.book askO2.Symbol).heap 0).RemainingQty +
            makerQty out.result.Trades ((oneBid.book askO2.Symbol).heap 0).ID := by
  have hwf := matcherWF_book matcherWF_oneBid askO2.Symbol
  have h := maker_quantity_conservation oneBid RangeOrder.insertion askO2 hwf
  obtain ⟨out, hout⟩ := h.1
  have hr : Resting (oneBid.book askO2.Symbol) Side.Buy 100 0 :=
    (restingB_iff _ _ _ _).1 (by decide!)
  exact ⟨hwf, _, out, hout, ((h.2 _ out hout).1 Side.Buy 100 0 hr).1⟩

/-! ## Best price first -/

theorem bestFirst_step : StepInvariant BestFirstInv := by
  intro st k L a rest hwf hP hpre
  obtain ⟨hpw, hlev⟩ := hP
  obtain ⟨_, hp, _, _, _, _⟩ := stepPre_maker hwf hpre
  have hh : (st.ob.side st.order.Side.opposite).sorted.head? = some k := hpre.head
  obtain ⟨hsc, _, hbest⟩ := wf_sorted_cons hwf hh
  have hkmem : k ∈ st.oppositeSide.sorted := by
    show k ∈ (st.ob.side st.order.Side.opposite).sorted
    rw [hsc]; simp
  have hprice : (st.tradeOf a).Price = k := hp
  have hsub : ∀ x ∈ (matchStep st k a).oppositeSide.sorted, x ∈ st.oppositeSide.sorted := by
    intro x hx
    rw [matchStep_oppositeSide, matchStep_sorted hwf hpre] at hx
    split at hx
    · exact List.mem_of_mem_tail hx
    · exact hx
  constructor
  · show ((matchStep st k a).Trades.map (fun t => t.Price)).Pairwise
      (fun p q => ¬ better st.order.Side.opposite q p)
    rw [matchStep_Trades, List.map_append, List.pairwise_append]
    refine ⟨hpw, by simp, ?_⟩
    intro p hpm q hq
    simp only [List.map_cons, List.map_nil, List.mem_singleton] at hq
    obtain ⟨t, ht, rfl⟩ := List.mem_map.mp hpm
    rw [hq, hprice]
    exact hlev t ht k hkmem
  · intro t ht x hx
    show ¬ better st.order.Side.opposite x t.Price
    rw [matchStep_Trades] at ht
    rcases List.mem_append.mp ht with ht | ht
    · exact hlev t ht x (hsub x hx)
    · simp only [List.mem_singleton] at ht
      subst ht
      rw [hprice]
      have hx1 : x ∈ (st.ob.side st.order.Side.opposite).sorted := hsub x hx
      rw [hsc] at hx1
      rcases List.mem_cons.mp hx1 with e | e
      · rw [e]; exact better_irrefl _ _
      · exact better_asymm _ (hbest x e)

theorem restTaker_oppositeSide (st : MatchState) :
    (restTaker st).ob.side st.order.Side.opposite = st.ob.side st.order.Side.opposite := by
  rw [restTaker_ob]
  split
  · rw [orderbook_addOrder_side, if_neg]
    cases st.order.Side <;> simp [Side.opposite]
  · rfl

theorem makerQty_split (T1 T2 : List Trade) (id : String) :
    makerQty (T1 ++ T2) id = makerQty T1 id + makerQty T2 id := by
  unfold makerQty
  rw [List.filter_append, List.map_append, List.sum_append]

/-- What the cross leaves behind, in one statement: the final loop state, its
invariants, and how the returned values are read off it. -/
theorem processOrder_invariant (P : MatchState → Prop) (hstep : StepInvariant P)
    {m : Matcher} {fuel : Nat} {ro : RangeOrder} {o : Order} {out : Outcome}
    (hwf : WF (m.book o.Symbol))
    (h0 : P ⟨m.book o.Symbol, marketPrice o, [], [], [], []⟩)
    (hout : m.ProcessOrder fuel ro o = some out) :
    ∃ st1, outerLoop fuel ⟨m.book o.Symbol, marketPrice o, [], [], [], []⟩ = some st1 ∧
      P st1 ∧ WF st1.ob ∧ st1.Done ∧ SameButQty (marketPrice o) st1.order ∧
      out.matcher.book o.Symbol = (restTaker st1).ob ∧
      out.result.Trades = st1.Trades ∧
      out.result.OrderUpdates = (restTaker st1).OrderUpdates ∧
      out.result.OrderbookDelta = buildDelta ro (restTaker st1) ∧
      out.order = st1.order := by
  obtain ⟨r, hr, hbooks, hres, hord⟩ := processOrder_eq hout
  have hbook : out.matcher.book o.Symbol = r.1 :=
    matcher_book_of_some (by rw [hbooks, Function.update_same])
  obtain ⟨st1, hst, hP, hwf1, hdone, hr1⟩ := processOn_invariant P hstep hwf h0 hr
  obtain ⟨_, hsame⟩ := outerLoop_shrinks _ _ _ hst
  refine ⟨st1, hst, hP, hwf1, hdone, hsame, ?_, ?_, ?_, ?_, ?_⟩
  · rw [hbook, hr1]
  · rw [hres, hr1]
  · rw [hres, hr1]
  · rw [hres, hr1]
  · rw [hord, hr1]

/-- C8: on a well-formed book `ProcessOrder` returns; the prices of the returned
trades, in execution order, are non-decreasing for a Buy taker and non-increasing
for a Sell taker; and for every trade `t` and every opposite-side price `k`
strictly better than the price of `t`: after the call there is no level at `k`, and
every order that was queued at `k` had been filled completely by the trades that
precede `t`. -/
theorem best_price_first (m : Matcher) (ro : RangeOrder) (o : Order)
    (hwf : WF (m.book o.Symbol)) :
    (∃ out, m.ProcessOrder (((m.book o.Symbol).side o.Side.opposite).count + 2) ro o
        = some out) ∧
      ∀ fuel out, m.ProcessOrder fuel ro o = some out →
        (o.Side = Side.Buy → (out.result.Trades.map (fun t => t.Price)).Pairwise (· ≤ ·)) ∧
        (o.Side = Side.Sell → (out.result.Trades.map (fun t => t.Price)).Pairwise (· ≥ ·)) ∧
        ∀ T1 t T2, out.result.Trades = T1 ++ t :: T2 →
          ∀ k, better o.Side.opposite k t.Price →
            ((out.matcher.book o.Symbol).side o.Side.opposite).levels k = none ∧
            k ∉ ((out.matcher.book o.Symbol).side o.Side.opposite).sorted ∧
            ∀ a, Resting (m.book o.Symbol) o.Side.opposite k a →
              makerQty T1 ((m.book o.Symbol).heap a).ID =
                ((m.book o.Symbol).heap a).RemainingQty := by
  refine ⟨processOrder_terminates ro m o hwf _ (le_refl _), ?_⟩
  intro fuel out hout
  obtain ⟨st1, _, hP, hwf1, _, hsame, hbook, hT, _, _, _⟩ := processOrder_invariant
    (fun st => (ConsInv (m.book o.Symbol) st ∧ PriceInv (m.book o.Symbol) st) ∧
      BestFirstInv st)
    (stepInvariant_and (stepInvariant_and (consInv_step _ hwf) (priceInv_step _))
      bestFirst_step)
    hwf ⟨⟨consInv_init _ _, priceInv_init _ _⟩, by simp [BestFirstInv]⟩ hout
  obtain ⟨⟨⟨_, hcons, hgone⟩, ⟨_, hprice⟩⟩, ⟨hpw, hlev⟩⟩ := hP
  have hside : st1.order.Side = o.Side := by
    have := sameButQty_Side hsame
    simpa using this
  rw [hside] at hpw hlev
  rw [hT]
  refine ⟨?_, ?_, ?_⟩
  · intro hb
    refine hpw.imp ?_
    intro p q hpq
    simpa [better, hb, Side.opposite] using hpq
  · intro hs
    refine hpw.imp ?_
    intro p q hpq
    simpa [better, hs, Side.opposite] using hpq
  · intro T1 t T2 hsplit k hbk
    have htm : t ∈ st1.Trades := by rw [hsplit]; simp
    have hopp : (out.matcher.book o.Symbol).side o.Side.opposite =
        st1.ob.side o.Side.opposite := by
      rw [hbook, ← hside]
      exact restTaker_oppositeSide st1
    have hnot : k ∉ (st1.ob.side o.Side.opposite).sorted := by
      intro hk
      have hk1 : k ∈ st1.oppositeSide.sorted := by
        show k ∈ (st1.ob.side st1.order.Side.opposite).sorted
        rw [hside]; exact hk
      exact hlev t htm k hk1 hbk
    have hnone : (st1.ob.side o.Side.opposite).levels k = none := by
      cases hL : (st1.ob.side o.Side.opposite).levels k with
      | none => rfl
      | some L =>
        exact absurd (((hwf1 _).keys k).2 (by rw [hL]; rfl)) hnot
    rw [hopp]
    refine ⟨hnone, hnot, ?_⟩
    intro a ha
    obtain ⟨La, hLa, haLa⟩ := ha
    have hpa : ((m.book o.Symbol).heap a).Price = k :=
      ((hwf _).order k La a hLa haLa).2.1
    -- the order is gone, so it is filled, so the trades that name it sum to its quantity
    have hz : (st1.ob.heap a).RemainingQty = 0 := by
      rcases hgone _ k a ⟨La, hLa, haLa⟩ with ⟨L1, hL1, _⟩ | e
      · rw [hnone] at hL1; cases hL1
      · exact e
    have hsum := hcons _ k a ⟨La, hLa, haLa⟩
    rw [hz, hsplit, makerQty_split] at hsum
    -- the trades from `t` on do not name it
    have hzero : makerQty (t :: T2) ((m.book o.Symbol).heap a).ID = 0 := by
      apply makerQty_of_not_named
      intro t1 ht1 hid
      have ht1m : t1 ∈ st1.Trades := by
        rw [hsplit]; exact List.mem_append.mpr (Or.inr ht1)
      obtain ⟨_, k1, a1, ⟨L1, hL1, ha1⟩, hmk, hpr⟩ := hprice t1 ht1m
      have ha : a1 = a := by
        by_contra hne
        exact wf_id_ne hwf hLa haLa hL1 ha1 hne (hmk.symm.trans hid)
      subst ha
      rw [hpa] at hpr
      rcases List.mem_cons.mp ht1 with e | e
      · rw [e] at hpr
        rw [hpr] at hbk
        exact better_irrefl _ _ hbk
      · rw [hsplit, List.map_append, List.pairwise_append] at hpw
        have h2 := hpw.2.1
        rw [List.map_cons, List.pairwise_cons] at h2
        have := h2.1 t1.Price (List.mem_map_of_mem _ e)
        rw [hpr] at this
        exact this hbk
    rw [hzero] at hsum
    linarith

theorem matcherWF_twoBidLevels : MatcherWF twoBidLevels :=
  submit_wf matcherWF_oneBid _
    (freshId_of_next matcherWF_oneBid 1 (by decide!) (by decide!)) (by decide!)

theorem matcherWF_twoBidsOneLevel : MatcherWF twoBidsOneLevel :=
  submit_wf matcherWF_oneBid _
    (freshId_of_next matcherWF_oneBid 1 (by decide!) (by decide!)) (by decide!)

/-- Witness for `best_price_first`: a sell of 3 at 99 sweeps the bids at 100 and 99. -/
theorem best_price_first_witness :
    WF (twoBidLevels.book sellSweep.Symbol) ∧
      ∃ fuel out, twoBidLevels.ProcessOrder fuel RangeOrder.insertion sellSweep = some out ∧
        (out.result.Trades.map (fun t => t.Price)).Pairwise (· ≥ ·) := by
  have hwf := matcherWF_book matcherWF_twoBidLevels sellSweep.Symbol
  have h := best_price_first twoBidLevels RangeOrder.insertion sellSweep hwf
  obtain ⟨out, hout⟩ := h.1
  exact ⟨hwf, _, out, hout, (h.2 _ out hout).2.1 rfl⟩

/-! ## Time priority within a level -/

theorem mem_pre_of_decomp {pre rest l1 l2 : List Ptr} {A B : Ptr}
    (hnd : (l1 ++ A :: l2).Nodup) (h : pre ++ B :: rest = l1 ++ A :: l2) (hB : B ∈ l2) :
    A ∈ pre := by
  have hAB : A ≠ B := by
    intro e
    subst e
    have := (List.nodup_append.mp hnd).2.1
    exact (List.nodup_cons.mp this).1 hB
  have hBl1 : B ∉ l1 := by
    intro hb
    exact (List.nodup_append.mp hnd).2.2 hb (List.mem_cons_of_mem _ hB)
  rcases List.append_eq_append_iff.mp h with ⟨a1, h1, h2⟩ | ⟨c1, h1, h2⟩
  · cases a1 with
    | nil =>
      simp only [List.nil_append, List.cons.injEq] at h2
      exact absurd h2.1.symm hAB
    | cons x xs =>
      simp only [List.cons_append, List.cons.injEq] at h2
      exfalso
      apply hBl1
      rw [h1, ← h2.1]
      simp
  · cases c1 with
    | nil =>
      simp only [List.nil_append, List.cons.injEq] at h2
      exact absurd h2.1 hAB
    | cons x xs =>
      simp only [List.cons_append, List.cons.injEq] at h2
      rw [h1, ← h2.1]
      simp

theorem split_snoc {T T1 T2 : List Trade} {tn t : Trade} (h : T ++ [tn] = T1 ++ t :: T2) :
    (T1 = T ∧ t = tn ∧ T2 = []) ∨ ∃ T3, T = T1 ++ t :: T3 ∧ T2 = T3 ++ [tn] := by
  rcases List.append_eq_append_iff.mp h with ⟨a1, h1, h2⟩ | ⟨c1, h1, h2⟩
  · cases a1 with
    | nil =>
      simp only [List.nil_append, List.cons.injEq] at h2
      left
      exact ⟨by simpa using h1, h2.1.symm, h2.2.symm⟩
    | cons x xs =>
      simp only [List.cons_append, List.cons.injEq] at h2
      have := h2.2
      cases xs <;> simp at this
  · cases c1 with
    | nil =>
      simp only [List.nil_append, List.cons.injEq] at h2
      left
      exact ⟨by simpa using h1.symm, h2.1, h2.2⟩
    | cons x xs =>
      simp only [List.cons_append, List.cons.injEq] at h2
      right
      exact ⟨xs, by rw [h1, h2.1], h2.2⟩

/-- An order that is unlinked and filled stays so through a step. -/
theorem gone_after_step {st : MatchState} {k : Decimal} {L : PriceLevel} {a : Ptr}
    {rest : List Ptr} (hwf : WF st.ob) (hpre : StepPre st k L a rest) {s : Side}
    {k1 : Decimal} {A : Ptr} (hA : ¬ Resting st.ob s k1 A)
    (hz : (st.ob.heap A).RemainingQty = 0) :
    ¬ Resting (matchStep st k a).ob s k1 A ∧
      ((matchStep st k a).ob.heap A).RemainingQty = 0 := by
  obtain ⟨_, _, _, hpos, _, _⟩ := stepPre_maker hwf hpre
  refine ⟨fun h => hA (resting_of_shrinks (matchStep_shrinks st k a) h), ?_⟩
  have hne : A ≠ a := by
    intro e
    subst e
    rw [hz] at hpos
    exact lt_irrefl _ hpos
  rw [matchStep_heap, Function.update_noteq hne]
  exact hz

theorem fifo_step (ob0 : Orderbook) (hwf0 : WF ob0) :
    StepInvariant (fun st => ConsInv ob0 st ∧ FifoInv ob0 st ∧ PriorityInv ob0 st) := by
  intro st k L a rest hwf hP hpre
  obtain ⟨hcons, hfifo, hprio⟩ := hP
  have hsh := hcons.1
  obtain ⟨_, hp, _, hpos, _, _⟩ := stepPre_maker hwf hpre
  have hq : st.oppositeSide.queue k = a :: rest := by
    rw [queue_of_level hpre.level, hpre.front]
  have hrest : Resting st.ob st.order.Side.opposite k a :=
    ⟨L, hpre.level, by rw [hpre.front]; simp⟩
  obtain ⟨La, hLa, haLa⟩ := resting_of_shrinks hsh hrest
  have hfifo1 : FifoInv ob0 (matchStep st k a) := by
    intro k1 L0 hL0
    have hL0' : (ob0.side st.order.Side.opposite).levels k1 = some L0 := hL0
    obtain ⟨pre, hdec, hgone⟩ := hfifo k1 L0 hL0'
    rw [matchStep_queue hwf hpre]
    by_cases hk : k1 = k
    · subst hk
      rw [if_pos rfl]
      rw [hq] at hdec
      by_cases hfill : (st.filledMaker a).IsFilled = true
      · refine ⟨pre ++ [a], by simp [hfill, hdec], ?_⟩
        intro A hA
        rcases List.mem_append.mp hA with hA | hA
        · exact gone_after_step hwf hpre (hgone A hA).1 (hgone A hA).2
        · simp only [List.mem_singleton] at hA
          subst hA
          constructor
          · rintro ⟨L1, hL1, hAL1⟩
            have hL1' : ((matchStep st k1 A).ob.side st.order.Side.opposite).levels k1 =
                some L1 := hL1
            rw [matchStep_levels hwf hpre, if_pos rfl] at hL1'
            unfold MatchState.levelAfter at hL1'
            have hnd := ((hwf _).level k1 L hpre.level).2.2.1
            rw [hpre.front] at hnd
            by_cases hr : rest = []
            · simp [hfill, hr] at hL1'
            · simp only [hfill, hr, if_true, if_false, Option.some.injEq] at hL1'
              subst hL1'
              exact (List.nodup_cons.mp hnd).1 hAL1
          · rw [matchStep_heap, Function.update_same]
            exact (isFilled_iff _).1 hfill
      · refine ⟨pre, by simp [hfill, hdec], ?_⟩
        intro A hA
        exact gone_after_step hwf hpre (hgone A hA).1 (hgone A hA).2
    · rw [if_neg hk]
      exact ⟨pre, hdec, fun A hA => gone_after_step hwf hpre (hgone A hA).1 (hgone A hA).2⟩
  refine ⟨consInv_step ob0 hwf0 st k L a rest hwf hcons hpre, hfifo1, ?_⟩
  intro T1 t T2 hsplit k1 L0 l1 A l2 B hL0 hord hB hname
  have hL0' : (ob0.side st.order.Side.opposite).levels k1 = some L0 := hL0
  rw [matchStep_Trades] at hsplit
  rcases split_snoc hsplit with ⟨e1, e2, _⟩ | ⟨T3, e1, _⟩
  · -- the new trade: it names the front maker `a`
    subst e1 e2
    have hBL0 : B ∈ L0.Orders := by rw [hord]; simp [hB]
    have hBa : B = a := by
      by_contra hne
      have hid : (st.tradeOf a).MakerOrderID = (ob0.heap a).ID := shrinks_ID hsh a
      exact wf_id_ne hwf0 hLa haLa hL0' hBL0 hne (hname.symm.trans hid)
    subst hBa
    have hk : k1 = k := by
      have h1 := ((hwf0 _).order k1 L0 B hL0' hBL0).2.1
      have h2 := ((hwf0 _).order k La B hLa haLa).2.1
      exact h1.symm.trans h2
    subst hk
    obtain ⟨pre, hdec, hgone⟩ := hfifo k1 L0 hL0'
    rw [hq, hord] at hdec
    have hnd : (l1 ++ A :: l2).Nodup := by
      rw [← hord]
      exact ((hwf0 _).level k1 L0 hL0').2.2.1
    have hApre : A ∈ pre := mem_pre_of_decomp hnd hdec.symm hB
    obtain ⟨hAn, hAz⟩ := hgone A hApre
    have hAL0 : A ∈ L0.Orders := by rw [hord]; simp
    have hc := hcons.2.1 _ k1 A ⟨L0, hL0', hAL0⟩
    rw [hAz] at hc
    obtain ⟨g1, g2⟩ := gone_after_step hwf hpre hAn hAz
    exact ⟨by linarith, g2, g1⟩
  · obtain ⟨h1, h2, h3⟩ := hprio T1 t T3 e1 k1 L0 l1 A l2 B hL0' hord hB hname
    obtain ⟨g1, g2⟩ := gone_after_step hwf hpre h3 h2
    exact ⟨h1, g2, g1⟩

theorem restTaker_resting_inv (st : MatchState) {s : Side} {k : Decimal} {a : Ptr}
    (h : Resting (restTaker st).ob s k a) : Resting st.ob s k a ∨ a = st.ob.next := by
  rw [restTaker_ob] at h
  split at h
  · rcases Resting_AddOrder _ _ _ _ _ h with e | ⟨_, _, e⟩
    · exact Or.inl e
    · exact Or.inr e
  · exact Or.inl h

theorem fifoInv_init (ob : Orderbook) (o : Order) :
    FifoInv ob ⟨ob, o, [], [], [], []⟩ := by
  intro k L0 hL0
  refine ⟨[], ?_, by simp⟩
  have hq : (ob.side o.Side.opposite).queue k = L0.Orders := queue_of_level hL0
  simp only [List.nil_append]
  exact hq.symm

theorem priorityInv_init (ob : Orderbook) (o : Order) :
    PriorityInv ob ⟨ob, o, [], [], [], []⟩ := by
  intro T1 t T2 h
  simp at h

/-- C7: on a well-formed book `ProcessOrder` returns, and if `A` is queued before
`B` in one level of a side, then for every returned trade that names `B` as maker:
the trades executed before it have filled `A` completely, `A` has remaining
quantity zero after the call, and `A` is no longer queued anywhere in the book. -/
theorem price_time_priority (m : Matcher) (ro : RangeOrder) (o : Order)
    (hwf : WF (m.book o.Symbol)) :
    (∃ out, m.ProcessOrder (((m.book o.Symbol).side o.Side.opposite).count + 2) ro o
        = some out) ∧
      ∀ fuel out, m.ProcessOrder fuel ro o = some out →
        ∀ s k L0 l1 A l2 B, ((m.book o.Symbol).side s).levels k = some L0 →
          L0.Orders = l1 ++ A :: l2 → B ∈ l2 →
          ∀ T1 t T2, out.result.Trades = T1 ++ t :: T2 →
            t.MakerOrderID = ((m.book o.Symbol).heap B).ID →
            makerQty T1 ((m.book o.Symbol).heap A).ID =
                ((m.book o.Symbol).heap A).RemainingQty ∧
              ((out.matcher.book o.Symbol).heap A).RemainingQty = 0 ∧
              ∀ s1 k1, ¬ Resting (out.matcher.book o.Symbol) s1 k1 A := by
  refine ⟨processOrder_terminates ro m o hwf _ (le_refl _), ?_⟩
  intro fuel out hout
  obtain ⟨st1, _, hP, _, _, hsame, hbook, hT, _, _, _⟩ := processOrder_invariant
    (fun st => (ConsInv (m.book o.Symbol) st ∧ FifoInv (m.book o.Symbol) st ∧
      PriorityInv (m.book o.Symbol) st) ∧ PriceInv (m.book o.Symbol) st)
    (stepInvariant_and (fifo_step _ hwf) (priceInv_step _))
    hwf ⟨⟨consInv_init _ _, fifoInv_init _ _, priorityInv_init _ _⟩, priceInv_init _ _⟩ hout
  obtain ⟨⟨hcons, _, hprio⟩, ⟨_, hprice⟩⟩ := hP
  have hsh := hcons.1
  have hside : st1.order.Side = o.Side := by
    have := sameButQty_Side hsame
    simpa using this
  intro s k L0 l1 A l2 B hL0 hord hB T1 t T2 hsplit hname
  have hAL0 : A ∈ L0.Orders := by rw [hord]; simp
  have hBL0 : B ∈ L0.Orders := by rw [hord]; simp [hB]
  -- the trade names a maker of the opposite side, which is `B`
  have htm : t ∈ st1.Trades := by rw [← hT, hsplit]; simp
  obtain ⟨_, k1, a1, ⟨L1, hL1, ha1⟩, hmk, _⟩ := hprice t htm
  have ha : a1 = B := by
    by_contra hne
    exact wf_id_ne hwf hL0 hBL0 hL1 ha1 hne (hmk.symm.trans hname)
  subst ha
  have hs : s = st1.order.Side.opposite := by
    have h1 := ((hwf _).order k L0 a1 hL0 hBL0).2.2.1
    have h2 := ((hwf _).order k1 L1 a1 hL1 ha1).2.2.1
    exact h1.symm.trans h2
  subst hs
  rw [hT] at hsplit
  obtain ⟨g1, g2, g3⟩ := hprio T1 t T2 hsplit k L0 l1 A l2 a1 hL0 hord hB hname
  have halloc : A < st1.ob.next := by
    rw [hsh.1]
    exact ((hwf _).order k L0 A hL0 hAL0).1
  rw [hbook]
  refine ⟨g1, by rw [restTaker_heap st1 A halloc]; exact g2, ?_⟩
  intro s1 k2 hr
  rcases restTaker_resting_inv st1 hr with e | e
  · obtain ⟨L2, hL2, hA2⟩ := resting_of_shrinks hsh e
    have h1 := (hwf _).order k L0 A hL0 hAL0
    have h2 := (hwf _).order k2 L2 A hL2 hA2
    have es : s1 = st1.order.Side.opposite := h2.2.2.1.symm.trans h1.2.2.1
    have ek : k2 = k := h2.2.1.symm.trans h1.2.1
    subst es ek
    exact g3 e
  · exact absurd e (Nat.ne_of_lt halloc)

/-- Witness for `price_time_priority`: two bids queued at 100, O1 of 2 before O5 of 1,
and a sell of 3 at 99 that trades against both. -/
theorem price_time_priority_witness :
    WF (twoBidsOneLevel.book sellSweep.Symbol) ∧
      ∃ fuel out, twoBidsOneLevel.ProcessOrder fuel RangeOrder.insertion sellSweep
          = some out ∧
        ∀ T1 t T2, out.result.Trades = T1 ++ t :: T2 → t.MakerOrderID = "O5" →
          makerQty T1 "O1" = 2 ∧
            ((out.matcher.book sellSweep.Symbol).heap 0).RemainingQty = 0 := by
  have hwf := matcherWF_book matcherWF_twoBidsOneLevel sellSweep.Symbol
  have h := price_time_priority twoBidsOneLevel RangeOrder.insertion sellSweep hwf
  obtain ⟨out, hout⟩ := h.1
  refine ⟨hwf, _, out, hout, ?_⟩
  intro T1 t T2 hsplit hname
  have hL : ((twoBidsOneLevel.book sellSweep.Symbol).side Side.Buy).levels 100 =
      some ((((twoBidsOneLevel.book sellSweep.Symbol).side Side.Buy).levels 100).getD
        (NewPriceLevel 0)) := by
    have : (((twoBidsOneLevel.book sellSweep.Symbol).side Side.Buy).levels 100).isSome = true := by
      decide!
    cases hX : ((twoBidsOneLevel.book sellSweep.Symbol).side Side.Buy).levels 100 with
    | none => rw [hX] at this; cases this
    | some L => rfl
  have hO : ((((twoBidsOneLevel.book sellSweep.Symbol).side Side.Buy).levels 100).getD
        (NewPriceLevel 0)).Orders = [] ++ 0 :: [1] := by
    decide!
  have hid : ((twoBidsOneLevel.book sellSweep.Symbol).heap 1).ID = "O5" := by decide!
  have hidA : ((twoBidsOneLevel.book sellSweep.Symbol).heap 0).ID = "O1" := by decide!
  have hremA : ((twoBidsOneLevel.book sellSweep.Symbol).heap 0).RemainingQty = 2 := by decide!
  have := h.2 _ out hout Side.Buy 100 _ [] 0 [1] 1 hL hO (by simp) T1 t T2 hsplit
    (by rw [hid]; exact hname)
  rw [hidA, hremA] at this
  exact ⟨this.1, this.2.1⟩

/-! ## Delta faithfulness -/

theorem deltaKeys_deltaSet (m : List (Decimal × Decimal)) (k v : Decimal) :
    deltaKeys (deltaSet m k v) = if k ∈ deltaKeys m then deltaKeys m else deltaKeys m ++ [k] := by
  induction m with
  | nil => simp [deltaSet, deltaKeys]
  | cons x xs ih =>
    obtain ⟨k1, v1⟩ := x
    unfold deltaSet
    by_cases h : k1 = k
    · subst h
      simp [deltaKeys]
    · have hne : ¬ k = k1 := fun e => h e.symm
      simp only [h, if_false]
      simp only [deltaKeys, List.map_cons, List.mem_cons, hne, false_or] at ih ⊢
      rw [ih]
      split <;> simp

theorem deltaKeys_deltaSet_nodup (m : List (Decimal × Decimal)) (k v : Decimal)
    (h : (deltaKeys m).Nodup) : (deltaKeys (deltaSet m k v)).Nodup := by
  rw [deltaKeys_deltaSet]
  split
  · exact h
  · rename_i hk
    refine List.Nodup.append h (List.nodup_singleton _) ?_
    intro x hx hx1
    simp only [List.mem_singleton] at hx1
    exact hk (hx1 ▸ hx)

theorem mem_deltaKeys_deltaSet (m : List (Decimal × Decimal)) (k v p : Decimal) :
    p ∈ deltaKeys (deltaSet m k v) ↔ p = k ∨ p ∈ deltaKeys m := by
  rw [deltaKeys_deltaSet]
  split
  · rename_i hk
    constructor
    · exact fun h => Or.inr h
    · rintro (e | e)
      · rw [e]; exact hk
      · exact e
  · simp only [List.mem_append, List.mem_singleton]
    exact Or.comm

theorem matchStep_oppDeltas (st : MatchState) (key : Decimal) (a : Ptr) :
    (matchStep st key a).oppDeltas =
      deltaSet st.oppDeltas (st.ob.heap a).Price
        (deltaGet st.oppDeltas (st.ob.heap a).Price - st.tradeQty a) := by
  unfold MatchState.oppDeltas
  rw [matchStep_order_Side, matchStep_askDeltas, matchStep_bidDeltas]
  split <;> rfl

theorem matchStep_ownDeltas (st : MatchState) (key : Decimal) (a : Ptr) :
    (matchStep st key a).ownDeltas = st.ownDeltas := by
  unfold MatchState.ownDeltas
  rw [matchStep_order_Side, matchStep_askDeltas, matchStep_bidDeltas]
  split <;> rfl

theorem side_ne_opposite (s : Side) : s ≠ s.opposite := by
  cases s <;> simp [Side.opposite]

theorem deltaInv_step (ob0 : Orderbook) : StepInvariant (DeltaInv ob0) := by
  intro st k L a rest hwf hP hpre
  obtain ⟨hown, hnd, hside, hlev⟩ := hP
  obtain ⟨_, hp, _, _, _, _⟩ := stepPre_maker hwf hpre
  refine ⟨?_, ?_, ?_, ?_⟩
  · rw [matchStep_ownDeltas]; exact hown
  · rw [matchStep_oppDeltas]; exact deltaKeys_deltaSet_nodup _ _ _ hnd
  · show (matchStep st k a).ob.side st.order.Side = ob0.side st.order.Side
    rw [matchStep_ownSide hwf hpre _ (side_ne_opposite _)]
    exact hside
  · intro p hpn
    rw [matchStep_oppDeltas, mem_deltaKeys_deltaSet, hp] at hpn
    have hpk : p ≠ k := fun e => hpn (Or.inl e)
    have hpm : p ∉ deltaKeys st.oppDeltas := fun e => hpn (Or.inr e)
    rw [matchStep_oppositeSide, matchStep_levels hwf hpre, if_neg hpk]
    exact hlev p hpm

theorem deltaInv_init (ob : Orderbook) (o : Order) :
    DeltaInv ob ⟨ob, o, [], [], [], []⟩ := by
  refine ⟨?_, ?_, rfl, fun _ _ => rfl⟩
  · simp [MatchState.ownDeltas]
  · simp [MatchState.oppDeltas, deltaKeys]

theorem wf_volume_pos {ob : Orderbook} (hwf : WF ob) {s : Side} {k : Decimal}
    {L : PriceLevel} (hL : (ob.side s).levels k = some L) : 0 < L.Volume := by
  obtain ⟨_, hne, _, hvol⟩ := (hwf s).level k L hL
  have hpos : 0 < levelSum ob.heap L := by
    unfold levelSum
    apply List.sum_pos
    · intro x hx
      obtain ⟨a, ha, rfl⟩ := List.mem_map.mp hx
      exact ((hwf s).order k L a hL ha).2.2.2.1
    · simpa using hne
  linarith

theorem restTaker_volume_pos (st : MatchState) (hwf : WF st.ob)
    (h0 : 0 ≤ st.order.RemainingQty) {s : Side} {k : Decimal} {L : PriceLevel}
    (hL : ((restTaker st).ob.side s).levels k = some L) : 0 < L.Volume := by
  rw [restTaker_ob] at hL
  split at hL
  · rename_i hc
    have hpos : 0 < st.order.RemainingQty :=
      lt_of_le_of_ne h0 (Ne.symm ((isFilled_false_iff _).1 hc.1))
    rw [orderbook_addOrder_levels] at hL
    split at hL
    · simp only [Option.some.injEq] at hL
      subst hL
      simp only [PriceLevel.AddOrder, Function.update_same]
      cases hX : (st.ob.side s).levels k with
      | none => simpa [NewPriceLevel] using hpos
      | some L0 =>
        have := wf_volume_pos hwf hX
        simp only [Option.getD_some]
        linarith
    · exact wf_volume_pos hwf hL
  · exact wf_volume_pos hwf hL

theorem restTaker_oppDeltas (st : MatchState) : (restTaker st).oppDeltas = st.oppDeltas := by
  unfold MatchState.oppDeltas
  rw [restTaker_order]
  unfold restTaker
  by_cases h1 : st.order.IsFilled = true
  · simp [h1]
  · by_cases h2 : st.order.Typ = OrderType.Limit
    · by_cases h3 : st.order.Side = Side.Buy
      · simp [h1, h2, h3]
      · simp [h1, h2, h3]
    · simp [h1, h2]

theorem restTaker_ownDeltas (st : MatchState) :
    (restTaker st).ownDeltas =
      if st.order.IsFilled = false ∧ st.order.Typ = OrderType.Limit then
        deltaSet st.ownDeltas st.order.Price
          (deltaGet st.ownDeltas st.order.Price + st.order.RemainingQty)
      else st.ownDeltas := by
  unfold MatchState.ownDeltas
  rw [restTaker_order]
  unfold restTaker
  by_cases h1 : st.order.IsFilled = true
  · simp [h1]
  · by_cases h2 : st.order.Typ = OrderType.Limit
    · by_cases h3 : st.order.Side = Side.Buy
      · simp [h1, h2, h3]
      · simp [h1, h2, h3]
    · simp [h1, h2]

theorem mem_deltaEntries (bs : BookSide) (keys : List Decimal) (p v : Decimal) :
    (p, v) ∈ deltaEntries bs keys ↔
      p ∈ keys ∧ v = (match bs.levels p with | some L => L.Volume | none => 0) := by
  unfold deltaEntries BookSide.GetLevel
  rw [List.mem_map]
  constructor
  · rintro ⟨x, hx, he⟩
    cases hL : bs.levels x with
    | none =>
      rw [hL] at he
      simp only [Prod.mk.injEq] at he
      obtain ⟨e1, e2⟩ := he
      subst e1
      exact ⟨hx, by rw [hL]; exact e2.symm⟩
    | some L =>
      rw [hL] at he
      simp only [Prod.mk.injEq] at he
      obtain ⟨e1, e2⟩ := he
      subst e1
      exact ⟨hx, by rw [hL]; exact e2.symm⟩
  · rintro ⟨hp, hv⟩
    refine ⟨p, hp, ?_⟩
    cases hL : bs.levels p with
    | none => rw [hL] at hv; simp [hv]
    | some L => rw [hL] at hv; simp [hv]

theorem deltaEntries_keys (bs : BookSide) (keys : List Decimal) :
    (deltaEntries bs keys).map Prod.fst = keys := by
  unfold deltaEntries
  rw [List.map_map]
  conv_rhs => rw [← List.map_id keys]
  apply List.map_congr_left
  intro x _
  simp only [Function.comp]
  cases bs.GetLevel x <;> rfl

theorem buildDelta_side (ro : RangeOrder) (st : MatchState) (s : Side) :
    (buildDelta ro st).side s =
      deltaEntries (st.ob.side s) (ro.side s (st.deltaKeysOf s)) := by
  cases s <;> rfl

theorem deltaKeysOf_eq (st : MatchState) (s : Side) :
    st.deltaKeysOf s =
      if s = st.order.Side then deltaKeys st.ownDeltas else deltaKeys st.oppDeltas := by
  unfold MatchState.deltaKeysOf MatchState.ownDeltas MatchState.oppDeltas
  cases s <;> cases st.order.Side <;> simp

theorem rangeOrder_perm {ro : RangeOrder} (h : ro.Fair) (s : Side) (l : List Decimal) :
    (ro.side s l).Perm l := by
  unfold RangeOrder.side
  cases s
  · exact h.1 l
  · exact h.2 l

theorem side_eq_opposite_of_ne {s s1 : Side} (h : s ≠ s1) : s = s1.opposite := by
  cases s <;> cases s1 <;> simp_all [Side.opposite]

/-- C10 (amended): on a well-formed book, for a taker with non-negative remaining
quantity and any `range` order that visits every key once, `ProcessOrder` returns and, for
either side and every price `p`: the delta mentions no price twice on that side; if
it mentions `p` with volume `v`, then either there is no level at `p` after the call
and `v` is "0", or there is one, `v` is its `Volume` and is not "0"; and if it
does not mention `p`, the level at `p` is after the call what it was before. -/
theorem delta_faithfulness (m : Matcher) (ro : RangeOrder) (o : Order)
    (hwf : WF (m.book o.Symbol)) (h0 : 0 ≤ o.RemainingQty) (hro : ro.Fair) :
    (∃ out, m.ProcessOrder (((m.book o.Symbol).side o.Side.opposite).count + 2) ro o
        = some out) ∧
      ∀ fuel out, m.ProcessOrder fuel ro o = some out →
        ∀ s p,
          ((out.result.OrderbookDelta.side s).map Prod.fst).Nodup ∧
          (∀ v, (p, v) ∈ out.result.OrderbookDelta.side s →
            (((out.matcher.book o.Symbol).side s).levels p = none ∧ v = 0) ∨
            ∃ L, ((out.matcher.book o.Symbol).side s).levels p = some L ∧
              v = L.Volume ∧ v ≠ 0) ∧
          (p ∉ (out.result.OrderbookDelta.side s).map Prod.fst →
            ((out.matcher.book o.Symbol).side s).levels p =
              ((m.book o.Symbol).side s).levels p) := by
  refine ⟨processOrder_terminates ro m o hwf _ (le_refl _), ?_⟩
  intro fuel out hout
  obtain ⟨st1, _, hP, hwf1, _, _, hbook, _, _, hdelta, _⟩ := processOrder_invariant
    (fun st => DeltaInv (m.book o.Symbol) st ∧ 0 ≤ st.order.RemainingQty)
    (stepInvariant_and (deltaInv_step _) taker_nonneg_step)
    hwf ⟨deltaInv_init _ _, by simpa using h0⟩ hout
  obtain ⟨⟨hown, hnd, hside, hlev⟩, hnn⟩ := hP
  intro s p
  rw [hdelta, hbook, buildDelta_side, deltaEntries_keys]
  have hperm := rangeOrder_perm hro s ((restTaker st1).deltaKeysOf s)
  -- the keys of side `s`, and the levels off those keys
  have hkeys : ((restTaker st1).deltaKeysOf s).Nodup ∧
      (p ∉ (restTaker st1).deltaKeysOf s →
        ((restTaker st1).ob.side s).levels p = ((m.book o.Symbol).side s).levels p) := by
    rw [deltaKeysOf_eq, restTaker_order]
    by_cases hs : s = st1.order.Side
    · subst hs
      rw [if_pos rfl, restTaker_ownDeltas, hown, restTaker_ob]
      split
      · refine ⟨by simp [deltaSet, deltaKeys], ?_⟩
        intro hp
        have hpne : p ≠ st1.order.Price := by
          intro e
          apply hp
          simp [deltaSet, deltaKeys, e]
        rw [orderbook_addOrder_levels, if_neg (fun hc => hpne hc.2), hside]
      · refine ⟨by simp [deltaKeys], ?_⟩
        intro _
        rw [hside]
    · rw [if_neg hs, restTaker_oppDeltas]
      have hso := side_eq_opposite_of_ne hs
      subst hso
      refine ⟨hnd, ?_⟩
      intro hp
      rw [restTaker_oppositeSide]
      exact hlev p hp
  refine ⟨(hperm.nodup_iff).2 hkeys.1, ?_, ?_⟩
  · intro v hv
    rw [mem_deltaEntries] at hv
    obtain ⟨_, hv⟩ := hv
    cases hL : ((restTaker st1).ob.side s).levels p with
    | none =>
      rw [hL] at hv
      exact Or.inl ⟨rfl, hv⟩
    | some L =>
      rw [hL] at hv
      right
      refine ⟨L, rfl, hv, ?_⟩
      rw [hv]
      exact ne_of_gt (restTaker_volume_pos st1 hwf1 hnn hL)
  · intro hp
    exact hkeys.2 (fun e => hp (hperm.mem_iff.2 e))

/-- Witness for `delta_faithfulness`: an ask of 1 at 100 trades against the bid of 2
at 100; the delta reports the bid level with its new volume 1. -/
theorem delta_faithfulness_witness :
    WF (oneBid.book askO2.Symbol) ∧ 0 ≤ askO2.RemainingQty ∧ RangeOrder.insertion.Fair ∧
      ∃ fuel out, oneBid.ProcessOrder fuel RangeOrder.insertion askO2 = some out ∧
        ∀ v, (100, v) ∈ out.result.OrderbookDelta.side Side.Buy →
          (((out.matcher.book askO2.Symbol).side Side.Buy).levels 100 = none ∧ v = 0) ∨
          ∃ L, ((out.matcher.book askO2.Symbol).side Side.Buy).levels 100 = some L ∧
            v = L.Volume ∧ v ≠ 0 := by
  have hwf := matcherWF_book matcherWF_oneBid askO2.Symbol
  have hfair : RangeOrder.insertion.Fair :=
    ⟨fun l => List.Perm.refl l, fun l => List.Perm.refl l⟩
  have h := delta_faithfulness oneBid RangeOrder.insertion askO2 hwf (by decide!) hfair
  obtain ⟨out, hout⟩ := h.1
  exact ⟨hwf, by decide!, hfair, _, out, hout, (h.2 _ out hout Side.Buy 100).2.1⟩

/-! ## Small contracts -/

/-- C20: for an order with `0 ≤ RemainingQty ≤ Quantity` and `qty ≥ 0`, `Fill(qty)`
returns `min(qty, RemainingQty)`, lowers `RemainingQty` by exactly that amount,
changes no other field, and keeps `0 ≤ RemainingQty ≤ Quantity`; `IsFilled()` is
true iff `RemainingQty` is zero. -/
theorem fill_contract (o : Order) (qty : Decimal) (h0 : 0 ≤ o.RemainingQty)
    (h1 : o.RemainingQty ≤ o.Quantity) (hq : 0 ≤ qty) :
    (o.Fill qty).2 = min qty o.RemainingQty ∧
      (o.Fill qty).1 = { o with RemainingQty := o.RemainingQty - (o.Fill qty).2 } ∧
      0 ≤ (o.Fill qty).1.RemainingQty ∧
      (o.Fill qty).1.RemainingQty ≤ (o.Fill qty).1.Quantity ∧
      (o.IsFilled = true ↔ o.RemainingQty = 0) ∧
      ((o.Fill qty).1.IsFilled = true ↔ (o.Fill qty).1.RemainingQty = 0) := by
  have hfill : (o.Fill qty).2 = min qty o.RemainingQty := by
    unfold Order.Fill
    by_cases h : qty > o.RemainingQty
    · simp only [h, if_true]
      exact (min_eq_right (le_of_lt h)).symm
    · simp only [h, if_false]
      exact (min_eq_left (not_lt.mp h)).symm
  have hle : (o.Fill qty).2 ≤ o.RemainingQty := by
    rw [hfill]; exact min_le_right _ _
  have hnn : 0 ≤ (o.Fill qty).2 := by
    rw [hfill]; exact le_min hq h0
  have hrem : (o.Fill qty).1.RemainingQty = o.RemainingQty - (o.Fill qty).2 := rfl
  refine ⟨hfill, rfl, ?_, ?_, isFilled_iff o, isFilled_iff _⟩
  · rw [hrem]; linarith
  · rw [hrem]
    show _ ≤ o.Quantity
    linarith

/-- Witness for `fill_contract`: filling 3 of an order that has 2 of 5 left. -/
theorem fill_contract_witness :
    0 ≤ partlyFilled.RemainingQty ∧ partlyFilled.RemainingQty ≤ partlyFilled.Quantity ∧
      (0 : Decimal) ≤ 3 ∧ (partlyFilled.Fill 3).2 = min 3 partlyFilled.RemainingQty :=
  ⟨by decide!, by decide!, by norm_num,
    (fill_contract partlyFilled 3 (by decide!) (by decide!) (by norm_num)).1⟩

/-- C13: when the matcher has no book for the symbol, or the book's `Orders` index
has no entry for the id, `CancelOrder` returns no order and no delta and the matcher
is exactly what it was. -/
theorem cancel_unknown_is_noop (m : Matcher) (symbol orderID : String)
    (h : ∀ ob, m.orderbooks symbol = some ob → ob.Orders orderID = none) :
    m.CancelOrder symbol orderID = (m, none, none) := by
  unfold Matcher.CancelOrder
  cases hb : m.orderbooks symbol with
  | none => rfl
  | some ob =>
    have hO := h ob hb
    have hr : ob.RemoveOrder orderID = (ob, none) := by
      unfold Orderbook.RemoveOrder
      rw [hO]
    simp only [hr]
    have : Function.update m.orderbooks symbol (some ob) = m.orderbooks := by
      rw [← hb]
      exact Function.update_eq_self _ _
    rw [this]

/-- Witness for `cancel_unknown_is_noop`: cancelling an id that the book with one
bid does not hold. -/
theorem cancel_unknown_is_noop_witness :
    (∀ ob, oneBid.orderbooks "BTCUSDT" = some ob → ob.Orders "ZZ" = none) ∧
      oneBid.CancelOrder "BTCUSDT" "ZZ" = (oneBid, none, none) := by
  have h : ∀ ob, oneBid.orderbooks "BTCUSDT" = some ob → ob.Orders "ZZ" = none := by
    intro ob hob
    have hb : oneBid.book "BTCUSDT" = ob := matcher_book_of_some hob
    rw [← hb]
    decide!
  exact ⟨h, cancel_unknown_is_noop oneBid "BTCUSDT" "ZZ" h⟩

/-- C19 (as stated) fails: with a negative limit the capacity handed to `make` is
negative and `GetLevels` panics, on an empty side and on a side with levels, and so
does `GetDepth`. -/
theorem getLevels_negative_limit_panics :
    (NewBookSide true).GetLevels (-1) = none ∧
      ((oneBid.book "BTCUSDT").Bids.GetLevels (-1) = none) ∧
      (oneBid.book "BTCUSDT").GetDepth (-1) = none ∧
      (oneBid.book "BTCUSDT").Bids.GetLevels 5 = some [(100, 2)] ∧
      (oneBid.book "BTCUSDT").Bids.GetLevels 0 = some [] :=
  ⟨by decide!, by decide!, by decide!, by decide!, by decide!⟩

/-! ## Index soundness through the cross -/

theorem indexSound_step : StepInvariant (fun st => IndexSound st.ob) := by
  intro st k L a rest hwf hI hpre
  obtain ⟨hO, hE⟩ := hI
  obtain ⟨_, hp, hs, _, hel, hidx⟩ := stepPre_maker hwf hpre
  have hL : (st.ob.side st.order.Side.opposite).levels k = some L := hpre.level
  have haL : a ∈ L.Orders := by rw [hpre.front]; simp
  have hid : ∀ b, ((matchStep st k a).ob.heap b).ID = (st.ob.heap b).ID :=
    fun b => shrinks_ID (matchStep_shrinks st k a) b
  have hsd : ∀ b, ((matchStep st k a).ob.heap b).Side = (st.ob.heap b).Side :=
    fun b => sameButQty_Side ((matchStep_shrinks st k a).2.1 b)
  have hpr : ∀ b, ((matchStep st k a).ob.heap b).Price = (st.ob.heap b).Price :=
    fun b => sameButQty_Price ((matchStep_shrinks st k a).2.1 b)
  constructor
  · intro id b hb
    rw [matchStep_Orders hwf hpre] at hb
    rw [hid, hsd, hpr]
    by_cases hfill : (st.filledMaker a).IsFilled = true
    · rw [if_pos hfill] at hb
      have hne : id ≠ (st.ob.heap a).ID := by
        intro e
        rw [e, Function.update_same] at hb
        cases hb
      rw [Function.update_noteq hne] at hb
      obtain ⟨h1, h2⟩ := hO id b hb
      have hba : b ≠ a := by
        intro e
        subst e
        exact hne h1.symm
      exact ⟨h1, resting_after_step hwf hpre h2 (Or.inl hba)⟩
    · rw [if_neg hfill] at hb
      obtain ⟨h1, h2⟩ := hO id b hb
      exact ⟨h1, resting_after_step hwf hpre h2 (Or.inr (by simpa using hfill))⟩
  · intro s k1 L1 id b hL1 hb
    rw [hid]
    by_cases hso : s = st.order.Side.opposite
    · subst hso
      rw [matchStep_levels hwf hpre] at hL1
      by_cases hk : k1 = k
      · subst hk
        rw [if_pos rfl] at hL1
        unfold MatchState.levelAfter at hL1
        by_cases hfill : (st.filledMaker a).IsFilled = true
        · by_cases hr : rest = []
          · simp [hfill, hr] at hL1
          · simp only [hfill, hr, if_true, if_false, Option.some.injEq] at hL1
            subst hL1
            have hne : id ≠ (st.ob.heap a).ID := by
              intro e
              rw [e] at hb
              simp at hb
            have hb1 : L.elements id = some b := by
              simpa [Function.update_noteq hne] using hb
            obtain ⟨h1, h2⟩ := hE _ k1 L id b hL hb1
            refine ⟨h1, ?_⟩
            rw [hpre.front] at h2
            rcases List.mem_cons.mp h2 with e | e
            · subst e
              exact absurd h1.symm hne
            · exact e
        · simp only [hfill, Bool.false_eq_true, if_false, Option.some.injEq] at hL1
          subst hL1
          exact hE _ k1 L id b hL hb
      · rw [if_neg hk] at hL1
        exact hE _ k1 L1 id b hL1 hb
    · rw [matchStep_ownSide hwf hpre s hso] at hL1
      exact hE s k1 L1 id b hL1 hb

theorem resting_addOrder_new (ob : Orderbook) (o : Order) :
    Resting (ob.AddOrder o) o.Side o.Price ob.next := by
  unfold Resting
  rw [orderbook_addOrder_levels, if_pos ⟨rfl, rfl⟩]
  exact ⟨_, rfl, by simp [PriceLevel.AddOrder]⟩

theorem addOrder_indexSound (ob : Orderbook) (o : Order) (hwf : WF ob) (hI : IndexSound ob) :
    IndexSound (ob.AddOrder o) := by
  obtain ⟨hO, hE⟩ := hI
  have halloc : ∀ s k b, Resting ob s k b → b ≠ ob.next := by
    rintro s k b ⟨L, hL, hb⟩
    exact Nat.ne_of_lt ((hwf s).order k L b hL hb).1
  constructor
  · intro id b hb
    rw [addOrder_Orders] at hb
    by_cases hid : id = o.ID
    · subst hid
      rw [Function.update_same] at hb
      cases hb
      rw [addOrder_heap, Function.update_same]
      exact ⟨rfl, resting_addOrder_new ob o⟩
    · rw [Function.update_noteq hid] at hb
      obtain ⟨h1, h2⟩ := hO id b hb
      rw [addOrder_heap, Function.update_noteq (halloc _ _ b h2)]
      exact ⟨h1, resting_addOrder_of_resting ob o h2⟩
  · intro s k L1 id b hL1 hb
    rw [orderbook_addOrder_levels] at hL1
    split at hL1
    · simp only [Option.some.injEq] at hL1
      subst hL1
      simp only [PriceLevel.AddOrder, Function.update_same, List.mem_append,
        List.mem_singleton] at hb ⊢
      by_cases hid : id = o.ID
      · subst hid
        rw [Function.update_same] at hb
        cases hb
        rw [addOrder_heap, Function.update_same]
        exact ⟨rfl, Or.inr rfl⟩
      · rw [Function.update_noteq hid] at hb
        cases hX : (ob.side s).levels k with
        | none => rw [hX] at hb; simp [NewPriceLevel] at hb
        | some L =>
          rw [hX] at hb
          simp only [Option.getD_some] at hb
          simp only [Option.getD_some]
          obtain ⟨h1, h2⟩ := hE s k L id b hX hb
          rw [addOrder_heap, Function.update_noteq (halloc s k b ⟨L, hX, h2⟩)]
          exact ⟨h1, Or.inl h2⟩
    · obtain ⟨h1, h2⟩ := hE s k L1 id b hL1 hb
      rw [addOrder_heap, Function.update_noteq (halloc s k b ⟨L1, hL1, h2⟩)]
      exact ⟨h1, h2⟩

theorem restTaker_indexSound (st : MatchState) (hwf : WF st.ob) (hI : IndexSound st.ob) :
    IndexSound (restTaker st).ob := by
  rw [restTaker_ob]
  split
  · exact addOrder_indexSound _ _ hwf hI
  · exact hI

theorem indexSound_NewOrderbook (symbol : String) : IndexSound (NewOrderbook symbol) := by
  constructor
  · intro id a h
    simp [NewOrderbook] at h
  · intro s k L id a hL
    cases s <;> simp [NewOrderbook, Orderbook.side, NewBookSide] at hL

/-! ## Cancelling from anywhere in a queue -/

theorem bookSide_removeOrder_mem (bs : BookSide) (heap : Ptr → Order) (k : Decimal)
    (id : String) (L : PriceLevel) (a : Ptr)
    (hL : bs.levels k = some L) (hel : L.elements id = some a) :
    (bs.RemoveOrder heap k id).1 =
      if L.Orders.erase a = [] then
        { levels := Function.update bs.levels k none, sorted := bs.sorted.erase k,
          isDescend := bs.isDescend }
      else
        { levels := Function.update bs.levels k (some { L with
            Orders := L.Orders.erase a
            elements := Function.update L.elements id none
            Volume := L.Volume - (heap a).RemainingQty }),
          sorted := bs.sorted, isDescend := bs.isDescend } := by
  unfold BookSide.RemoveOrder PriceLevel.RemoveOrder
  simp only [hL, hel, PriceLevel.IsEmpty, BookSide.removePrice]
  by_cases hr : L.Orders.erase a = []
  · simp [hr]
  · have : (L.Orders.erase a).length ≠ 0 := by
      intro h
      exact hr (List.length_eq_zero.mp h)
    simp [hr, this]

theorem levelSum_erase (heap : Ptr → Order) (l : List Ptr) (a : Ptr) (ha : a ∈ l) :
    ((l.erase a).map (fun b => (heap b).RemainingQty)).sum =
      (l.map (fun b => (heap b).RemainingQty)).sum - (heap a).RemainingQty := by
  have hp := (List.perm_cons_erase ha).map (fun b => (heap b).RemainingQty)
  have hs := hp.sum_eq
  simp only [List.map_cons, List.sum_cons] at hs
  rw [hs]
  ring

theorem pairwise_better_nodup {s : Side} {l : List Decimal} (h : l.Pairwise (better s)) :
    l.Nodup := by
  refine List.Pairwise.imp ?_ h
  intro p q hpq e
  subst e
  exact better_irrefl s p hpq

theorem removeOrder_none (ob : Orderbook) (id : String) (h : ob.Orders id = none) :
    ob.RemoveOrder id = (ob, none) := by
  unfold Orderbook.RemoveOrder
  simp [h]

theorem removeOrder_levels_of_index {ob : Orderbook} (hwf : WF ob) (hI : IndexSound ob)
    {id : String} {a : Ptr} (h : ob.Orders id = some a) :
    ∃ L, (ob.side (ob.heap a).Side).levels (ob.heap a).Price = some L ∧ a ∈ L.Orders ∧
      L.elements id = some a ∧ (ob.heap a).ID = id ∧
      (∀ s, s ≠ (ob.heap a).Side → (ob.RemoveOrder id).1.side s = ob.side s) ∧
      (ob.RemoveOrder id).1.side (ob.heap a).Side =
        if L.Orders.erase a = [] then
          { levels := Function.update (ob.side (ob.heap a).Side).levels (ob.heap a).Price none,
            sorted := (ob.side (ob.heap a).Side).sorted.erase (ob.heap a).Price,
            isDescend := (ob.side (ob.heap a).Side).isDescend }
        else
          { levels := Function.update (ob.side (ob.heap a).Side).levels (ob.heap a).Price
              (some { L with
                Orders := L.Orders.erase a
                elements := Function.update L.elements id none
                Volume := L.Volume - (ob.heap a).RemainingQty }),
            sorted := (ob.side (ob.heap a).Side).sorted,
            isDescend := (ob.side (ob.heap a).Side).isDescend } := by
  obtain ⟨hid, L, hL, haL⟩ := hI.1 id a h
  have hel : L.elements id = some a := by
    have := ((hwf _).order _ L a hL haL).2.2.2.2.1
    rwa [hid] at this
  refine ⟨L, hL, haL, hel, hid, ?_, ?_⟩
  · intro s hs
    rw [removeOrder_of_index ob id a h, if_neg hs]
  · rw [removeOrder_of_index ob id a h, if_pos rfl]
    exact bookSide_removeOrder_mem _ _ _ _ L a hL hel

theorem removeOrder_wf {ob : Orderbook} (hwf : WF ob) (hI : IndexSound ob) (id : String) :
    WF (ob.RemoveOrder id).1 := by
  cases h : ob.Orders id with
  | none => rw [removeOrder_none ob id h]; exact hwf
  | some a =>
    obtain ⟨L, hL, haL, hel, hid, hother, hside⟩ := removeOrder_levels_of_index hwf hI h
    have hOrd := (removeOrder_Orders_of_index ob id a h).1
    have hLw := (hwf _).level _ L hL
    intro s
    by_cases hs : s = (ob.heap a).Side
    · subst hs
      by_cases hr : L.Orders.erase a = []
      · rw [if_pos hr] at hside
        refine ⟨?_, ?_, ?_, ?_, ?_⟩
        · rw [hside]; exact (hwf _).descend
        · rw [hside]; exact ((hwf _).sorted).sublist (List.erase_sublist _ _)
        · intro k
          rw [hside]
          simp only
          rw [(pairwise_better_nodup (hwf _).sorted).mem_erase_iff]
          by_cases hk : k = (ob.heap a).Price
          · subst hk
            simp
          · simp [hk, Function.update_noteq hk, (hwf _).keys k]
        · intro k L1 hL1
          rw [hside] at hL1
          simp only at hL1
          by_cases hk : k = (ob.heap a).Price
          · rw [hk, Function.update_same] at hL1; cases hL1
          · rw [Function.update_noteq hk] at hL1
            simpa [levelSum] using (hwf _).level k L1 hL1
        · intro k L1 b hL1 hb
          rw [hside] at hL1
          simp only at hL1
          by_cases hk : k = (ob.heap a).Price
          · rw [hk, Function.update_same] at hL1; cases hL1
          · rw [Function.update_noteq hk] at hL1
            obtain ⟨h1, h2, h3, h4, h5, h6⟩ := (hwf _).order k L1 b hL1 hb
            have hba : b ≠ a := by
              intro e
              subst e
              exact hk h2.symm
            have hne : (ob.heap b).ID ≠ id := by
              rw [← hid]
              exact wf_id_ne hwf hL haL hL1 hb hba
            simp only [removeOrder_heap, removeOrder_next]
            refine ⟨h1, h2, h3, h4, h5, ?_⟩
            rw [hOrd, Function.update_noteq hne]
            exact h6
      · rw [if_neg hr] at hside
        refine ⟨?_, ?_, ?_, ?_, ?_⟩
        · rw [hside]; exact (hwf _).descend
        · rw [hside]; exact (hwf _).sorted
        · intro k
          rw [hside]
          simp only
          by_cases hk : k = (ob.heap a).Price
          · subst hk
            simp [(hwf _).keys, hL]
          · simp [Function.update_noteq hk, (hwf _).keys k]
        · intro k L1 hL1
          rw [hside] at hL1
          simp only at hL1
          by_cases hk : k = (ob.heap a).Price
          · rw [hk, Function.update_same] at hL1
            simp only [Option.some.injEq] at hL1
            subst hL1
            refine ⟨by rw [hk]; exact hLw.1, hr, hLw.2.2.1.erase a, ?_⟩
            simp only [levelSum, removeOrder_heap]
            rw [levelSum_erase ob.heap L.Orders a haL]
            have := hLw.2.2.2
            simp only [levelSum] at this
            linarith
          · rw [Function.update_noteq hk] at hL1
            simpa [levelSum] using (hwf _).level k L1 hL1
        · intro k L1 b hL1 hb
          rw [hside] at hL1
          simp only at hL1
          simp only [removeOrder_heap, removeOrder_next]
          by_cases hk : k = (ob.heap a).Price
          · rw [hk, Function.update_same] at hL1
            simp only [Option.some.injEq] at hL1
            subst hL1
            simp only at hb ⊢
            have hbL : b ∈ L.Orders := List.mem_of_mem_erase hb
            have hba : b ≠ a := by
              intro e
              subst e
              exact ((hLw.2.2.1.mem_erase_iff).mp hb).1 rfl
            obtain ⟨h1, h2, h3, h4, h5, h6⟩ := (hwf _).order _ L b hL hbL
            have hne : (ob.heap b).ID ≠ id := by
              rw [← hid]
              exact wf_id_ne hwf hL haL hL hbL hba
            refine ⟨h1, by rw [hk]; exact h2, h3, h4, ?_, ?_⟩
            · rw [Function.update_noteq hne]; exact h5
            · rw [hOrd, Function.update_noteq hne]; exact h6
          · rw [Function.update_noteq hk] at hL1
            obtain ⟨h1, h2, h3, h4, h5, h6⟩ := (hwf _).order k L1 b hL1 hb
            have hba : b ≠ a := by
              intro e
              subst e
              exact hk h2.symm
            have hne : (ob.heap b).ID ≠ id := by
              rw [← hid]
              exact wf_id_ne hwf hL haL hL1 hb hba
            refine ⟨h1, h2, h3, h4, h5, ?_⟩
            rw [hOrd, Function.update_noteq hne]
            exact h6
    · have hsd := hother s hs
      refine ⟨?_, ?_, ?_, ?_, ?_⟩
      · rw [hsd]; exact (hwf s).descend
      · rw [hsd]; exact (hwf s).sorted
      · rw [hsd]; exact (hwf s).keys
      · intro k L1 hL1
        rw [hsd] at hL1
        simpa [levelSum] using (hwf s).level k L1 hL1
      · intro k L1 b hL1 hb
        rw [hsd] at hL1
        simp only [removeOrder_heap, removeOrder_next]
        obtain ⟨h1, h2, h3, h4, h5, h6⟩ := (hwf s).order k L1 b hL1 hb
        have hba : b ≠ a := by
          intro e
          subst e
          exact hs h3.symm
        have hne : (ob.heap b).ID ≠ id := by
          rw [← hid]
          exact wf_id_ne hwf hL haL hL1 hb hba
        refine ⟨h1, h2, h3, h4, h5, ?_⟩
        rw [hOrd, Function.update_noteq hne]
        exact h6

theorem removeOrder_indexSound {ob : Orderbook} (hwf : WF ob) (hI : IndexSound ob)
    (id : String) : IndexSound (ob.RemoveOrder id).1 := by
  cases h : ob.Orders id with
  | none => rw [removeOrder_none ob id h]; exact hI
  | some a =>
    obtain ⟨L, hL, haL, hel, hid, hother, hside⟩ := removeOrder_levels_of_index hwf hI h
    have hOrd := (removeOrder_Orders_of_index ob id a h).1
    have hLw := (hwf _).level _ L hL
    have key : ∀ s k L1 b, (ob.side s).levels k = some L1 → b ∈ L1.Orders → b ≠ a →
        ∃ L2, ((ob.RemoveOrder id).1.side s).levels k = some L2 ∧ b ∈ L2.Orders := by
      intro s k L1 b hL1 hb hba
      by_cases hs : s = (ob.heap a).Side
      · subst hs
        rw [hside]
        by_cases hk : k = (ob.heap a).Price
        · subst hk
          have e : L1 = L := Option.some.inj (hL1.symm.trans hL)
          subst e
          have hbe : b ∈ L1.Orders.erase a := (hLw.2.2.1.mem_erase_iff).mpr ⟨hba, hb⟩
          have hr : L1.Orders.erase a ≠ [] := List.ne_nil_of_mem hbe
          rw [if_neg hr]
          exact ⟨_, Function.update_same _ _ _, hbe⟩
        · refine ⟨L1, ?_, hb⟩
          split
          · simp only
            rw [Function.update_noteq hk]; exact hL1
          · simp only
            rw [Function.update_noteq hk]; exact hL1
      · rw [hother s hs]
        exact ⟨L1, hL1, hb⟩
    constructor
    · intro id1 b hb
      rw [hOrd] at hb
      have hne : id1 ≠ id := by
        intro e
        rw [e, Function.update_same] at hb
        cases hb
      rw [Function.update_noteq hne] at hb
      obtain ⟨h1, L1, hL1, hbL⟩ := hI.1 id1 b hb
      have hba : b ≠ a := by
        intro e
        subst e
        exact hne (h1.symm.trans hid)
      simp only [removeOrder_heap]
      exact ⟨h1, key _ _ L1 b hL1 hbL hba⟩
    · intro s k L1 id1 b hL1 hb
      simp only [removeOrder_heap]
      by_cases hs : s = (ob.heap a).Side
      · subst hs
        rw [hside] at hL1
        by_cases hk : k = (ob.heap a).Price
        · subst hk
          by_cases hr : L.Orders.erase a = []
          · rw [if_pos hr] at hL1
            simp at hL1
          · rw [if_neg hr] at hL1
            simp only [Function.update_same, Option.some.injEq] at hL1
            subst hL1
            simp only at hb ⊢
            have hne : id1 ≠ id := by
              intro e
              rw [e, Function.update_same] at hb
              cases hb
            rw [Function.update_noteq hne] at hb
            obtain ⟨h1, h2⟩ := hI.2 _ _ L id1 b hL hb
            have hba : b ≠ a := by
              intro e
              subst e
              exact hne (h1.symm.trans hid)
            exact ⟨h1, (hLw.2.2.1.mem_erase_iff).mpr ⟨hba, h2⟩⟩
        · have hL1b : (ob.side (ob.heap a).Side).levels k = some L1 := by
            split at hL1
            · simpa [Function.update_noteq hk] using hL1
            · simpa [Function.update_noteq hk] using hL1
          exact hI.2 _ k L1 id1 b hL1b hb
      · rw [hother s hs] at hL1
        exact hI.2 s k L1 id1 b hL1 hb

theorem removeOrder_bookInv {ob : Orderbook} (h : BookInv ob) (id : String) :
    BookInv (ob.RemoveOrder id).1 :=
  ⟨removeOrder_wf h.1 h.2 id, removeOrder_indexSound h.1 h.2 id⟩

theorem bookInv_NewOrderbook (symbol : String) : BookInv (NewOrderbook symbol) :=
  ⟨wf_NewOrderbook symbol, indexSound_NewOrderbook symbol⟩

theorem processOn_bookInv {fuel : Nat} {ro : RangeOrder} {ob : Orderbook} {o : Order}
    {r : Orderbook × MatchResult × Order} (hinv : BookInv ob) (h0 : 0 ≤ o.RemainingQty)
    (hfresh : ∀ s k a, Resting ob s k a → (ob.heap a).ID ≠ o.ID)
    (h : processOn fuel ro ob o = some r) : BookInv r.1 := by
  refine ⟨processOn_wf hinv.1 h0 hfresh h, ?_⟩
  obtain ⟨st1, _, hP, hwf1, _, hr⟩ := processOn_invariant
    (fun st => IndexSound st.ob) indexSound_step hinv.1 hinv.2 h
  subst hr
  exact restTaker_indexSound st1 hwf1 hP

theorem matcherInv_new : MatcherInv NewMatcher := by
  intro symbol ob hb
  simp [NewMatcher] at hb

theorem matcherInv_book {m : Matcher} (h : MatcherInv m) (symbol : String) :
    BookInv (m.book symbol) := by
  rw [matcher_book_eq]
  cases hb : m.orderbooks symbol with
  | none => exact bookInv_NewOrderbook symbol
  | some ob => exact h symbol ob hb

theorem processOrder_matcherInv {m : Matcher} {fuel : Nat} {ro : RangeOrder} {o : Order}
    {out : Outcome} (hm : MatcherInv m) (hv : ValidOrder m o)
    (hout : m.ProcessOrder fuel ro o = some out) : MatcherInv out.matcher := by
  obtain ⟨r, hr, hbooks, _, _⟩ := processOrder_eq hout
  intro symbol ob hb
  rw [hbooks] at hb
  by_cases hs : symbol = o.Symbol
  · subst hs
    rw [Function.update_same] at hb
    cases hb
    have h0 : 0 ≤ o.RemainingQty := by
      rw [hv.2.2]; exact le_of_lt hv.2.1
    exact processOn_bookInv (matcherInv_book hm _) h0 (freshId_book hv.1) hr
  · rw [Function.update_noteq hs] at hb
    exact hm symbol ob hb

theorem cancelOrder_orderbooks (m : Matcher) (symbol orderID : String) :
    (m.CancelOrder symbol orderID).1.orderbooks =
      match m.orderbooks symbol with
      | none => m.orderbooks
      | some ob => Function.update m.orderbooks symbol (some (ob.RemoveOrder orderID).1) := by
  unfold Matcher.CancelOrder
  cases hb : m.orderbooks symbol with
  | none => rfl
  | some ob =>
    simp only
    rcases hr : ob.RemoveOrder orderID with ⟨ob2, _ | p⟩ <;> simp

theorem cancelOrder_matcherInv {m : Matcher} (hm : MatcherInv m) (symbol orderID : String) :
    MatcherInv (m.CancelOrder symbol orderID).1 := by
  intro symbol1 ob1 hb
  rw [cancelOrder_orderbooks] at hb
  cases hm0 : m.orderbooks symbol with
  | none =>
    rw [hm0] at hb
    exact hm symbol1 ob1 hb
  | some ob =>
    rw [hm0] at hb
    simp only at hb
    by_cases hs : symbol1 = symbol
    · subst hs
      rw [Function.update_same] at hb
      cases hb
      exact removeOrder_bookInv (hm _ ob hm0) orderID
    · rw [Function.update_noteq hs] at hb
      exact hm symbol1 ob1 hb

theorem reachableValid_inv {m : Matcher} (h : ReachableValid m) : MatcherInv m := by
  induction h with
  | init => exact matcherInv_new
  | submit m fuel ro o out _ hv hsub ih => exact processOrder_matcherInv ih hv hsub
  | cancel m symbol orderID _ ih => exact cancelOrder_matcherInv ih symbol orderID

theorem reachableValid_submit {m : Matcher} (h : ReachableValid m) (o : Order)
    (hv : ValidOrder m o) : ReachableValid (submit m o) := by
  unfold submit
  cases hp : m.ProcessOrder 16 RangeOrder.insertion o with
  | none => exact h
  | some out => exact ReachableValid.submit m _ _ o out h hv hp

theorem reachableValid_oneBid : ReachableValid oneBid :=
  reachableValid_submit ReachableValid.init _
    ⟨fun ob hob => by simp [NewMatcher] at hob, by decide!, by decide!⟩

theorem reachableValid_bidThenAsk : ReachableValid bidThenAsk := by
  have hb : oneBid.orderbooks "BTCUSDT" = some (oneBid.book "BTCUSDT") :=
    matcher_some_book (by decide!)
  refine reachableValid_submit reachableValid_oneBid _ ⟨?_, by decide!, by decide!⟩
  intro ob hob s k a ha
  have hob1 : ob = oneBid.book "BTCUSDT" := (Option.some.inj (hb.symm.trans hob)).symm
  subst hob1
  have hlt := ((reachableValid_inv reachableValid_oneBid _ _ hob).1 s).order k _ a
    ha.choose_spec.1 ha.choose_spec.2
  have hn : (oneBid.book "BTCUSDT").next = 1 := by decide!
  rw [hn] at hlt
  have ha0 : a = 0 := Nat.lt_one_iff.mp hlt.1
  subst ha0
  decide!

/-! ## Market orders never rest (C11) -/

theorem ordersNone_step (id : String) : StepInvariant (fun st => st.ob.Orders id = none) := by
  intro st k L a rest hwf hP hpre
  show (matchStep st k a).ob.Orders id = none
  rw [matchStep_Orders hwf hpre]
  split
  · by_cases e : id = (st.ob.heap a).ID
    · rw [e, Function.update_same]
    · rw [Function.update_noteq e]; exact hP
  · exact hP

theorem matcherInv_wf {m : Matcher} (h : MatcherInv m) : MatcherWF m :=
  fun symbol ob hb => (h symbol ob hb).1

/-- C11: in a matcher whose books satisfy the invariants, a market order whose id is
not resting is processed to the end, and afterwards the book of its symbol has no
entry for that id in `Orders` and no order with that id queued in any level of
either side, whatever part of the order was filled. -/
theorem market_non_residency (m : Matcher) (ro : RangeOrder) (o : Order)
    (hm : MatcherInv m) (hmk : o.Typ = OrderType.Market) (hf : FreshId m o) :
    (∃ out, m.ProcessOrder (((m.book o.Symbol).side o.Side.opposite).count + 2) ro o
      = some out) ∧
    ∀ fuel out, m.ProcessOrder fuel ro o = some out →
      (out.matcher.book o.Symbol).Orders o.ID = none ∧
      ∀ s k a, Resting (out.matcher.book o.Symbol) s k a →
        ((out.matcher.book o.Symbol).heap a).ID ≠ o.ID := by
  have hinv := matcherInv_book hm o.Symbol
  refine ⟨processOrder_terminates ro m o hinv.1 _ (le_refl _), ?_⟩
  intro fuel out hout
  have h0 : (m.book o.Symbol).Orders o.ID = none := by
    cases hO : (m.book o.Symbol).Orders o.ID with
    | none => rfl
    | some a =>
      obtain ⟨h1, h2⟩ := hinv.2.1 _ a hO
      exact absurd h1 (freshId_book hf _ _ a h2)
  obtain ⟨st1, hst, hP, _, _, hsame, hbook, _, _, _, _⟩ :=
    processOrder_invariant (fun st => st.ob.Orders o.ID = none) (ordersNone_step o.ID)
      hinv.1 h0 hout
  obtain ⟨hs, _⟩ := outerLoop_shrinks _ _ _ hst
  have htyp : st1.order.Typ = OrderType.Market := by
    rw [sameButQty_Typ hsame, marketPrice_Typ, hmk]
  have hob : (restTaker st1).ob = st1.ob := by
    rw [restTaker_ob, if_neg]
    rintro ⟨_, h⟩
    rw [htyp] at h
    cases h
  rw [hbook, hob]
  refine ⟨hP, ?_⟩
  intro s k a ha
  rw [shrinks_ID hs a]
  exact freshId_book hf s k a (resting_of_shrinks hs ha)

theorem freshId_oneBid (o : Order) (hs : o.Symbol = "BTCUSDT") (hid : o.ID ≠ "O1") :
    FreshId oneBid o := by
  refine freshId_of_next matcherWF_oneBid 1 (by rw [hs]; decide!) ?_
  intro a ha
  have ha0 : a = 0 := Nat.lt_one_iff.mp ha
  subst ha0
  rw [hs]
  have : ((oneBid.book "BTCUSDT").heap 0).ID = "O1" := by decide!
  rw [this]
  exact fun e => hid e.symm

/-- Witness for `market_non_residency`: a market sell of 5 against a single bid
of 2, which is only partly filled. -/
theorem market_non_residency_witness :
    MatcherInv oneBid ∧ (marketOrder "M1" Side.Sell 5).Typ = OrderType.Market ∧
      FreshId oneBid (marketOrder "M1" Side.Sell 5) ∧
      ((∃ out, oneBid.ProcessOrder
          (((oneBid.book (marketOrder "M1" Side.Sell 5).Symbol).side
            (marketOrder "M1" Side.Sell 5).Side.opposite).count + 2)
          RangeOrder.insertion (marketOrder "M1" Side.Sell 5) = some out) ∧
        ∀ fuel out, oneBid.ProcessOrder fuel RangeOrder.insertion
            (marketOrder "M1" Side.Sell 5) = some out →
          (out.matcher.book (marketOrder "M1" Side.Sell 5).Symbol).Orders
              (marketOrder "M1" Side.Sell 5).ID = none ∧
          ∀ s k a, Resting (out.matcher.book (marketOrder "M1" Side.Sell 5).Symbol) s k a →
            ((out.matcher.book (marketOrder "M1" Side.Sell 5).Symbol).heap a).ID ≠
              (marketOrder "M1" Side.Sell 5).ID) :=
  ⟨reachableValid_inv reachableValid_oneBid, rfl,
    freshId_oneBid _ rfl (by decide),
    market_non_residency oneBid RangeOrder.insertion (marketOrder "M1" Side.Sell 5)
      (reachableValid_inv reachableValid_oneBid) rfl (freshId_oneBid _ rfl (by decide))⟩

/-! ## Cross-index and non-empty levels (C15, C17) -/

/-- C15: after any run of submits that meet the preconditions of `submit` (id not
resting, positive quantity) and of cancels, an id is a key of `Orders` exactly when
an order with that id is queued; that order is then queued once, in one level only,
on its own side at its own price, and `Orders` maps the id to it. -/
theorem cross_index_invariant (m : Matcher) (h : ReachableValid m) (symbol : String)
    (ob : Orderbook) (hb : m.orderbooks symbol = some ob) (id : String) :
    ((ob.Orders id).isSome = true ↔ ∃ s k a, Resting ob s k a ∧ (ob.heap a).ID = id) ∧
    (∀ s k a, Resting ob s k a → (ob.heap a).ID = id →
      ob.Orders id = some a ∧ s = (ob.heap a).Side ∧ k = (ob.heap a).Price ∧
      ∀ s1 k1 a1, Resting ob s1 k1 a1 → (ob.heap a1).ID = id →
        s1 = s ∧ k1 = k ∧ a1 = a) ∧
    ∀ s k L, (ob.side s).levels k = some L → L.Orders.Nodup := by
  obtain ⟨hwf, hI⟩ := reachableValid_inv h symbol ob hb
  have key : ∀ s k a, Resting ob s k a → (ob.heap a).ID = id →
      ob.Orders id = some a ∧ s = (ob.heap a).Side ∧ k = (ob.heap a).Price := by
    rintro s k a ⟨L, hL, ha⟩ hid
    obtain ⟨_, h2, h3, _, _, h6⟩ := (hwf s).order k L a hL ha
    rw [hid] at h6
    exact ⟨h6, h3.symm, h2.symm⟩
  refine ⟨⟨?_, ?_⟩, ?_, ?_⟩
  · intro hsome
    obtain ⟨a, ha⟩ := Option.isSome_iff_exists.mp hsome
    obtain ⟨h1, h2⟩ := hI.1 id a ha
    exact ⟨_, _, a, h2, h1⟩
  · rintro ⟨s, k, a, ha, hid⟩
    rw [(key s k a ha hid).1]
    rfl
  · intro s k a ha hid
    obtain ⟨h1, h2, h3⟩ := key s k a ha hid
    refine ⟨h1, h2, h3, ?_⟩
    intro s1 k1 a1 ha1 hid1
    obtain ⟨g1, g2, g3⟩ := key s1 k1 a1 ha1 hid1
    have e : a1 = a := Option.some.inj (g1.symm.trans h1)
    subst e
    exact ⟨g2.trans h2.symm, g3.trans h3.symm, rfl⟩
  · intro s k L hL
    exact ((hwf s).level k L hL).2.2.1

/-- Witness for `cross_index_invariant`: the book after a bid and a crossing ask,
at the id "O1". -/
theorem cross_index_invariant_witness :
    ReachableValid bidThenAsk ∧
      bidThenAsk.orderbooks "BTCUSDT" = some (bidThenAsk.book "BTCUSDT") ∧
      (((bidThenAsk.book "BTCUSDT").Orders "O1").isSome = true ↔
        ∃ s k a, Resting (bidThenAsk.book "BTCUSDT") s k a ∧
          ((bidThenAsk.book "BTCUSDT").heap a).ID = "O1") :=
  ⟨reachableValid_bidThenAsk, matcher_some_book (by decide!),
    (cross_index_invariant bidThenAsk reachableValid_bidThenAsk "BTCUSDT" _
      (matcher_some_book (by decide!)) "O1").1⟩

/-- C17 (amended): after any run of submits that meet the preconditions of `submit`
(id not resting, positive quantity) and of cancels, the ordered view of a side lists exactly the keys of its level map, every
level held holds at least one order, every queued order has a positive remaining
quantity, and removing the only order of a level drops the level from the map and
from the ordered view. -/
theorem no_empty_levels (m : Matcher) (h : ReachableValid m) (symbol : String)
    (ob : Orderbook) (hb : m.orderbooks symbol = some ob) (s : Side) :
    (∀ k, k ∈ (ob.side s).sorted ↔ ((ob.side s).levels k).isSome = true) ∧
    (∀ k L, (ob.side s).levels k = some L →
      L.IsEmpty = false ∧ 0 < L.Len ∧ ∀ a ∈ L.Orders, 0 < (ob.heap a).RemainingQty) ∧
    ∀ heap k L a id, (ob.side s).levels k = some L → L.Orders = [a] →
      L.elements id = some a →
      ((ob.side s).RemoveOrder heap k id).1.levels k = none ∧
        k ∉ ((ob.side s).RemoveOrder heap k id).1.sorted := by
  obtain ⟨hwf, _⟩ := reachableValid_inv h symbol ob hb
  refine ⟨(hwf s).keys, ?_, ?_⟩
  · intro k L hL
    have hne := ((hwf s).level k L hL).2.1
    have hlen : 0 < L.Orders.length := List.length_pos.mpr hne
    refine ⟨?_, hlen, fun a ha => ((hwf s).order k L a hL ha).2.2.2.1⟩
    simp only [PriceLevel.IsEmpty, beq_eq_false_iff_ne]
    exact Nat.ne_of_gt hlen
  · intro heap k L a id hL hO hel
    rw [bookSide_removeOrder_front _ heap k id L a [] hL hel hO, if_pos rfl]
    refine ⟨Function.update_same _ _ _, ?_⟩
    simp only
    intro hmem
    exact ((pairwise_better_nodup (hwf s).sorted).mem_erase_iff.mp hmem).1 rfl

/-- Witness for `no_empty_levels`: the bid side after a bid and a crossing ask. -/
theorem no_empty_levels_witness :
    ReachableValid bidThenAsk ∧
      bidThenAsk.orderbooks "BTCUSDT" = some (bidThenAsk.book "BTCUSDT") ∧
      ∀ k L, ((bidThenAsk.book "BTCUSDT").side Side.Buy).levels k = some L →
        L.IsEmpty = false ∧ 0 < L.Len ∧
          ∀ a ∈ L.Orders, 0 < ((bidThenAsk.book "BTCUSDT").heap a).RemainingQty :=
  ⟨reachableValid_bidThenAsk, matcher_some_book (by decide!),
    (no_empty_levels bidThenAsk reachableValid_bidThenAsk "BTCUSDT" _
      (matcher_some_book (by decide!)) Side.Buy).2.1⟩

/-! ## The sequence counter (C14) -/

theorem matchStep_OrderUpdates (st : MatchState) (key : Decimal) (a : Ptr) :
    (matchStep st key a).OrderUpdates = st.OrderUpdates ++ [st.updateOf a] :=
  rfl

theorem restTaker_OrderUpdates (st : MatchState) :
    (restTaker st).OrderUpdates = st.OrderUpdates ++
      [{ OrderID := st.order.ID, RemainingQty := st.order.RemainingQty,
         Status := st.takerStatus }] := by
  unfold restTaker MatchState.takerStatus
  by_cases hf : st.order.IsFilled = true
  · simp [hf]
  · by_cases ht : st.order.Typ = OrderType.Limit
    · simp [hf, ht]
    · simp [hf, ht]

theorem matchStep_Sequence {st : MatchState} {k : Decimal} {L : PriceLevel} {a : Ptr}
    {rest : List Ptr} (hwf : WF st.ob) (h : StepPre st k L a rest) :
    (matchStep st k a).ob.Sequence =
      if (st.filledMaker a).IsFilled then (st.ob.Sequence + 1) % 2 ^ 64
      else st.ob.Sequence := by
  obtain ⟨_, _, _, _, _, hidx⟩ := stepPre_maker hwf h
  rw [matchStep_ob]
  split
  · have hidx1 : (st.filledBook a).Orders (st.filledMaker a).ID = some a := hidx
    rw [(removeOrder_Orders_of_index _ _ a hidx1).2]
    rfl
  · simp [MatchState.filledBook]

theorem fullyFilled_append (us : List OrderUpdate) (u : OrderUpdate) :
    fullyFilled (us ++ [u]) = fullyFilled us + if u.Status = "FILLED" then 1 else 0 := by
  unfold fullyFilled
  rw [List.filter_append, List.length_append]
  by_cases h : u.Status = "FILLED"
  · simp [List.filter, h]
  · simp [List.filter, h]

theorem updateOf_status (st : MatchState) (a : Ptr) :
    (st.updateOf a).Status = "FILLED" ↔ (st.filledMaker a).IsFilled = true := by
  unfold MatchState.updateOf
  by_cases h : (st.filledMaker a).IsFilled = true
  · simp [h]
  · simp [h]

theorem seqInv_step (seq0 count0 : Nat) : StepInvariant (SeqInv seq0 count0) := by
  intro st k L a rest hwf hP hpre
  obtain ⟨hc, hs⟩ := hP
  have hcount := matchStep_count hwf hpre
  have hseq := matchStep_Sequence hwf hpre
  unfold SeqInv
  rw [matchStep_OrderUpdates, fullyFilled_append, hseq]
  by_cases hf : (st.filledMaker a).IsFilled = true
  · have hst : (st.updateOf a).Status = "FILLED" := (updateOf_status st a).2 hf
    rw [if_pos hf] at hcount
    rw [if_pos hst, if_pos hf, if_neg (Nat.succ_ne_zero _)]
    refine ⟨by omega, ?_⟩
    rw [hs]
    by_cases h0 : fullyFilled st.OrderUpdates = 0
    · rw [if_pos h0, h0]
    · rw [if_neg h0]
      omega
  · have hst : ¬ (st.updateOf a).Status = "FILLED" := fun e => hf ((updateOf_status st a).1 e)
    rw [if_neg hf] at hcount
    rw [if_neg hst, if_neg hf]
    exact ⟨by omega, hs⟩

theorem count_of_sorted_nil (bs : BookSide) (h : bs.sorted = []) : bs.count = 0 := by
  simp [BookSide.count, h]

theorem restTaker_Sequence (st : MatchState) :
    (restTaker st).ob.Sequence =
      if st.order.IsFilled = false ∧ st.order.Typ = OrderType.Limit then
        (st.ob.Sequence + 1) % 2 ^ 64
      else st.ob.Sequence := by
  rw [restTaker_ob]
  split
  · rw [addOrder_Sequence]
  · rfl

/-- C14 (amended): `Orderbook.AddOrder` moves `Sequence` to its successor (modulo
2^64), and so does `Orderbook.RemoveOrder` when the id is in `Orders`, which otherwise leaves it as
it is.  For a `ProcessOrder` call on a book that satisfies the invariants: the call
returns; the maker updates with status FILLED count the orders that left the opposite
side; when the sum does not reach 2^64, `Sequence` ends at its value before the call
plus that count plus one if the taker rests; the delta carries the final `Sequence`;
and a market order against an empty opposite side leaves `Sequence` unchanged. -/
theorem sequence_monotonicity (m : Matcher) (ro : RangeOrder) (o : Order)
    (hwf : WF (m.book o.Symbol)) :
    (∀ (ob : Orderbook) (x : Order),
      (ob.AddOrder x).Sequence = (ob.Sequence + 1) % 2 ^ 64 ∧
        (ob.Sequence + 1 < 2 ^ 64 → (ob.AddOrder x).Sequence = ob.Sequence + 1)) ∧
    (∀ (ob : Orderbook) (id : String),
      (ob.RemoveOrder id).1.Sequence =
          (if (ob.Orders id).isSome then (ob.Sequence + 1) % 2 ^ 64 else ob.Sequence) ∧
        (ob.Sequence + 1 < 2 ^ 64 → (ob.Orders id).isSome = true →
          (ob.RemoveOrder id).1.Sequence = ob.Sequence + 1)) ∧
    (∃ out, m.ProcessOrder (((m.book o.Symbol).side o.Side.opposite).count + 2) ro o
      = some out) ∧
    ∀ fuel out, m.ProcessOrder fuel ro o = some out →
      fullyFilled out.result.OrderUpdates.dropLast +
          ((out.matcher.book o.Symbol).side o.Side.opposite).count =
        ((m.book o.Symbol).side o.Side.opposite).count ∧
      ((m.book o.Symbol).Sequence + fullyFilled out.result.OrderUpdates.dropLast +
          (if out.rests = true then 1 else 0) < 2 ^ 64 →
        (out.matcher.book o.Symbol).Sequence =
          (m.book o.Symbol).Sequence + fullyFilled out.result.OrderUpdates.dropLast +
            (if out.rests = true then 1 else 0)) ∧
      out.result.OrderbookDelta.Sequence = (out.matcher.book o.Symbol).Sequence ∧
      (o.Typ = OrderType.Market → ((m.book o.Symbol).side o.Side.opposite).sorted = [] →
        (out.matcher.book o.Symbol).Sequence = (m.book o.Symbol).Sequence) := by
  refine ⟨?_, ?_, processOrder_terminates ro m o hwf _ (le_refl _), ?_⟩
  · intro ob x
    rw [addOrder_Sequence]
    exact ⟨rfl, fun h => Nat.mod_eq_of_lt h⟩
  · intro ob id
    cases h : ob.Orders id with
    | none =>
      rw [removeOrder_none ob id h]
      simp
    | some a =>
      rw [(removeOrder_Orders_of_index ob id a h).2]
      exact ⟨by simp, fun hlt _ => Nat.mod_eq_of_lt hlt⟩
  · intro fuel out hout
    obtain ⟨st1, _, ⟨hc, hs⟩, _, _, hsame, hbook, _, hupd, hdelta, hord⟩ :=
      processOrder_invariant
        (SeqInv (m.book o.Symbol).Sequence ((m.book o.Symbol).side o.Side.opposite).count)
        (seqInv_step _ _) hwf
        (by
          refine ⟨?_, rfl⟩
          simp [fullyFilled, MatchState.oppositeSide])
        hout
    have hside : st1.order.Side = o.Side := by
      rw [sameButQty_Side hsame, marketPrice_Side]
    have htyp : st1.order.Typ = o.Typ := by
      rw [sameButQty_Typ hsame, marketPrice_Typ]
    have hdrop : out.result.OrderUpdates.dropLast = st1.OrderUpdates := by
      rw [hupd, restTaker_OrderUpdates, List.dropLast_concat]
    have hopp : (out.matcher.book o.Symbol).side o.Side.opposite = st1.oppositeSide := by
      rw [hbook, ← hside, restTaker_oppositeSide]
      rfl
    have hseq := restTaker_Sequence st1
    rw [← hbook] at hseq
    have hrests : out.rests = true ↔
        (st1.order.IsFilled = false ∧ st1.order.Typ = OrderType.Limit) := by
      unfold Outcome.rests
      rw [hord]
      simp
    rw [hdrop, hopp]
    refine ⟨hc, ?_, ?_, ?_⟩
    · intro hlt
      rw [hseq, hs]
      by_cases hr : st1.order.IsFilled = false ∧ st1.order.Typ = OrderType.Limit
      · rw [if_pos hr]
        rw [if_pos (hrests.2 hr)] at hlt ⊢
        by_cases h0 : fullyFilled st1.OrderUpdates = 0
        · rw [if_pos h0, h0] at *
          omega
        · rw [if_neg h0]
          omega
      · rw [if_neg hr]
        rw [if_neg (fun h => hr (hrests.1 h))] at hlt ⊢
        by_cases h0 : fullyFilled st1.OrderUpdates = 0
        · rw [if_pos h0, h0]
          rfl
        · rw [if_neg h0]
          omega
    · rw [hdelta, hbook]
      rfl
    · intro hmk hempty
      have hz : fullyFilled st1.OrderUpdates = 0 := by
        rw [count_of_sorted_nil _ hempty] at hc
        omega
      rw [hseq, hs, if_pos hz, if_neg]
      rintro ⟨_, h⟩
      rw [htyp, hmk] at h
      cases h

/-- Witness for `sequence_monotonicity`: a sell of 3 at 99 fills the bids at 100 and
at 99 completely and does not rest; `Sequence` goes from 2 to 4. -/
theorem sequence_monotonicity_witness :
    WF (twoBidLevels.book sellSweep.Symbol) ∧
      (twoBidLevels.book sellSweep.Symbol).Sequence = 2 ∧
      ∃ out, twoBidLevels.ProcessOrder
          (((twoBidLevels.book sellSweep.Symbol).side sellSweep.Side.opposite).count + 2)
          RangeOrder.insertion sellSweep = some out ∧
        fullyFilled out.result.OrderUpdates.dropLast = 2 ∧ out.rests = false ∧
        (out.matcher.book sellSweep.Symbol).Sequence =
          (twoBidLevels.book sellSweep.Symbol).Sequence +
            fullyFilled out.result.OrderUpdates.dropLast +
            (if out.rests = true then 1 else 0) ∧
        (out.matcher.book sellSweep.Symbol).Sequence = 4 ∧
        out.result.OrderbookDelta.Sequence = 4 := by
  have hwf := matcherWF_book matcherWF_twoBidLevels sellSweep.Symbol
  have h := sequence_monotonicity twoBidLevels RangeOrder.insertion sellSweep hwf
  obtain ⟨out, hout⟩ := h.2.2.1
  obtain ⟨hcount, hseq, hdelta, _⟩ := h.2.2.2 _ out hout
  have hs0 : (twoBidLevels.book sellSweep.Symbol).Sequence = 2 := by decide!
  have hff : (twoBidLevels.ProcessOrder
      (((twoBidLevels.book sellSweep.Symbol).side sellSweep.Side.opposite).count + 2)
      RangeOrder.insertion sellSweep).map
        (fun x => (fullyFilled x.result.OrderUpdates.dropLast, x.rests)) =
      some (2, false) := by decide!
  rw [hout] at hff
  simp only [Option.map_some', Option.some.injEq, Prod.mk.injEq] at hff
  obtain ⟨hf2, hr⟩ := hff
  have hlt : (twoBidLevels.book sellSweep.Symbol).Sequence +
      fullyFilled out.result.OrderUpdates.dropLast +
      (if out.rests = true then 1 else 0) < 2 ^ 64 := by
    rw [hs0, hf2, hr]
    decide
  have heq := hseq hlt
  refine ⟨hwf, hs0, out, hout, hf2, hr, heq, ?_, ?_⟩
  · rw [heq, hs0, hf2, hr]
    rfl
  · rw [hdelta, heq, hs0, hf2, hr]
    rfl

/-! ## Order updates and taker status (C12) -/

theorem front_unlinked {st : MatchState} {k : Decimal} {L : PriceLevel} {a : Ptr}
    {rest : List Ptr} (hwf : WF st.ob) (hpre : StepPre st k L a rest)
    (hfill : (st.filledMaker a).IsFilled = true) :
    ¬ Resting (matchStep st k a).ob st.order.Side.opposite k a := by
  rintro ⟨L1, hL1, hAL1⟩
  rw [matchStep_levels hwf hpre, if_pos rfl] at hL1
  unfold MatchState.levelAfter at hL1
  have hnd := ((hwf _).level k L hpre.level).2.2.1
  rw [hpre.front] at hnd
  by_cases hr : rest = []
  · simp [hfill, hr] at hL1
  · simp only [hfill, hr, if_true, if_false, Option.some.injEq] at hL1
    subst hL1
    exact (List.nodup_cons.mp hnd).1 hAL1

theorem updInv_step (ob0 : Orderbook) : StepInvariant (UpdInv ob0) := by
  intro st k L a rest hwf hP hpre
  obtain ⟨hsh, hall⟩ := hP
  have hrest : Resting st.ob st.order.Side.opposite k a :=
    ⟨L, hpre.level, by rw [hpre.front]; simp⟩
  refine ⟨shrinks_trans hsh (matchStep_shrinks st k a), ?_⟩
  rw [matchStep_Trades, matchStep_OrderUpdates]
  refine List.rel_append (List.Forall₂.imp ?_ hall) (List.Forall₂.cons ?_ List.Forall₂.nil)
  · rintro t u ⟨h1, h2, h3, k1, b, hb, hid, hrem, hdis⟩
    refine ⟨h1, h2, h3, k1, b, ?_, hid, ?_⟩
    · rw [matchStep_order_Side]; exact hb
    · rcases hdis with ⟨hz, hgone⟩ | hfilled
      · have hz1 : (st.ob.heap b).RemainingQty = 0 := hrem.trans hz
        obtain ⟨g1, g2⟩ := gone_after_step hwf hpre hgone hz1
        rw [matchStep_order_Side]
        exact ⟨g2.trans hz.symm, Or.inl ⟨hz, g1⟩⟩
      · rw [hpre.notFilled] at hfilled
        cases hfilled
  · have hID : (st.filledMaker a).ID = (st.ob.heap a).ID :=
      sameButQty_ID (sameButQty_fill _ _)
    refine ⟨hID, ?_, ?_, k, a, ?_, ?_, ?_, ?_⟩
    · unfold MatchState.updateOf
      by_cases hf : (st.filledMaker a).IsFilled = true
      · left; simp [hf]
      · right; simp [hf]
    · rw [updateOf_status, isFilled_iff]
      rfl
    · rw [matchStep_order_Side]
      exact resting_of_shrinks hsh hrest
    · exact (shrinks_ID hsh a).symm
    · rw [matchStep_heap, Function.update_same]
      rfl
    · rw [matchStep_order_Side]
      by_cases hf : (st.filledMaker a).IsFilled = true
      · exact Or.inl ⟨(isFilled_iff _).1 hf, front_unlinked hwf hpre hf⟩
      · exact Or.inr (matchStep_taker_filled st k a (by simpa using hf))

theorem takerStatus_filled_iff (st : MatchState) :
    st.takerStatus = "FILLED" ↔ st.order.RemainingQty = 0 := by
  rw [← isFilled_iff]
  unfold MatchState.takerStatus
  by_cases hf : st.order.IsFilled = true
  · simp [hf]
  · simp only [hf, Bool.not_eq_true, iff_false]
    have hf1 : st.order.IsFilled = false := by simpa using hf
    simp only [hf1, Bool.not_false, if_true]
    split <;> split <;> decide

theorem takerStatus_limit (st : MatchState) (hf : st.order.RemainingQty ≠ 0)
    (ht : st.order.Typ = OrderType.Limit) :
    st.takerStatus = if st.Trades = [] then "NEW" else "PARTIAL" := by
  have hf1 : st.order.IsFilled = false := (isFilled_false_iff _).2 hf
  unfold MatchState.takerStatus
  cases hT : st.Trades with
  | nil => simp [hf1, ht]
  | cons t T => simp [hf1, ht]

theorem takerStatus_market (st : MatchState) (hf : st.order.RemainingQty ≠ 0)
    (ht : st.order.Typ = OrderType.Market) :
    st.takerStatus = if st.Trades = [] then "CANCELLED" else "PARTIAL" := by
  have hf1 : st.order.IsFilled = false := (isFilled_false_iff _).2 hf
  unfold MatchState.takerStatus
  cases hT : st.Trades with
  | nil => simp [hf1, ht]
  | cons t T => simp [hf1, ht]

theorem marketPrice_of_limit (o : Order) (h : o.Typ = OrderType.Limit) :
    marketPrice o = o := by
  simp [marketPrice, h]

/-- C12: a `ProcessOrder` call on a book that satisfies the invariants returns, and
its `OrderUpdates` are one entry per trade followed by one entry for the taker.  The
i-th entry names the maker of the i-th trade, an order that was queued on the
opposite side, reports the remaining quantity that maker has after the call, and has
status FILLED when that is zero and PARTIAL otherwise.  The last entry names the
taker, reports its final remaining quantity and has status FILLED exactly when that
is zero; otherwise a Limit taker gets NEW without trades and PARTIAL with trades, and
is queued on its own side at its price, and a Market taker gets CANCELLED without
trades and PARTIAL with trades. -/
theorem order_updates_and_status (m : Matcher) (ro : RangeOrder) (o : Order)
    (hwf : WF (m.book o.Symbol)) :
    (∃ out, m.ProcessOrder (((m.book o.Symbol).side o.Side.opposite).count + 2) ro o
      = some out) ∧
    ∀ fuel out, m.ProcessOrder fuel ro o = some out →
      out.result.OrderUpdates.length = out.result.Trades.length + 1 ∧
      ∃ U u, out.result.OrderUpdates = U ++ [u] ∧
        List.Forall₂
          (fun t v => v.OrderID = t.MakerOrderID ∧
            ∃ k a, Resting (m.book o.Symbol) o.Side.opposite k a ∧
              ((m.book o.Symbol).heap a).ID = t.MakerOrderID ∧
              v.RemainingQty = ((out.matcher.book o.Symbol).heap a).RemainingQty ∧
              (v.Status = "FILLED" ↔
                ((out.matcher.book o.Symbol).heap a).RemainingQty = 0) ∧
              (v.Status = "PARTIAL" ↔
                ((out.matcher.book o.Symbol).heap a).RemainingQty ≠ 0))
          out.result.Trades U ∧
        u.OrderID = o.ID ∧ u.RemainingQty = out.order.RemainingQty ∧
        (u.Status = "FILLED" ↔ out.order.RemainingQty = 0) ∧
        (out.order.RemainingQty ≠ 0 → o.Typ = OrderType.Limit →
          u.Status = (if out.result.Trades = [] then "NEW" else "PARTIAL") ∧
          Resting (out.matcher.book o.Symbol) o.Side o.Price (m.book o.Symbol).next ∧
          (out.matcher.book o.Symbol).heap (m.book o.Symbol).next = out.order) ∧
        (out.order.RemainingQty ≠ 0 → o.Typ = OrderType.Market →
          u.Status = (if out.result.Trades = [] then "CANCELLED" else "PARTIAL")) := by
  refine ⟨processOrder_terminates ro m o hwf _ (le_refl _), ?_⟩
  intro fuel out hout
  obtain ⟨st1, _, ⟨hsh, hall⟩, _, _, hsame, hbook, htr, hupd, _, hord⟩ :=
    processOrder_invariant (UpdInv (m.book o.Symbol)) (updInv_step _) hwf
      ⟨shrinks_refl _, List.Forall₂.nil⟩ hout
  have hside : st1.order.Side = o.Side := by
    rw [sameButQty_Side hsame, marketPrice_Side]
  have htyp : st1.order.Typ = o.Typ := by
    rw [sameButQty_Typ hsame, marketPrice_Typ]
  have hid : st1.order.ID = o.ID := by
    rw [sameButQty_ID hsame, marketPrice_ID]
  rw [hupd, restTaker_OrderUpdates, htr, hord, hbook]
  refine ⟨?_, st1.OrderUpdates, _, rfl, ?_, hid, rfl, takerStatus_filled_iff st1, ?_, ?_⟩
  · rw [List.length_append, hall.length_eq]
    rfl
  · refine List.Forall₂.imp ?_ hall
    rintro t v ⟨h1, h2, h3, k, a, ha, haid, hrem, _⟩
    rw [hside] at ha
    have halloc : a < st1.ob.next := by
      rw [hsh.1]
      exact ((hwf _).order k _ a ha.choose_spec.1 ha.choose_spec.2).1
    refine ⟨h1, k, a, ha, haid, ?_, ?_, ?_⟩
    · rw [restTaker_heap st1 a halloc]; exact hrem.symm
    · rw [restTaker_heap st1 a halloc, hrem]; exact h3
    · rw [restTaker_heap st1 a halloc, hrem]
      constructor
      · intro hp hz
        have := h3.2 hz
        rw [hp] at this
        exact absurd this (by decide)
      · intro hnz
        rcases h2 with hF | hP
        · exact absurd (h3.1 hF) hnz
        · exact hP
  · intro hnz hl
    have hl1 : st1.order.Typ = OrderType.Limit := htyp.trans hl
    have hnf : st1.order.IsFilled = false := (isFilled_false_iff _).2 hnz
    have hprice : st1.order.Price = o.Price := by
      rw [sameButQty_Price hsame, marketPrice_of_limit o hl]
    refine ⟨takerStatus_limit st1 hnz hl1, ?_, ?_⟩
    · rw [restTaker_ob, if_pos ⟨hnf, hl1⟩, ← hsh.1, ← hside, ← hprice]
      exact resting_addOrder_new st1.ob st1.order
    · rw [restTaker_ob, if_pos ⟨hnf, hl1⟩, ← hsh.1, addOrder_heap, Function.update_same]
  · intro hnz hmk
    exact takerStatus_market st1 hnz (htyp.trans hmk)

/-- Witness for `order_updates_and_status`: an ask of 1 at 100 against a bid of 2
at 100. -/
theorem order_updates_and_status_witness :
    WF (oneBid.book askO2.Symbol) ∧
      ∃ out, oneBid.ProcessOrder
        (((oneBid.book askO2.Symbol).side askO2.Side.opposite).count + 2)
        RangeOrder.insertion askO2 = some out ∧
        out.result.OrderUpdates.length = out.result.Trades.length + 1 := by
  have hwf := matcherWF_book matcherWF_oneBid askO2.Symbol
  have h := order_updates_and_status oneBid RangeOrder.insertion askO2 hwf
  obtain ⟨out, hout⟩ := h.1
  exact ⟨hwf, out, hout, (h.2 _ out hout).1⟩

/-! ## The ordering invariant (C16) -/

theorem sortedView_addOrder {bs : BookSide} {s : Side} (h : SortedView bs s)
    (heap : Ptr → Order) (p : Ptr) : SortedView (bs.AddOrder heap p) s := by
  obtain ⟨hd, hs, hk, hp⟩ := h
  refine ⟨by rw [bookSide_addOrder_isDescend]; exact hd, ?_, ?_, ?_⟩
  · rw [bookSide_addOrder_sorted]
    split
    · exact hs
    · rename_i hnone
      rw [findInsertIndex_eq bs s _ hd]
      refine pairwise_insert s _ _ hs ?_
      intro hmem
      exact hnone ((hk _).1 hmem)
  · intro k
    rw [bookSide_addOrder_sorted, bookSide_addOrder_levels]
    by_cases hkp : k = (heap p).Price
    · subst hkp
      simp only [if_true, Option.isSome_some, iff_true]
      split
      · rename_i hsome
        exact (hk _).2 hsome
      · exact (mem_insert_at _ _ _ _).2 (Or.inl rfl)
    · rw [if_neg hkp]
      split
      · exact hk k
      · rw [mem_insert_at]
        simp only [hkp, false_or]
        exact hk k
  · intro k L hL
    rw [bookSide_addOrder_levels] at hL
    split at hL
    · rename_i hkp
      simp only [Option.some.injEq] at hL
      subst hL
      cases hX : bs.levels k with
      | none => simp [PriceLevel.AddOrder, NewPriceLevel]
      | some L0 =>
        simp only [Option.getD_some, PriceLevel.AddOrder]
        exact hp k L0 hX
    · exact hp k L hL

theorem level_removeOrder_Price (pl : PriceLevel) (heap : Ptr → Order) (id : String) :
    (pl.RemoveOrder heap id).1.Price = pl.Price := by
  unfold PriceLevel.RemoveOrder
  cases pl.elements id <;> rfl

theorem bookSide_removeOrder_sorted (bs : BookSide) (heap : Ptr → Order) (price : Decimal)
    (id : String) :
    (bs.RemoveOrder heap price id).1.sorted =
        (match bs.levels price with
         | none => bs.sorted
         | some L => if (L.RemoveOrder heap id).1.IsEmpty then bs.sorted.erase price
                     else bs.sorted) ∧
      (bs.RemoveOrder heap price id).1.isDescend = bs.isDescend := by
  unfold BookSide.RemoveOrder
  cases hL : bs.levels price with
  | none => exact ⟨rfl, rfl⟩
  | some L =>
    simp only
    split
    · exact ⟨rfl, rfl⟩
    · exact ⟨rfl, rfl⟩

theorem sortedView_removeOrder {bs : BookSide} {s : Side} (h : SortedView bs s)
    (heap : Ptr → Order) (price : Decimal) (id : String) :
    SortedView (bs.RemoveOrder heap price id).1 s := by
  obtain ⟨hd, hs, hk, hp⟩ := h
  obtain ⟨hsort, hdesc⟩ := bookSide_removeOrder_sorted bs heap price id
  refine ⟨by rw [hdesc]; exact hd, ?_, ?_, ?_⟩
  · rw [hsort]
    cases hL : bs.levels price with
    | none => exact hs
    | some L =>
      simp only
      split
      · exact hs.sublist (List.erase_sublist _ _)
      · exact hs
  · intro k
    rw [hsort, bookSide_removeOrder_levels]
    cases hL : bs.levels price with
    | none =>
      simp only
      by_cases hkp : k = price
      · subst hkp
        simp only [if_true, Option.isSome_none]
        rw [hk, hL]
        rfl
      · rw [if_neg hkp]; exact hk k
    | some L =>
      simp only
      by_cases hE : (L.RemoveOrder heap id).1.IsEmpty = true
      · simp only [hE, if_true]
        rw [(pairwise_better_nodup hs).mem_erase_iff]
        by_cases hkp : k = price
        · simp [hkp]
        · simp only [hkp, if_false, ne_eq, not_false_eq_true, true_and]
          exact hk k
      · simp only [hE, if_false, Bool.false_eq_true]
        by_cases hkp : k = price
        · subst hkp
          simp only [if_true, Option.isSome_some, iff_true]
          exact (hk k).2 (by rw [hL]; rfl)
        · rw [if_neg hkp]; exact hk k
  · intro k L1 hL1
    rw [bookSide_removeOrder_levels] at hL1
    by_cases hkp : k = price
    · subst hkp
      rw [if_pos rfl] at hL1
      cases hL : bs.levels k with
      | none => rw [hL] at hL1; cases hL1
      | some L =>
        rw [hL] at hL1
        simp only at hL1
        split at hL1
        · cases hL1
        · simp only [Option.some.injEq] at hL1
          subst hL1
          rw [level_removeOrder_Price]
          exact hp k L hL
    · rw [if_neg hkp] at hL1
      exact hp k L1 hL1

theorem sortedView_updateLevelVolume {bs : BookSide} {s : Side} (h : SortedView bs s)
    (price delta : Decimal) : SortedView (bs.UpdateLevelVolume price delta) s := by
  obtain ⟨hd, hs, hk, hp⟩ := h
  have hsort : (bs.UpdateLevelVolume price delta).sorted = bs.sorted ∧
      (bs.UpdateLevelVolume price delta).isDescend = bs.isDescend := by
    unfold BookSide.UpdateLevelVolume
    cases bs.levels price <;> exact ⟨rfl, rfl⟩
  refine ⟨by rw [hsort.2]; exact hd, by rw [hsort.1]; exact hs, ?_, ?_⟩
  · intro k
    rw [hsort.1, bookSide_updateLevelVolume_levels]
    by_cases hkp : k = price
    · subst hkp
      rw [if_pos rfl, hk]
      cases bs.levels k <;> rfl
    · rw [if_neg hkp]; exact hk k
  · intro k L1 hL1
    rw [bookSide_updateLevelVolume_levels] at hL1
    by_cases hkp : k = price
    · subst hkp
      rw [if_pos rfl] at hL1
      cases hL : bs.levels k with
      | none => rw [hL] at hL1; cases hL1
      | some L =>
        rw [hL] at hL1
        simp only [Option.map_some', Option.some.injEq] at hL1
        subst hL1
        exact hp k L hL
    · rw [if_neg hkp] at hL1
      exact hp k L1 hL1

theorem bookSorted_setSide {ob : Orderbook} (h : BookSorted ob) (s : Side) (bs : BookSide)
    (hbs : SortedView bs s) : BookSorted (ob.setSide s bs) := by
  intro s1
  rw [side_setSide]
  split
  · rename_i e
    rw [e]; exact hbs
  · exact h s1

theorem bookSorted_addOrder {ob : Orderbook} (h : BookSorted ob) (o : Order) :
    BookSorted (ob.AddOrder o) := by
  intro s
  rw [orderbook_addOrder_side]
  split
  · exact sortedView_addOrder (h s) _ _
  · exact h s

theorem bookSorted_removeOrder {ob : Orderbook} (h : BookSorted ob) (id : String) :
    BookSorted (ob.RemoveOrder id).1 := by
  cases hO : ob.Orders id with
  | none => rw [removeOrder_none ob id hO]; exact h
  | some a =>
    intro s
    rw [removeOrder_of_index ob id a hO]
    split
    · rename_i e
      rw [e]
      exact sortedView_removeOrder (h _) _ _ _
    · exact h s

theorem bookSorted_step (st : MatchState) (key : Decimal) (a : Ptr) (h : BookSorted st.ob) :
    BookSorted (matchStep st key a).ob := by
  have hfb : BookSorted (st.filledBook a) := by
    intro s
    rw [filledBook_side]
    exact h s
  rw [matchStep_ob]
  split
  · exact bookSorted_removeOrder hfb _
  · exact bookSorted_setSide hfb _ _ (sortedView_updateLevelVolume (hfb _) _ _)

theorem innerLoop_preserves (Q : Orderbook → Prop)
    (hstep : ∀ st key a, Q st.ob → Q (matchStep st key a).ob) :
    ∀ (fuel : Nat) (key : Decimal) (st r : MatchState),
      innerLoop fuel key st = some r → Q st.ob → Q r.ob := by
  intro fuel
  induction fuel with
  | zero => intro key st r h; simp [innerLoop] at h
  | succ n ih =>
    intro key st r h hQ
    unfold innerLoop at h
    split at h
    · cases h; exact hQ
    · split at h
      · cases h; exact hQ
      · split at h
        · cases h; exact hQ
        · split at h
          · cases h; exact hQ
          · rename_i a _
            exact ih key _ r h (hstep st key a hQ)

theorem outerLoop_preserves (Q : Orderbook → Prop)
    (hstep : ∀ st key a, Q st.ob → Q (matchStep st key a).ob) :
    ∀ (fuel : Nat) (st r : MatchState),
      outerLoop fuel st = some r → Q st.ob → Q r.ob := by
  intro fuel
  induction fuel with
  | zero => intro st r h; simp [outerLoop] at h
  | succ n ih =>
    intro st r h hQ
    unfold outerLoop at h
    split at h
    · cases h; exact hQ
    · split at h
      · cases h; exact hQ
      · split at h
        · cases h; exact hQ
        · split at h
          · cases h
          · rename_i st1 hin
            exact ih st1 r h (innerLoop_preserves Q hstep n _ st st1 hin hQ)

theorem bookSorted_NewOrderbook (symbol : String) : BookSorted (NewOrderbook symbol) := by
  intro s
  cases s <;>
    exact ⟨by simp [NewOrderbook, Orderbook.side, NewBookSide],
      by simp [NewOrderbook, Orderbook.side, NewBookSide],
      by simp [NewOrderbook, Orderbook.side, NewBookSide],
      by simp [NewOrderbook, Orderbook.side, NewBookSide]⟩

theorem processOn_bookSorted {fuel : Nat} {ro : RangeOrder} {ob : Orderbook} {o : Order}
    {r : Orderbook × MatchResult × Order} (hs : BookSorted ob)
    (h : processOn fuel ro ob o = some r) : BookSorted r.1 := by
  obtain ⟨st1, hst, hr⟩ := processOn_eq h
  subst hr
  have h1 : BookSorted st1.ob :=
    outerLoop_preserves BookSorted bookSorted_step fuel _ st1 hst hs
  show BookSorted (restTaker st1).ob
  rw [restTaker_ob]
  split
  · exact bookSorted_addOrder h1 _
  · exact h1

theorem reachable_bookSorted {m : Matcher} (h : Reachable m) :
    ∀ symbol ob, m.orderbooks symbol = some ob → BookSorted ob := by
  induction h with
  | init => intro symbol ob hb; simp [NewMatcher] at hb
  | submit m fuel ro o out _ hsub ih =>
    intro symbol ob hb
    obtain ⟨r, hr, hbooks, _, _⟩ := processOrder_eq hsub
    rw [hbooks] at hb
    by_cases hs : symbol = o.Symbol
    · subst hs
      rw [Function.update_same] at hb
      cases hb
      refine processOn_bookSorted ?_ hr
      rw [matcher_book_eq]
      cases hm : m.orderbooks o.Symbol with
      | none => exact bookSorted_NewOrderbook _
      | some ob0 => exact ih _ ob0 hm
    · rw [Function.update_noteq hs] at hb
      exact ih symbol ob hb
  | cancel m symbol orderID _ ih =>
    intro symbol1 ob1 hb
    rw [cancelOrder_orderbooks] at hb
    cases hm0 : m.orderbooks symbol with
    | none =>
      rw [hm0] at hb
      exact ih symbol1 ob1 hb
    | some ob =>
      rw [hm0] at hb
      simp only at hb
      by_cases hs : symbol1 = symbol
      · subst hs
        rw [Function.update_same] at hb
        cases hb
        exact bookSorted_removeOrder (ih _ ob hm0) orderID
      · rw [Function.update_noteq hs] at hb
        exact ih symbol1 ob1 hb

theorem sortedView_best {bs : BookSide} {s : Side} (h : SortedView bs s) :
    (bs.Best = none ↔ ∀ k, bs.levels k = none) ∧
    ∀ L, bs.Best = some L → bs.levels L.Price = some L ∧
      ∀ k L1, bs.levels k = some L1 → k = L.Price ∨ better s L.Price k := by
  obtain ⟨_, hs, hk, hp⟩ := h
  unfold BookSide.Best
  cases hl : bs.sorted with
  | nil =>
    simp only [true_iff]
    refine ⟨?_, fun L hL => by cases hL⟩
    intro k
    have := (hk k).not
    rw [hl] at this
    simpa using this
  | cons p rest =>
    simp only
    have hpm : (bs.levels p).isSome = true := (hk p).1 (by rw [hl]; simp)
    obtain ⟨Lp, hLp⟩ := Option.isSome_iff_exists.mp hpm
    constructor
    · constructor
      · intro hnone
        rw [hLp] at hnone
        cases hnone
      · intro hall
        rw [hall p] at hLp
        cases hLp
    · intro L hL
      have hLP : L.Price = p := hp p L hL
      rw [hLP]
      refine ⟨hL, ?_⟩
      intro k L1 hL1
      have hkm : k ∈ bs.sorted := (hk k).2 (by rw [hL1]; rfl)
      rw [hl] at hkm hs
      rcases List.mem_cons.mp hkm with e | e
      · exact Or.inl e
      · exact Or.inr ((List.pairwise_cons.mp hs).1 k e)

theorem side_Buy (ob : Orderbook) : ob.side Side.Buy = ob.Bids := rfl

theorem side_Sell (ob : Orderbook) : ob.side Side.Sell = ob.Asks := rfl

theorem better_Buy (p q : Decimal) : better Side.Buy p q ↔ q < p := by
  simp [better]

theorem better_Sell (p q : Decimal) : better Side.Sell p q ↔ p < q := by
  simp [better]

/-- C16: `BookSide.AddOrder` and `BookSide.RemoveOrder` keep the ordering invariant
of a side, whatever their arguments.  In every book reached by submits and cancels
the ordered view of the bids is strictly descending and that of the asks strictly
ascending, neither holds a price twice, each lists exactly the prices under which the
side's map holds a level, and `Best` returns nothing exactly when the side holds no
level and otherwise the level whose price is the highest bid, respectively the
lowest ask. -/
theorem ordering_invariant (m : Matcher) (h : Reachable m) (symbol : String)
    (ob : Orderbook) (hb : m.orderbooks symbol = some ob) :
    (∀ (bs : BookSide) (s : Side), SortedView bs s →
      (∀ heap p, SortedView (bs.AddOrder heap p) s) ∧
      ∀ heap price id, SortedView (bs.RemoveOrder heap price id).1 s) ∧
    SortedView ob.Bids Side.Buy ∧ SortedView ob.Asks Side.Sell ∧
    ob.Bids.sorted.Pairwise (fun p q => q < p) ∧
    ob.Asks.sorted.Pairwise (fun p q => p < q) ∧
    ob.Bids.sorted.Nodup ∧ ob.Asks.sorted.Nodup ∧
    (∀ k, (k ∈ ob.Bids.sorted ↔ ∃ L, ob.Bids.levels k = some L ∧ L.Price = k) ∧
      (k ∈ ob.Asks.sorted ↔ ∃ L, ob.Asks.levels k = some L ∧ L.Price = k)) ∧
    (ob.BestBid = none ↔ ∀ k, ob.Bids.levels k = none) ∧
    (ob.BestAsk = none ↔ ∀ k, ob.Asks.levels k = none) ∧
    (∀ L, ob.BestBid = some L → ob.Bids.levels L.Price = some L ∧
      ∀ k L1, ob.Bids.levels k = some L1 → L1.Price ≤ L.Price) ∧
    ∀ L, ob.BestAsk = some L → ob.Asks.levels L.Price = some L ∧
      ∀ k L1, ob.Asks.levels k = some L1 → L.Price ≤ L1.Price := by
  have hB : SortedView ob.Bids Side.Buy := reachable_bookSorted h symbol ob hb Side.Buy
  have hA : SortedView ob.Asks Side.Sell := reachable_bookSorted h symbol ob hb Side.Sell
  have keys : ∀ (bs : BookSide) (s : Side), SortedView bs s → ∀ k,
      (k ∈ bs.sorted ↔ ∃ L, bs.levels k = some L ∧ L.Price = k) := by
    intro bs s hv k
    rw [hv.2.2.1 k]
    constructor
    · intro hs
      obtain ⟨L, hL⟩ := Option.isSome_iff_exists.mp hs
      exact ⟨L, hL, hv.2.2.2 k L hL⟩
    · rintro ⟨L, hL, _⟩
      rw [hL]; rfl
  refine ⟨fun bs s hv => ⟨fun heap p => sortedView_addOrder hv heap p,
      fun heap price id => sortedView_removeOrder hv heap price id⟩,
    hB, hA, ?_, ?_, pairwise_better_nodup hB.2.1, pairwise_better_nodup hA.2.1,
    fun k => ⟨keys _ _ hB k, keys _ _ hA k⟩, (sortedView_best hB).1, (sortedView_best hA).1,
    ?_, ?_⟩
  · exact hB.2.1.imp (fun hpq => (better_Buy _ _).1 hpq)
  · exact hA.2.1.imp (fun hpq => (better_Sell _ _).1 hpq)
  · intro L hL
    obtain ⟨h1, h2⟩ := (sortedView_best hB).2 L hL
    refine ⟨h1, ?_⟩
    intro k L1 hL1
    rw [hB.2.2.2 k L1 hL1]
    rcases h2 k L1 hL1 with e | e
    · exact le_of_eq e
    · exact le_of_lt ((better_Buy _ _).1 e)
  · intro L hL
    obtain ⟨h1, h2⟩ := (sortedView_best hA).2 L hL
    refine ⟨h1, ?_⟩
    intro k L1 hL1
    rw [hA.2.2.2 k L1 hL1]
    rcases h2 k L1 hL1 with e | e
    · exact le_of_eq e.symm
    · exact le_of_lt ((better_Sell _ _).1 e)

/-- Witness for `ordering_invariant`: the book after a bid and a crossing ask. -/
theorem ordering_invariant_witness :
    Reachable bidThenAsk ∧
      bidThenAsk.orderbooks "BTCUSDT" = some (bidThenAsk.book "BTCUSDT") ∧
      (bidThenAsk.book "BTCUSDT").Bids.sorted.Pairwise (fun p q => q < p) ∧
      (bidThenAsk.book "BTCUSDT").Asks.sorted.Pairwise (fun p q => p < q) :=
  ⟨reachable_submit (reachable_submit Reachable.init _) _, matcher_some_book (by decide!),
    (ordering_invariant bidThenAsk (reachable_submit (reachable_submit Reachable.init _) _)
      "BTCUSDT" _ (matcher_some_book (by decide!))).2.2.2.1,
    (ordering_invariant bidThenAsk (reachable_submit (reachable_submit Reachable.init _) _)
      "BTCUSDT" _ (matcher_some_book (by decide!))).2.2.2.2.1⟩

/-! ## Determinism (C18) -/

theorem innerLoop_mono : ∀ (n m : Nat) (key : Decimal) (st r : MatchState), n ≤ m →
    innerLoop n key st = some r → innerLoop m key st = some r := by
  intro n
  induction n with
  | zero => intro m key st r _ h; simp [innerLoop] at h
  | succ n ih =>
    intro m key st r hle h
    cases m with
    | zero => omega
    | succ m =>
      unfold innerLoop at h ⊢
      split at h
      · rename_i hf
        rw [if_pos hf]; exact h
      · rename_i hf
        rw [if_neg hf]
        split at h
        · rename_i hL
          exact h
        · rename_i L hL
          split at h
          · rename_i hE
            rw [if_pos hE]; exact h
          · rename_i hE
            rw [if_neg hE]
            split at h
            · rename_i hF
              exact h
            · rename_i a hF
              exact ih m key _ r (Nat.le_of_succ_le_succ hle) h

theorem outerLoop_mono : ∀ (n m : Nat) (st r : MatchState), n ≤ m →
    outerLoop n st = some r → outerLoop m st = some r := by
  intro n
  induction n with
  | zero => intro m st r _ h; simp [outerLoop] at h
  | succ n ih =>
    intro m st r hle h
    cases m with
    | zero => omega
    | succ m =>
      have hnm : n ≤ m := Nat.le_of_succ_le_succ hle
      unfold outerLoop at h ⊢
      split at h
      · rename_i hf
        rw [if_pos hf]; exact h
      · rename_i hf
        rw [if_neg hf]
        split at h
        · rename_i hB
          exact h
        · rename_i L hB
          split at h
          · rename_i hP
            rw [if_pos hP]; exact h
          · rename_i hP
            rw [if_neg hP]
            split at h
            · cases h
            · rename_i st1 hin
              rw [innerLoop_mono n m _ st st1 hnm hin]
              exact ih m st1 r hnm h

theorem outerLoop_fuel_irrelevant {n m : Nat} {st r1 r2 : MatchState}
    (h1 : outerLoop n st = some r1) (h2 : outerLoop m st = some r2) : r1 = r2 := by
  have e1 := outerLoop_mono n (max n m) st r1 (le_max_left _ _) h1
  have e2 := outerLoop_mono m (max n m) st r2 (le_max_right _ _) h2
  exact Option.some.inj (e1.symm.trans e2)

theorem fair_insertion : RangeOrder.insertion.Fair :=
  ⟨fun l => List.Perm.refl l, fun l => List.Perm.refl l⟩

theorem fair_reversed : RangeOrder.reversed.Fair :=
  ⟨fun l => List.reverse_perm l, fun l => List.reverse_perm l⟩

/-- C18 (as stated) fails: a sell of 3 at 99 sweeps the bids at 100 and at 99; two
runs from this one state that differ only in the order in which `range` visits the
two keys of `bidDeltas` return the two entries of `Bids` in opposite orders. -/
theorem delta_order_follows_range :
    RangeOrder.insertion.Fair ∧ RangeOrder.reversed.Fair ∧
      (twoBidLevels.ProcessOrder 16 RangeOrder.insertion sellSweep).map
          (fun out => out.result.OrderbookDelta.Bids) = some [(100, 0), (99, 0)] ∧
      (twoBidLevels.ProcessOrder 16 RangeOrder.reversed sellSweep).map
          (fun out => out.result.OrderbookDelta.Bids) = some [(99, 0), (100, 0)] :=
  ⟨fair_insertion, fair_reversed, by decide!, by decide!⟩

/-- C18 (amended): two runs of `ProcessOrder` from the same matcher state with the
same taker, whatever fuel they are given and in whatever order `range` visits the
keys of the delta maps, return the same trades, the same order updates, the same
matcher state, the same taker and the same delta symbol and sequence; the `Bids` and
`Asks` lists of the two deltas hold the same entries, possibly in another order, and
are equal when the visit order is the same. -/
theorem determinism_up_to_delta_order (m : Matcher) (o : Order) (fuel1 fuel2 : Nat)
    (ro1 ro2 : RangeOrder) (out1 out2 : Outcome) (hf1 : ro1.Fair) (hf2 : ro2.Fair)
    (h1 : m.ProcessOrder fuel1 ro1 o = some out1)
    (h2 : m.ProcessOrder fuel2 ro2 o = some out2) :
    out1.result.Trades = out2.result.Trades ∧
    out1.result.OrderUpdates = out2.result.OrderUpdates ∧
    out1.matcher = out2.matcher ∧ out1.order = out2.order ∧
    out1.result.OrderbookDelta.Symbol = out2.result.OrderbookDelta.Symbol ∧
    out1.result.OrderbookDelta.Sequence = out2.result.OrderbookDelta.Sequence ∧
    out1.result.OrderbookDelta.Bids.Perm out2.result.OrderbookDelta.Bids ∧
    out1.result.OrderbookDelta.Asks.Perm out2.result.OrderbookDelta.Asks ∧
    (ro1 = ro2 → out1 = out2) := by
  obtain ⟨r1, hr1, hb1, hres1, hord1⟩ := processOrder_eq h1
  obtain ⟨r2, hr2, hb2, hres2, hord2⟩ := processOrder_eq h2
  obtain ⟨st1, hst1, e1⟩ := processOn_eq hr1
  obtain ⟨st2, hst2, e2⟩ := processOn_eq hr2
  have hst : st1 = st2 := outerLoop_fuel_irrelevant hst1 hst2
  subst hst
  subst e1 e2
  have hm : out1.matcher = out2.matcher := by
    cases hx : out1.matcher with
    | mk b1 =>
      cases hy : out2.matcher with
      | mk b2 =>
        rw [hx] at hb1
        rw [hy] at hb2
        simp only at hb1 hb2
        rw [hb1, hb2]
  simp only at hres1 hres2 hord1 hord2
  refine ⟨by rw [hres1, hres2], by rw [hres1, hres2], hm, by rw [hord1, hord2],
    by rw [hres1, hres2]; rfl, by rw [hres1, hres2]; rfl, ?_, ?_, ?_⟩
  · rw [hres1, hres2]
    exact ((hf1.1 _).trans (hf2.1 _).symm).map _
  · rw [hres1, hres2]
    exact ((hf1.2 _).trans (hf2.2 _).symm).map _
  · intro e
    subst e
    cases out1 with
    | mk a1 b1 c1 =>
      cases out2 with
      | mk a2 b2 c2 =>
        simp only at hm hres1 hres2 hord1 hord2
        rw [hm, hres1, hres2, hord1, hord2]

/-- Witness for `determinism_up_to_delta_order`: the sweep of two bid levels, run with
the keys visited in insertion order and in reverse. -/
theorem determinism_up_to_delta_order_witness :
    RangeOrder.insertion.Fair ∧ RangeOrder.reversed.Fair ∧
      ∃ out1 out2, twoBidLevels.ProcessOrder 16 RangeOrder.insertion sellSweep = some out1 ∧
        twoBidLevels.ProcessOrder 16 RangeOrder.reversed sellSweep = some out2 ∧
        out1.result.Trades = out2.result.Trades ∧
        out1.result.OrderbookDelta.Bids.Perm out2.result.OrderbookDelta.Bids := by
  have hwf := matcherWF_book matcherWF_twoBidLevels sellSweep.Symbol
  have hfuel : ((twoBidLevels.book sellSweep.Symbol).side sellSweep.Side.opposite).count + 2
      ≤ 16 := by decide!
  obtain ⟨out1, h1⟩ := processOrder_terminates RangeOrder.insertion twoBidLevels sellSweep
    hwf 16 hfuel
  obtain ⟨out2, h2⟩ := processOrder_terminates RangeOrder.reversed twoBidLevels sellSweep
    hwf 16 hfuel
  have h := determinism_up_to_delta_order twoBidLevels sellSweep 16 16 RangeOrder.insertion
    RangeOrder.reversed out1 out2 fair_insertion fair_reversed h1 h2
  exact ⟨fair_insertion, fair_reversed, out1, out2, h1, h2, h.1, h.2.2.2.2.2.2.1⟩

/-! ## The cross terminates (C21) -/

theorem tradeBound_step (count0 : Nat) : StepInvariant (TradeBound count0) := by
  intro st k L a rest hwf hP hpre
  have hcount := matchStep_count hwf hpre
  have hk : k ∈ st.oppositeSide.sorted := List.mem_of_mem_head? hpre.head
  have hq : 0 < st.oppositeSide.count := by
    have h1 := queue_length_le_count st.oppositeSide k hk
    rw [queue_of_level hpre.level, hpre.front] at h1
    simp only [List.length_cons] at h1
    omega
  have hT : (matchStep st k a).Trades.length = st.Trades.length + 1 := by
    rw [matchStep_Trades]; simp
  rcases hP with h0 | ⟨hf, _, _⟩
  · by_cases hfill : (st.filledMaker a).IsFilled = true
    · left
      rw [if_pos hfill] at hcount
      rw [hT]; omega
    · right
      rw [if_neg hfill] at hcount
      refine ⟨matchStep_taker_filled st k a (by simpa using hfill), ?_, ?_⟩
      · rw [hT]; omega
      · omega
  · rw [hpre.notFilled] at hf
    cases hf

theorem forall2_left {α β : Type} {R : α → β → Prop} {l1 : List α} {l2 : List β}
    (h : List.Forall₂ R l1 l2) : ∀ x ∈ l1, ∃ y, R x y := by
  induction h with
  | nil => intro x hx; cases hx
  | cons hab _ ih =>
    intro x hx
    rcases List.mem_cons.mp hx with e | e
    · subst e; exact ⟨_, hab⟩
    · exact ih x e

/-- C21: on a book that satisfies the invariants, `ProcessOrder` returns for every
taker as soon as the fuel exceeds the number of orders resting on the opposite side
by two; it returns at most as many trades as there were orders resting on the
opposite side before the call; and the maker of each returned trade was resting on
the opposite side and is, after the call, completely filled and no longer queued,
unless the taker is filled. -/
theorem cross_terminates (m : Matcher) (ro : RangeOrder) (o : Order)
    (hwf : WF (m.book o.Symbol)) :
    (∀ fuel, ((m.book o.Symbol).side o.Side.opposite).count + 2 ≤ fuel →
      ∃ out, m.ProcessOrder fuel ro o = some out) ∧
    ∀ fuel out, m.ProcessOrder fuel ro o = some out →
      out.result.Trades.length ≤ ((m.book o.Symbol).side o.Side.opposite).count ∧
      ∀ t ∈ out.result.Trades, ∃ k a, Resting (m.book o.Symbol) o.Side.opposite k a ∧
        ((m.book o.Symbol).heap a).ID = t.MakerOrderID ∧
        ((((out.matcher.book o.Symbol).heap a).RemainingQty = 0 ∧
            ¬ Resting (out.matcher.book o.Symbol) o.Side.opposite k a) ∨
          out.order.RemainingQty = 0) := by
  refine ⟨fun fuel hfuel => processOrder_terminates ro m o hwf fuel hfuel, ?_⟩
  intro fuel out hout
  obtain ⟨st1, _, ⟨hB, hsh, hall⟩, _, _, hsame, hbook, htr, _, _, hord⟩ :=
    processOrder_invariant
      (fun st => TradeBound ((m.book o.Symbol).side o.Side.opposite).count st ∧
        UpdInv (m.book o.Symbol) st)
      (stepInvariant_and (tradeBound_step _) (updInv_step _)) hwf
      ⟨Or.inl (by simp [MatchState.oppositeSide]), shrinks_refl _, List.Forall₂.nil⟩ hout
  have hside : st1.order.Side = o.Side := by
    rw [sameButQty_Side hsame, marketPrice_Side]
  rw [htr, hord, hbook]
  constructor
  · rcases hB with h0 | ⟨_, h1, h2⟩
    · omega
    · omega
  · intro t ht
    obtain ⟨u, _, _, _, k, a, ha, hid, hrem, hdis⟩ := forall2_left hall t ht
    rw [hside] at ha hdis
    have halloc : a < st1.ob.next := by
      rw [hsh.1]
      exact ((hwf _).order k _ a ha.choose_spec.1 ha.choose_spec.2).1
    refine ⟨k, a, ha, hid, ?_⟩
    rcases hdis with ⟨hz, hgone⟩ | hfilled
    · left
      refine ⟨by rw [restTaker_heap st1 a halloc, hrem]; exact hz, ?_⟩
      rintro ⟨L, hL, haL⟩
      rw [← hside, restTaker_oppositeSide, hside] at hL
      exact hgone ⟨L, hL, haL⟩
    · exact Or.inr ((isFilled_iff _).1 hfilled)

/-- Witness for `cross_terminates`: a sell of 3 at 99 against bids at 100 and 99. -/
theorem cross_terminates_witness :
    WF (twoBidLevels.book sellSweep.Symbol) ∧
      ∃ out, twoBidLevels.ProcessOrder 16 RangeOrder.insertion sellSweep = some out ∧
        out.result.Trades.length ≤
          ((twoBidLevels.book sellSweep.Symbol).side sellSweep.Side.opposite).count := by
  have hwf := matcherWF_book matcherWF_twoBidLevels sellSweep.Symbol
  have h := cross_terminates twoBidLevels RangeOrder.insertion sellSweep hwf
  obtain ⟨out, hout⟩ := h.1 16 (by decide!)
  exact ⟨hwf, out, hout, (h.2 16 out hout).1⟩

/-! ## The book is never left crossed (C22) -/

theorem wf_bookSorted {ob : Orderbook} (hwf : WF ob) : BookSorted ob :=
  fun s => ⟨(hwf s).descend, (hwf s).sorted, (hwf s).keys,
    fun k L hL => ((hwf s).level k L hL).1⟩

theorem sortedView_best_head {bs : BookSide} {s : Side} (h : SortedView bs s) {p : Decimal}
    {ps : List Decimal} (hs : bs.sorted = p :: ps) :
    ∃ L, bs.Best = some L ∧ L.Price = p := by
  have hp : (bs.levels p).isSome = true := (h.2.2.1 p).1 (by rw [hs]; simp)
  obtain ⟨L, hL⟩ := Option.isSome_iff_exists.mp hp
  refine ⟨L, ?_, h.2.2.2 p L hL⟩
  unfold BookSide.Best
  rw [hs]
  exact hL

theorem sortedView_best_mem {bs : BookSide} {s : Side} (h : SortedView bs s)
    {L : PriceLevel} (hB : bs.Best = some L) :
    bs.sorted.head? = some L.Price := by
  unfold BookSide.Best at hB
  cases hs : bs.sorted with
  | nil => rw [hs] at hB; cases hB
  | cons p ps =>
    rw [hs] at hB
    simp only at hB
    rw [h.2.2.2 p L hB]
    rfl

theorem uncrossed_iff_allBelow {ob : Orderbook} (h : BookSorted ob) :
    Uncrossed ob ↔ AllBelow ob := by
  have hB : SortedView ob.Bids Side.Buy := h Side.Buy
  have hA : SortedView ob.Asks Side.Sell := h Side.Sell
  constructor
  · rintro (h0 | h0 | ⟨b, a, hb, ha, hlt⟩)
    · intro p hp; rw [h0] at hp; cases hp
    · intro p _ q hq; rw [h0] at hq; cases hq
    · intro p hp q hq
      have hbh := sortedView_best_mem hB hb
      have hah := sortedView_best_mem hA ha
      have h1 : p ≤ b.Price := by
        cases hs : ob.Bids.sorted with
        | nil => rw [hs] at hp; cases hp
        | cons x xs =>
          rw [hs] at hbh hp
          simp only [List.head?_cons, Option.some.injEq] at hbh
          have hpw := hB.2.1
          rw [hs] at hpw
          rcases List.mem_cons.mp hp with e | e
          · rw [e, hbh]
          · have := (better_Buy _ _).1 ((List.pairwise_cons.mp hpw).1 p e)
            rw [← hbh]
            exact le_of_lt this
      have h2 : a.Price ≤ q := by
        cases hs : ob.Asks.sorted with
        | nil => rw [hs] at hq; cases hq
        | cons x xs =>
          rw [hs] at hah hq
          simp only [List.head?_cons, Option.some.injEq] at hah
          have hpw := hA.2.1
          rw [hs] at hpw
          rcases List.mem_cons.mp hq with e | e
          · rw [e, hah]
          · have := (better_Sell _ _).1 ((List.pairwise_cons.mp hpw).1 q e)
            rw [← hah]
            exact le_of_lt this
      exact lt_of_le_of_lt h1 (lt_of_lt_of_le hlt h2)
  · intro hall
    cases hb : ob.Bids.sorted with
    | nil => exact Or.inl hb
    | cons p ps =>
      cases ha : ob.Asks.sorted with
      | nil => exact Or.inr (Or.inl ha)
      | cons q qs =>
        obtain ⟨b, hb1, hb2⟩ := sortedView_best_head hB hb
        obtain ⟨a, ha1, ha2⟩ := sortedView_best_head hA ha
        refine Or.inr (Or.inr ⟨b, a, hb1, ha1, ?_⟩)
        rw [hb2, ha2]
        exact hall p (by rw [hb]; simp) q (by rw [ha]; simp)

theorem sorted_subset_of_shrinks {ob ob1 : Orderbook} (h : BookSorted ob)
    (h1 : BookSorted ob1) (hs : Shrinks ob ob1) (s : Side) :
    (ob1.side s).sorted ⊆ (ob.side s).sorted := by
  intro k hk
  have hsome := ((h1 s).2.2.1 k).1 hk
  obtain ⟨L1, hL1⟩ := Option.isSome_iff_exists.mp hsome
  obtain ⟨L, hL, _⟩ := hs.2.2 s k L1 hL1
  exact ((h s).2.2.1 k).2 (by rw [hL]; rfl)

theorem allBelow_of_shrinks {ob ob1 : Orderbook} (h : BookSorted ob)
    (h1 : BookSorted ob1) (hs : Shrinks ob ob1) (hall : AllBelow ob) : AllBelow ob1 := by
  intro p hp q hq
  exact hall p (sorted_subset_of_shrinks h h1 hs Side.Buy hp) q
    (sorted_subset_of_shrinks h h1 hs Side.Sell hq)

theorem addOrder_sorted_subset (ob : Orderbook) (o : Order) (s : Side) :
    ∀ k ∈ ((ob.AddOrder o).side s).sorted,
      (s = o.Side ∧ k = o.Price) ∨ k ∈ (ob.side s).sorted := by
  intro k hk
  rw [orderbook_addOrder_side] at hk
  by_cases hs : s = o.Side
  · rw [if_pos hs, bookSide_addOrder_sorted] at hk
    simp only [Function.update_same] at hk
    split at hk
    · exact Or.inr hk
    · rcases (mem_insert_at _ _ _ _).1 hk with e | e
      · exact Or.inl ⟨hs, e⟩
      · exact Or.inr e
  · rw [if_neg hs] at hk
    exact Or.inr hk

theorem removeOrder_uncrossed {ob : Orderbook} (hs : BookSorted ob) (hu : Uncrossed ob)
    (id : String) : Uncrossed (ob.RemoveOrder id).1 := by
  have hs1 := bookSorted_removeOrder hs id
  rw [uncrossed_iff_allBelow hs1]
  exact allBelow_of_shrinks hs hs1 (orderbook_removeOrder_shrinks ob id)
    ((uncrossed_iff_allBelow hs).1 hu)

theorem cancelOrder_book (m : Matcher) (symbol orderID : String) :
    (m.CancelOrder symbol orderID).1.book symbol = ((m.book symbol).RemoveOrder orderID).1 := by
  rw [matcher_book_eq, cancelOrder_orderbooks, matcher_book_eq]
  cases hb : m.orderbooks symbol with
  | none =>
    simp only [hb, Option.getD_none]
    rw [removeOrder_none]
    rfl
  | some ob =>
    simp only [Function.update_same, Option.getD_some]

/-- The head of the opposite side does not cross the taker's price. -/
theorem done_not_cross {st : MatchState} (hwf : WF st.ob) (hd : st.Done)
    (hnf : st.order.IsFilled = false) :
    ∀ x ∈ (st.ob.side st.order.Side.opposite).sorted,
      (st.order.Side = Side.Buy → st.order.Price < x) ∧
      (st.order.Side = Side.Sell → x < st.order.Price) := by
  intro x hx
  rcases hd with hf | he | ⟨k, hk, hnc⟩
  · rw [hnf] at hf; cases hf
  · have he1 : (st.ob.side st.order.Side.opposite).sorted = [] := he
    rw [he1] at hx; cases hx
  · have hk1 : (st.ob.side st.order.Side.opposite).sorted.head? = some k := hk
    obtain ⟨hcons, _, hbest⟩ := wf_sorted_cons hwf hk1
    rw [hcons] at hx
    have hxk : x = k ∨ better st.order.Side.opposite k x := by
      rcases List.mem_cons.mp hx with e | e
      · exact Or.inl e
      · exact Or.inr (hbest x e)
    constructor
    · intro hB
      rw [hB] at hnc hxk
      have hlt : st.order.Price < k := by
        simpa [priceMatches] using hnc
      rcases hxk with e | e
      · rw [e]; exact hlt
      · have : k < x := by simpa [Side.opposite, better] using e
        exact lt_trans hlt this
    · intro hS
      rw [hS] at hnc hxk
      have hlt : k < st.order.Price := by
        simpa [priceMatches] using hnc
      rcases hxk with e | e
      · rw [e]; exact hlt
      · have : x < k := by simpa [Side.opposite, better] using e
        exact lt_trans this hlt

theorem true_step : StepInvariant (fun _ => True) :=
  fun _ _ _ _ _ _ _ _ => trivial

theorem best_of_sorted_nil (bs : BookSide) (h : bs.sorted = []) : bs.Best = none := by
  unfold BookSide.Best
  rw [h]

/-- C22: on a book that satisfies the invariants and is not crossed, `ProcessOrder`
returns and leaves the book not crossed, and when the taker rests (a limit order
with a remainder) the opposite side is empty or its best price does not cross the
taker's limit; `CancelOrder` leaves the book not crossed as well. -/
theorem never_left_crossed (m : Matcher) (symbol : String) (hwf : WF (m.book symbol))
    (hu : Uncrossed (m.book symbol)) :
    (∀ (ro : RangeOrder) (o : Order), o.Symbol = symbol →
      (∃ out, m.ProcessOrder (((m.book symbol).side o.Side.opposite).count + 2) ro o
        = some out) ∧
      ∀ fuel out, m.ProcessOrder fuel ro o = some out →
        Uncrossed (out.matcher.book symbol) ∧
        (out.rests = true →
          ((out.matcher.book symbol).side o.Side.opposite).Best = none ∨
          ∃ L, ((out.matcher.book symbol).side o.Side.opposite).Best = some L ∧
            (o.Side = Side.Buy → o.Price < L.Price) ∧
            (o.Side = Side.Sell → L.Price < o.Price))) ∧
    ∀ orderID, Uncrossed ((m.CancelOrder symbol orderID).1.book symbol) := by
  have hs0 := wf_bookSorted hwf
  constructor
  · intro ro o hsym
    subst hsym
    refine ⟨processOrder_terminates ro m o hwf _ (le_refl _), ?_⟩
    intro fuel out hout
    obtain ⟨st1, hst, _, hwf1, hdone, hsame, hbook, _, _, _, hord⟩ :=
      processOrder_invariant (fun _ => True) true_step hwf trivial hout
    obtain ⟨hsh, _⟩ := outerLoop_shrinks _ _ _ hst
    have hs1 := wf_bookSorted hwf1
    have hall1 : AllBelow st1.ob :=
      allBelow_of_shrinks hs0 hs1 hsh ((uncrossed_iff_allBelow hs0).1 hu)
    have hside : st1.order.Side = o.Side := by
      rw [sameButQty_Side hsame, marketPrice_Side]
    have htyp : st1.order.Typ = o.Typ := by
      rw [sameButQty_Typ hsame, marketPrice_Typ]
    have hrests : out.rests = true ↔
        (st1.order.IsFilled = false ∧ st1.order.Typ = OrderType.Limit) := by
      unfold Outcome.rests
      rw [hord]
      simp
    rw [hbook]
    constructor
    · have hsf : BookSorted (restTaker st1).ob := by
        rw [restTaker_ob]
        split
        · exact bookSorted_addOrder hs1 _
        · exact hs1
      rw [uncrossed_iff_allBelow hsf, restTaker_ob]
      split
      · rename_i hr
        have hnc := done_not_cross hwf1 hdone hr.1
        intro p hp q hq
        rcases addOrder_sorted_subset st1.ob st1.order Side.Buy p hp with ⟨e1, e2⟩ | hp1
        · rcases addOrder_sorted_subset st1.ob st1.order Side.Sell q hq with ⟨f1, _⟩ | hq1
          · rw [← e1] at f1
            cases f1
          · have hq2 : q ∈ (st1.ob.side st1.order.Side.opposite).sorted := by
              rw [← e1]; exact hq1
            rw [e2]
            exact (hnc q hq2).1 e1.symm
        · rcases addOrder_sorted_subset st1.ob st1.order Side.Sell q hq with ⟨f1, f2⟩ | hq1
          · have hp2 : p ∈ (st1.ob.side st1.order.Side.opposite).sorted := by
              rw [← f1]; exact hp1
            rw [f2]
            exact (hnc p hp2).2 f1.symm
          · exact hall1 p hp1 q hq1
      · exact hall1
    · intro hr
      obtain ⟨hnf, hl⟩ := hrests.1 hr
      have hprice : st1.order.Price = o.Price := by
        rw [sameButQty_Price hsame, marketPrice_of_limit o (htyp.symm.trans hl)]
      have hopp : (restTaker st1).ob.side o.Side.opposite =
          st1.ob.side st1.order.Side.opposite := by
        rw [← hside, restTaker_oppositeSide]
      rw [hopp]
      have hnc := done_not_cross hwf1 hdone hnf
      cases hso : (st1.ob.side st1.order.Side.opposite).sorted with
      | nil => exact Or.inl (best_of_sorted_nil _ hso)
      | cons k ks =>
        obtain ⟨L, hL1, hL2⟩ := sortedView_best_head (hs1 _) hso
        refine Or.inr ⟨L, hL1, ?_⟩
        have := hnc k (by rw [hso]; simp)
        rw [hL2, ← hprice, ← hside]
        exact this
  · intro orderID
    rw [cancelOrder_book]
    exact removeOrder_uncrossed hs0 hu orderID

theorem uncrossed_oneBid : Uncrossed (oneBid.book "BTCUSDT") :=
  Or.inr (Or.inl (by decide!))

/-- Witness for `never_left_crossed`: an ask of 1 at 101 submitted to a book that
holds a bid of 2 at 100. -/
theorem never_left_crossed_witness :
    WF (oneBid.book "BTCUSDT") ∧ Uncrossed (oneBid.book "BTCUSDT") ∧
      ∃ out, oneBid.ProcessOrder 16 RangeOrder.insertion askAbove = some out ∧
        Uncrossed (out.matcher.book "BTCUSDT") := by
  have hwf := matcherWF_book matcherWF_oneBid "BTCUSDT"
  have h := (never_left_crossed oneBid "BTCUSDT" hwf uncrossed_oneBid).1
    RangeOrder.insertion askAbove rfl
  obtain ⟨out, hout⟩ := processOrder_terminates RangeOrder.insertion oneBid askAbove hwf 16
    (by decide!)
  exact ⟨hwf, uncrossed_oneBid, out, hout, (h.2 16 out hout).1⟩

/-! ## Inputs outside the preconditions -/

/-- C10 (as stated) fails: the book holds a bid of 2 at 100 and satisfies the
invariants; a buy of -2 at 100 is queued behind it, the delta lists the price 100
with volume "0", and the level at 100 exists after the call, with both orders
queued and `Volume` 0. -/
theorem delta_zero_for_existing_level :
    WF (oneBid.book negativeBuy.Symbol) ∧
      (oneBid.ProcessOrder 16 RangeOrder.insertion negativeBuy).map
          (fun out => out.result.OrderbookDelta.Bids) = some [(100, 0)] ∧
      (oneBid.ProcessOrder 16 RangeOrder.insertion negativeBuy).map
          (fun out => levelView (out.matcher.book "BTCUSDT") Side.Buy 100) =
        some (some (0, [("O1", 2), ("N1", -2)])) :=
  ⟨matcherWF_book matcherWF_oneBid _, by decide!, by decide!⟩

/-- C17 (as stated) fails: a single submit, whose id is trivially unique, of a buy
of -2 at 100 leaves that order queued in the level at 100 with `RemainingQty` -2. -/
theorem negative_remainder_rests :
    ReachableFresh negativeBid ∧
      levelView (negativeBid.book "BTCUSDT") Side.Buy 100 = some (-2, [("N1", -2)]) :=
  ⟨reachableFresh_submit ReachableFresh.init _ (fun ob hob => by simp [NewMatcher] at hob),
    by decide!⟩

/-- C14 (as stated) fails: after O1 is submitted twice and the id O1 is cancelled,
`Sequence` is 3 and the first O1 is queued without an entry in `Orders`.  A sell
of 1 at 100 fills it completely: its update has status FILLED, the taker is filled
and does not rest, and `Sequence` is still 3 after the call. -/
theorem filled_maker_without_increment :
    Reachable staleMaker ∧ (staleMaker.book "BTCUSDT").Sequence = 3 ∧
      (staleMaker.ProcessOrder 16 RangeOrder.insertion sellOne).map
          (fun out => updateView out.result.OrderUpdates) =
        some [("O1", 0, "FILLED"), ("T1", 0, "FILLED")] ∧
      (staleMaker.ProcessOrder 16 RangeOrder.insertion sellOne).map
          (fun out => ((out.matcher.book "BTCUSDT").Sequence, out.rests)) =
        some (3, false) :=
  ⟨Reachable.cancel _ _ _ (reachable_submit (reachable_submit Reachable.init _) _),
    by decide!, by decide!, by decide!⟩

/-! ## Depth queries with a non-negative limit -/

theorem mapM_levels (bs : BookSide) (l : List Decimal)
    (h : ∀ k ∈ l, (bs.levels k).isSome = true) :
    ∃ es, l.mapM (fun price => (bs.levels price).map (fun level => (price, level.Volume)))
        = some es ∧
      List.Forall₂ (fun k e => e.1 = k ∧ ∃ L, bs.levels k = some L ∧ e.2 = L.Volume) l es := by
  induction l with
  | nil => exact ⟨[], rfl, List.Forall₂.nil⟩
  | cons k ks ih =>
    obtain ⟨es, hes, hall⟩ := ih (fun x hx => h x (List.mem_cons_of_mem _ hx))
    obtain ⟨L, hL⟩ := Option.isSome_iff_exists.mp (h k (List.mem_cons_self _ _))
    refine ⟨(k, L.Volume) :: es, ?_, List.Forall₂.cons ⟨rfl, L, hL, rfl⟩ hall⟩
    rw [List.mapM_cons, hL, hes]
    rfl

theorem getLevels_of_nonneg {bs : BookSide} {s : Side} (h : SortedView bs s) (n : Int)
    (hn : 0 ≤ n) :
    ∃ es, bs.GetLevels n = some es ∧
      List.Forall₂ (fun k e => e.1 = k ∧ ∃ L, bs.levels k = some L ∧ e.2 = L.Volume)
        (bs.sorted.take n.toNat) es := by
  have hmin : ¬ minInt n bs.sorted.length < 0 := by
    unfold minInt
    split
    · omega
    · omega
  unfold BookSide.GetLevels
  rw [if_neg hmin]
  exact mapM_levels bs _ (fun k hk => (h.2.2.1 k).1 (List.mem_of_mem_take hk))

/-- C19 (amended): for every limit `n` that is not negative and every side that
satisfies the ordering invariant, `GetLevels n` completes and returns one entry for
each of the first min(n, L) prices of the ordered view, in that order, the entry of
a price being the price with the current `Volume` of its level; it returns no entry
when `n` is 0; and `GetDepth n` completes with these lists for the bids and for the
asks. -/
theorem depth_prefix_of_nonneg_limit (ob : Orderbook) (h : BookSorted ob) (n : Int)
    (hn : 0 ≤ n) :
    (∀ s, ∃ es, (ob.side s).GetLevels n = some es ∧
      es.length = min n.toNat (ob.side s).sorted.length ∧
      es.map Prod.fst = (ob.side s).sorted.take n.toNat ∧
      List.Forall₂ (fun k e => e.1 = k ∧ ∃ L, (ob.side s).levels k = some L ∧ e.2 = L.Volume)
        ((ob.side s).sorted.take n.toNat) es ∧
      (n = 0 → es = [])) ∧
    ∃ bids asks, ob.GetDepth n = some (bids, asks) ∧
      ob.Bids.GetLevels n = some bids ∧ ob.Asks.GetLevels n = some asks := by
  have key : ∀ s, ∃ es, (ob.side s).GetLevels n = some es ∧
      es.length = min n.toNat (ob.side s).sorted.length ∧
      es.map Prod.fst = (ob.side s).sorted.take n.toNat ∧
      List.Forall₂ (fun k e => e.1 = k ∧ ∃ L, (ob.side s).levels k = some L ∧ e.2 = L.Volume)
        ((ob.side s).sorted.take n.toNat) es ∧
      (n = 0 → es = []) := by
    intro s
    obtain ⟨es, hes, hall⟩ := getLevels_of_nonneg (h s) n hn
    have hlen : es.length = min n.toNat (ob.side s).sorted.length := by
      rw [← hall.length_eq, List.length_take]
    have hfst : es.map Prod.fst = (ob.side s).sorted.take n.toNat := by
      have hgen : ∀ (l : List Decimal) (es : List (Decimal × Decimal)),
          List.Forall₂ (fun k e => e.1 = k ∧
            ∃ L, (ob.side s).levels k = some L ∧ e.2 = L.Volume) l es →
          es.map Prod.fst = l := by
        intro l es hf
        induction hf with
        | nil => rfl
        | cons hab _ ih => rw [List.map_cons, ih, hab.1]
      exact hgen _ _ hall
    refine ⟨es, hes, hlen, hfst, hall, ?_⟩
    intro h0
    rw [h0] at hlen
    simp only [Int.toNat_zero, Nat.zero_min] at hlen
    exact List.length_eq_zero.mp hlen
  refine ⟨key, ?_⟩
  obtain ⟨bids, hb, _⟩ := key Side.Buy
  obtain ⟨asks, ha, _⟩ := key Side.Sell
  have hb1 : ob.Bids.GetLevels n = some bids := hb
  have ha1 : ob.Asks.GetLevels n = some asks := ha
  refine ⟨bids, asks, ?_, hb1, ha1⟩
  unfold Orderbook.GetDepth
  rw [hb1, ha1]

/-- Witness for `depth_prefix_of_nonneg_limit`: the book with bids at 100 and 99,
asked for one level. -/
theorem depth_prefix_of_nonneg_limit_witness :
    BookSorted (twoBidLevels.book "BTCUSDT") ∧ (0 : Int) ≤ 1 ∧
      (twoBidLevels.book "BTCUSDT").Bids.GetLevels 1 = some [(100, 2)] ∧
      ∃ bids asks, (twoBidLevels.book "BTCUSDT").GetDepth 1 = some (bids, asks) :=
  ⟨wf_bookSorted (matcherWF_book matcherWF_twoBidLevels _), by decide, by decide!,
    (let ⟨bids, asks, h, _⟩ :=
      (depth_prefix_of_nonneg_limit (twoBidLevels.book "BTCUSDT")
        (wf_bookSorted (matcherWF_book matcherWF_twoBidLevels _)) 1 (by decide)).2
     ⟨bids, asks, h⟩)⟩

end Engine
